import Mathlib

/-!
# Quadtree (`stojg/tree`): shallow embedding and verified properties

Embedding of `structs.go` (the rectangle primitive) and `quadtree.go` (the tree).

Modelling conventions.

* Coordinates are `float64` in the source.  They are taken here as exact numbers:
  every definition is generic over a linearly ordered commutative ring `α`
  (`ℤ`, `ℚ`, `ℝ`, ...).  The source only adds, subtracts and compares coordinates.
  Concrete scenarios are evaluated at `α = ℤ`; all the numbers used there are
  small integers, represented exactly by `float64`.
* `*Rectangle` and `*QuadTree` pointers become values.  `QuadTree.nil` is the nil
  pointer; a method called on it panics in Go.
* `nodes map[int]*QuadTree` is only ever written under the four keys
  `TOP_LEFT .. BOTTOM_RIGHT` (in `split`) or replaced by an empty map.  It is
  modelled by four slots; slot `k` holds `QuadTree.nil` when key `k` is absent.
* Mutation in place becomes a function to the new state.  `Insert` is recursive
  through freshly created children, so it is defined with a fuel argument;
  running out of fuel and a Go panic both give `none`.
* `range` over a Go map visits the present keys in an unspecified order.  The
  traversals take an explicit `RangeOrder` saying, for the node reached by a given
  path from the receiver, in which order its keys are visited.
-/

set_option linter.unusedSectionVars false
set_option linter.unusedVariables false

namespace Quad

/-! ## `structs.go` -/

/-- Source: `type position struct { X, Y float64 }`. -/
structure position (α : Type) where
  X : α
  Y : α
deriving DecidableEq, Repr

/-- Source: `type Rectangle struct { position; minX; maxX; minY; maxY }`. -/
structure Rectangle (α : Type) where
  position : position α
  minX : α
  maxX : α
  minY : α
  maxY : α
deriving DecidableEq, Repr

variable {α : Type} [LinearOrderedCommRing α]

/-- Source: `NewRectangle(x, y, halfWidth, halfHeight)`. -/
def NewRectangle (x y halfWidth halfHeight : α) : Rectangle α :=
  { position := { X := x, Y := y }
    minX := x - halfWidth
    maxX := x + halfWidth
    minY := y - halfHeight
    maxY := y + halfHeight }

/-- Source: `(r *Rectangle) Intersects(other)`. -/
def Rectangle.Intersects (r other : Rectangle α) : Bool :=
  decide (r.minX < other.maxX) && decide (r.minY < other.maxY) &&
    decide (r.maxX > other.minX) && decide (r.maxY > other.minY)

/-- Source: `(r *Rectangle) Contains(other)`. -/
def Rectangle.Contains (r other : Rectangle α) : Bool :=
  decide (r.minX ≤ other.minX) && decide (r.minY ≤ other.minY) &&
    decide (r.maxX ≥ other.maxX) && decide (r.maxY ≥ other.maxY)

/-! ## `quadtree.go` -/

/-- Source: `MAX_OBJECTS = 12`. -/
def MAX_OBJECTS : Nat := 12

/-- Source: `MAX_LEVELS = 5`.  Levels are Go `int`s; the only arithmetic on them is
`level + 1` in `split`, which runs only when `level < MAX_LEVELS`, so `Int` is exact. -/
def MAX_LEVELS : Int := 5

/-- Source: `TOP_LEFT = iota`. -/
def TOP_LEFT : Int := 0

/-- Source: `TOP_RIGHT`. -/
def TOP_RIGHT : Int := 1

/-- Source: `BOTTOM_LEFT`. -/
def BOTTOM_LEFT : Int := 2

/-- Source: `BOTTOM_RIGHT`. -/
def BOTTOM_RIGHT : Int := 3

/-- Source: `type QuadTree struct { bounds; objects; nodes; level }`.
`nil` is the nil pointer; in `mk`, `n0 .. n3` are the entries of the `nodes` map under
the keys `TOP_LEFT`, `TOP_RIGHT`, `BOTTOM_LEFT`, `BOTTOM_RIGHT` (`nil`: key absent). -/
inductive QuadTree (α : Type) where
  | nil : QuadTree α
  | mk (bounds : Rectangle α) (objects : List (Rectangle α))
      (n0 n1 n2 n3 : QuadTree α) (level : Int) : QuadTree α
deriving DecidableEq, Repr

namespace QuadTree

/-- Whether the pointer is nil. -/
def isNil : QuadTree α → Bool
  | nil => true
  | mk _ _ _ _ _ _ _ => false

/-- Field `q.objects` (empty for the nil pointer, which has no fields). -/
def objects : QuadTree α → List (Rectangle α)
  | nil => []
  | mk _ objs _ _ _ _ _ => objs

/-- Number of keys present in `q.nodes`: the source's `len(q.nodes)`. -/
def lenNodes : QuadTree α → Nat
  | nil => 0
  | mk _ _ n0 n1 n2 n3 _ =>
    (if n0.isNil then 0 else 1) + (if n1.isNil then 0 else 1) +
      (if n2.isNil then 0 else 1) + (if n3.isNil then 0 else 1)

/-- Map lookup `q.nodes[k]`; an absent key gives the nil pointer, as in Go. -/
def nodeAt : QuadTree α → Int → QuadTree α
  | nil, _ => nil
  | mk _ _ n0 n1 n2 n3 _, k =>
    if k = 0 then n0 else if k = 1 then n1 else if k = 2 then n2 else if k = 3 then n3 else nil

/-- The node with the child under key `k` replaced by `c`: the effect on the parent of
a mutation performed through the pointer `q.nodes[k]`. -/
def setNode : QuadTree α → Int → QuadTree α → QuadTree α
  | nil, _, _ => nil
  | mk b objs n0 n1 n2 n3 l, k, c =>
    if k = 0 then mk b objs c n1 n2 n3 l
    else if k = 1 then mk b objs n0 c n2 n3 l
    else if k = 2 then mk b objs n0 n1 c n3 l
    else if k = 3 then mk b objs n0 n1 n2 c l
    else mk b objs n0 n1 n2 n3 l

/-- Assignment `q.objects = objs`. -/
def setObjects : QuadTree α → List (Rectangle α) → QuadTree α
  | nil, _ => nil
  | mk b _ n0 n1 n2 n3 l, objs => mk b objs n0 n1 n2 n3 l

end QuadTree

open QuadTree

/-- Source: `NewQuadTree(pLevel, bounds)`: no objects, empty `nodes` map. -/
def NewQuadTree (pLevel : Int) (bounds : Rectangle α) : QuadTree α :=
  mk bounds [] nil nil nil nil pLevel

/-- Source: `(q *QuadTree) index(r)`.  The method reads only `q.bounds`, which is the
first argument here. -/
def index (bounds r : Rectangle α) : Int :=
  let left := decide (r.position.X < bounds.position.X) && decide (r.maxX < bounds.position.X)
  let top := decide (r.position.Y < bounds.position.Y) && decide (r.maxY < bounds.position.Y)
  if top && left then TOP_LEFT
  else
    let right := decide (r.position.X > bounds.position.X) && decide (r.minX > bounds.position.X)
    if top && right then TOP_RIGHT
    else
      let bottom :=
        decide (r.position.Y > bounds.position.Y) && decide (r.minY > bounds.position.Y)
      if bottom && left then BOTTOM_LEFT
      else if bottom && right then BOTTOM_RIGHT
      else -1

/-- Source: `(q *QuadTree) split()`: assigns the four keys of `q.nodes`. -/
def split : QuadTree α → QuadTree α
  | nil => nil
  | mk b objs _ _ _ _ l =>
    let subWidth := b.maxX - b.minX
    let subHeight := b.maxY - b.minY
    let x := b.position.X
    let y := b.position.Y
    mk b objs
      (NewQuadTree (l + 1) (NewRectangle (x - subWidth) (y - subHeight) subWidth subHeight))
      (NewQuadTree (l + 1) (NewRectangle (x + subWidth) (y - subHeight) subWidth subHeight))
      (NewQuadTree (l + 1) (NewRectangle (x - subWidth) (y + subHeight) subWidth subHeight))
      (NewQuadTree (l + 1) (NewRectangle (x + subWidth) (y + subHeight) subWidth subHeight))
      l

/-- The redistribution loop of `Insert`,
`for i := len(q.objects) - 1; i >= 0; i-- { ... }`, with `ins` the recursive `Insert`.
The first argument is `i + 1`; `none` is a panic of the loop body. -/
def redistribute (ins : QuadTree α → Rectangle α → Option (QuadTree α)) :
    Nat → QuadTree α → Option (QuadTree α)
  | 0, q => some q
  | i + 1, q =>
    match q.objects.get? i with
    | none => none
    | some o =>
      match q with
      | nil => none
      | mk b objs n0 n1 n2 n3 l =>
        if index b o ≠ -1 then
          match ins (nodeAt (mk b objs n0 n1 n2 n3 l) (index b o)) o with
          | none => none
          | some c =>
            redistribute ins i
              (setObjects (setNode (mk b objs n0 n1 n2 n3 l) (index b o) c)
                (objs.take i ++ objs.drop (i + 1)))
        else redistribute ins i (mk b objs n0 n1 n2 n3 l)

/-- Source: `(q *QuadTree) Insert(rectangle)`, with fuel bounding the depth of the
nested calls.  `none`: fuel exhausted, or a nil pointer was dereferenced. -/
def InsertFuel : Nat → QuadTree α → Rectangle α → Option (QuadTree α)
  | 0, _, _ => none
  | _ + 1, nil, _ => none
  | fuel + 1, mk b objs n0 n1 n2 n3 l, rectangle =>
    if lenNodes (mk b objs n0 n1 n2 n3 l) ≠ 0 ∧ index b rectangle ≠ -1 then
      match InsertFuel fuel (nodeAt (mk b objs n0 n1 n2 n3 l) (index b rectangle)) rectangle with
      | none => none
      | some c => some (setNode (mk b objs n0 n1 n2 n3 l) (index b rectangle) c)
    else
      let q1 := mk b (objs ++ [rectangle]) n0 n1 n2 n3 l
      if q1.objects.length > MAX_OBJECTS ∧ l < MAX_LEVELS then
        let q2 := if lenNodes q1 = 0 then split q1 else q1
        redistribute (InsertFuel fuel) q2.objects.length q2
      else some q1

/-- Fuel that suffices for `Insert` on `q`: one more than the number of levels that
exist or can still be created below `q`. -/
def depthBudget : QuadTree α → Nat
  | nil => 0
  | mk _ _ n0 n1 n2 n3 l =>
    max (MAX_LEVELS - l).toNat
      (max (max (depthBudget n0) (depthBudget n1)) (max (depthBudget n2) (depthBudget n3))) + 1

/-- Source: `(q *QuadTree) Insert(rectangle)`, run with sufficient fuel. -/
def Insert (q : QuadTree α) (rectangle : Rectangle α) : Option (QuadTree α) :=
  InsertFuel (depthBudget q) q rectangle

/-- A sequence of `Insert` calls on the same root. -/
def InsertAll (q : QuadTree α) : List (Rectangle α) → Option (QuadTree α)
  | [] => some q
  | r :: rs =>
    match Insert q r with
    | none => none
    | some q1 => InsertAll q1 rs

/-- Order in which `range q.nodes` visits the four keys, for every node of a tree: the
node is named by the path of keys leading to it from the receiver of the traversal
(innermost key last), and the permutation lists the keys in visiting order (absent
keys are skipped).  Go leaves this order unspecified. -/
abbrev RangeOrder := List (Fin 4) → Equiv.Perm (Fin 4)

/-- The order that visits the keys as enumerated: `TOP_LEFT`, `TOP_RIGHT`, `BOTTOM_LEFT`,
`BOTTOM_RIGHT`, at every node. -/
def enumOrder : RangeOrder := fun _ => Equiv.refl (Fin 4)

/-- The guard of the loop body of `Retrieve` for the child `node`:
`node.bounds.Intersects(rectangle)`; an absent key is not visited at all. -/
def QuadTree.hits : QuadTree α → Rectangle α → Bool
  | nil, _ => false
  | mk b _ _ _ _ _ _, rectangle => b.Intersects rectangle

/-- Source: `(q *QuadTree) Retrieve(rectangle, result)`; the new value of `*result` is
returned.  (On the nil pointer, where Go panics, the result is left as it is.) -/
def Retrieve : QuadTree α → RangeOrder → Rectangle α → List (Rectangle α) → List (Rectangle α)
  | nil, _, _, result => result
  | mk _ objs n0 n1 n2 n3 _, ord, rectangle, result =>
    ((List.finRange 4).map (ord [])).foldl
      (fun res k =>
        match k with
        | 0 => if n0.hits rectangle then Retrieve n0 (fun p => ord (0 :: p)) rectangle res else res
        | 1 => if n1.hits rectangle then Retrieve n1 (fun p => ord (1 :: p)) rectangle res else res
        | 2 => if n2.hits rectangle then Retrieve n2 (fun p => ord (2 :: p)) rectangle res else res
        | 3 => if n3.hits rectangle then Retrieve n3 (fun p => ord (3 :: p)) rectangle res else res)
      (result ++ objs)

/-- Source: `(q *QuadTree) Clear()`.  The recursive calls clear the children, which the
last assignment then drops from the tree together with the whole `nodes` map. -/
def Clear : QuadTree α → QuadTree α
  | nil => nil
  | mk b _ n0 n1 n2 n3 l =>
    let _cleared := [Clear n0, Clear n1, Clear n2, Clear n3]
    mk b [] nil nil nil nil l

/-- Source: `(q *QuadTree) Boundaries()`.  (On the nil pointer, where Go panics, the
result is empty; an absent key contributes nothing.) -/
def Boundaries : QuadTree α → RangeOrder → List (Rectangle α)
  | nil, _ => []
  | mk b _ n0 n1 n2 n3 _, ord =>
    ((List.finRange 4).map (ord [])).foldl
      (fun boundaries k =>
        match k with
        | 0 => boundaries ++ Boundaries n0 (fun p => ord (0 :: p))
        | 1 => boundaries ++ Boundaries n1 (fun p => ord (1 :: p))
        | 2 => boundaries ++ Boundaries n2 (fun p => ord (2 :: p))
        | 3 => boundaries ++ Boundaries n3 (fun p => ord (3 :: p)))
      [b]

/-! ## Notions used to state the properties -/

/-- What `Retrieve` appends for a query when every `range` visits the keys in
enumeration order: the objects of the node, then those of each child whose bounds
intersect the query. -/
def retrieved : QuadTree α → Rectangle α → List (Rectangle α)
  | nil, _ => []
  | mk _ objs n0 n1 n2 n3 _, rectangle =>
    objs ++ ((if n0.hits rectangle then retrieved n0 rectangle else []) ++
      ((if n1.hits rectangle then retrieved n1 rectangle else []) ++
        ((if n2.hits rectangle then retrieved n2 rectangle else []) ++
          (if n3.hits rectangle then retrieved n3 rectangle else []))))

/-- Bounds of all the nodes of a tree, in pre-order with the keys in enumeration
order. -/
def regions : QuadTree α → List (Rectangle α)
  | nil => []
  | mk b _ n0 n1 n2 n3 _ => b :: (regions n0 ++ (regions n1 ++ (regions n2 ++ regions n3)))

/-- Number of nodes of a tree. -/
def nodeCount : QuadTree α → Nat
  | nil => 0
  | mk _ _ n0 n1 n2 n3 _ => 1 + (nodeCount n0 + (nodeCount n1 + (nodeCount n2 + nodeCount n3)))

/-- The rectangles stored in all the nodes of a tree. -/
def allObjects : QuadTree α → List (Rectangle α)
  | nil => []
  | mk _ objs n0 n1 n2 n3 _ =>
    objs ++ (allObjects n0 ++ (allObjects n1 ++ (allObjects n2 ++ allObjects n3)))

/-- A tree in which `Insert` meets no nil pointer: the receiver is not nil and, at every
node, the `nodes` map is empty or holds all four keys. -/
def Shaped : QuadTree α → Prop
  | nil => False
  | mk _ _ n0 n1 n2 n3 _ =>
    (n0 = nil ∧ n1 = nil ∧ n2 = nil ∧ n3 = nil) ∨ (Shaped n0 ∧ Shaped n1 ∧ Shaped n2 ∧ Shaped n3)

/-- A rectangle whose centre lies between its bounds on both axes, as every rectangle
built by `NewRectangle` with non-negative half-extents is. -/
def WellFormed (r : Rectangle α) : Prop :=
  r.minX ≤ r.position.X ∧ r.position.X ≤ r.maxX ∧ r.minY ≤ r.position.Y ∧ r.position.Y ≤ r.maxY

/-- Field `q.bounds` (`none` for the nil pointer). -/
def QuadTree.boundsOf : QuadTree α → Option (Rectangle α)
  | nil => none
  | mk b _ _ _ _ _ _ => some b

/-- Field `q.level` (`none` for the nil pointer). -/
def QuadTree.levelOf : QuadTree α → Option Int
  | nil => none
  | mk _ _ _ _ _ _ l => some l

/-- The four keys of a `nodes` map. -/
def isKey (k : Int) : Prop := k = 0 ∨ k = 1 ∨ k = 2 ∨ k = 3

/-- The test of the redistribution loop: the rectangle fits a quadrant of the node. -/
def fits (b o : Rectangle α) : Bool := decide (index b o ≠ -1)

/-- Successive insertions, by `ins`, of each rectangle of a list into the child it is
classified into: what the redistribution loop does with the rectangles it moves. -/
def pushDown (ins : QuadTree α → Rectangle α → Option (QuadTree α)) :
    QuadTree α → List (Rectangle α) → Option (QuadTree α)
  | q, [] => some q
  | nil, _ :: _ => none
  | mk b objs n0 n1 n2 n3 l, o :: os =>
    match ins (nodeAt (mk b objs n0 n1 n2 n3 l) (index b o)) o with
    | none => none
    | some c => pushDown ins (setNode (mk b objs n0 n1 n2 n3 l) (index b o) c) os

/-- Bounds that `split` gives to the child under key `k` of a node with bounds `b`. -/
def quadrant (b : Rectangle α) (k : Int) : Option (Rectangle α) :=
  boundsOf (nodeAt (split (NewQuadTree 0 b)) k)

/-- Containment invariant: the bounds of every node are well-formed and contain every
rectangle stored in the subtree of the node, and the children of a node have the bounds
that `split` computes from the bounds of the node. -/
def InBounds : QuadTree α → Prop
  | nil => True
  | mk b objs n0 n1 n2 n3 l =>
    WellFormed b ∧
      (∀ o ∈ allObjects (mk b objs n0 n1 n2 n3 l), b.Contains o = true) ∧
      ((n0 = nil ∧ n1 = nil ∧ n2 = nil ∧ n3 = nil) ∨
        (boundsOf n0 = quadrant b 0 ∧ boundsOf n1 = quadrant b 1 ∧
          boundsOf n2 = quadrant b 2 ∧ boundsOf n3 = quadrant b 3 ∧
          InBounds n0 ∧ InBounds n1 ∧ InBounds n2 ∧ InBounds n3))

/-- What one `Insert` of `r` establishes between the tree before and the tree after. -/
def InsertPost (q : QuadTree α) (r : Rectangle α) (q' : QuadTree α) : Prop :=
  Shaped q' ∧ depthBudget q' ≤ depthBudget q ∧ boundsOf q' = boundsOf q ∧
    levelOf q' = levelOf q ∧ (allObjects q').Perm (r :: allObjects q) ∧
    (InBounds q → (∀ b, boundsOf q = some b → b.Contains r = true) → InBounds q') ∧
    (∀ b, boundsOf q = some b → ∀ o, o ∈ q.objects ∨ o = r → index b o = -1 → o ∈ q'.objects)

/-- Width of a rectangle. -/
def Rectangle.width (r : Rectangle α) : α := r.maxX - r.minX

/-- Height of a rectangle. -/
def Rectangle.height (r : Rectangle α) : α := r.maxY - r.minY

/-! ## Scenarios of the tests, at integer coordinates -/

/-- The root of the scenarios of the tests: level 0, region `[0, 100] x [0, 100]`. -/
def scenarioRoot : QuadTree ℤ := NewQuadTree 0 (NewRectangle 50 50 50 50)

/-- The box `NewRectangle(25, 25, 1, 1)` of the tests, in the top-left quadrant of the
root. -/
def scenarioBox : Rectangle ℤ := NewRectangle 25 25 1 1

/-- The box `NewRectangle(50, 50, 1, 1)`, on the centre of the scenario root: it fits no
quadrant. -/
def scenarioStraddler : Rectangle ℤ := NewRectangle 50 50 1 1

/-- The box `NewRectangle(-200, -200, 1, 1)`, outside the region of the scenario root. -/
def scenarioOutside : Rectangle ℤ := NewRectangle (-200) (-200) 1 1

/-- A call on the root of a tree: `Insert(r)` or `Clear()`. -/
inductive Call (α : Type) where
  | insert (r : Rectangle α) : Call α
  | clear : Call α

/-- The tree after one call on its root (`none`: the call does not return).  The root of
a run that starts from a tree built by `NewQuadTree` is never the nil pointer. -/
def applyCall (q : QuadTree α) : Call α → Option (QuadTree α)
  | Call.insert r => Insert q r
  | Call.clear => some (Clear q)

/-- The tree after a sequence of `Insert` and `Clear` calls on its root. -/
def run (q : QuadTree α) : List (Call α) → Option (QuadTree α)
  | [] => some q
  | c :: cs =>
    match applyCall q c with
    | none => none
    | some q1 => run q1 cs

/-- All the nodes of a tree: the root and, recursively, the nodes of its children. -/
def subtrees : QuadTree α → List (QuadTree α)
  | nil => []
  | mk b objs n0 n1 n2 n3 l =>
    mk b objs n0 n1 n2 n3 l :: (subtrees n0 ++ (subtrees n1 ++ (subtrees n2 ++ subtrees n3)))

/-- Structural invariant of the trees built by `Insert` and `Clear`.  Every node either
has no children, and then holds at most `MAX_OBJECTS` rectangles if its level is below
`MAX_LEVELS`; or it has all four children, and then its level is below `MAX_LEVELS`, each
of its own rectangles fits no quadrant, and every child is one level deeper. -/
def Structured : QuadTree α → Prop
  | nil => False
  | mk b objs n0 n1 n2 n3 l =>
    (n0 = nil ∧ n1 = nil ∧ n2 = nil ∧ n3 = nil ∧
        (l < MAX_LEVELS → objs.length ≤ MAX_OBJECTS)) ∨
      (l < MAX_LEVELS ∧ (∀ o ∈ objs, index b o = -1) ∧
        levelOf n0 = some (l + 1) ∧ levelOf n1 = some (l + 1) ∧
        levelOf n2 = some (l + 1) ∧ levelOf n3 = some (l + 1) ∧
        Structured n0 ∧ Structured n1 ∧ Structured n2 ∧ Structured n3)

/-- An order of the `range` loops that visits `TOP_RIGHT` before `TOP_LEFT`, at every
node. -/
def swappedOrder : RangeOrder := fun _ => Equiv.swap 0 1

/-- The nodes `Retrieve` descends to for the query `rectangle`: `reaches rectangle q N`
says that `N` is the node `q` itself, or is reached within a child of `q` whose bounds
intersect the query.  So `N` is a node of `q` such that the bounds of `N` and of every
ancestor of `N` below `q` intersect the query; the bounds of `q` itself are not tested. -/
def reaches (rectangle : Rectangle α) : QuadTree α → QuadTree α → Prop
  | nil, _ => False
  | mk b objs n0 n1 n2 n3 l, N =>
    N = mk b objs n0 n1 n2 n3 l ∨
      (n0.hits rectangle = true ∧ reaches rectangle n0 N) ∨
      (n1.hits rectangle = true ∧ reaches rectangle n1 N) ∨
      (n2.hits rectangle = true ∧ reaches rectangle n2 N) ∨
      (n3.hits rectangle = true ∧ reaches rectangle n3 N)
/-- Whether `Retrieve` descends to a node can be computed. -/
def decReaches (rectangle : Rectangle α) :
    (q N : QuadTree α) → Decidable (reaches rectangle q N)
  | nil, _ => isFalse (fun h => h)
  | mk b objs n0 n1 n2 n3 l, N =>
    have d0 := decReaches rectangle n0 N
    have d1 := decReaches rectangle n1 N
    have d2 := decReaches rectangle n2 N
    have d3 := decReaches rectangle n3 N
    (inferInstance : Decidable (N = mk b objs n0 n1 n2 n3 l ∨
      (n0.hits rectangle = true ∧ reaches rectangle n0 N) ∨
      (n1.hits rectangle = true ∧ reaches rectangle n1 N) ∨
      (n2.hits rectangle = true ∧ reaches rectangle n2 N) ∨
      (n3.hits rectangle = true ∧ reaches rectangle n3 N)))

instance (rectangle : Rectangle α) (q N : QuadTree α) : Decidable (reaches rectangle q N) :=
  decReaches rectangle q N

/-- Containment invariant for one rectangle `R`: the bounds of every node are well-formed
and contain `R` whenever `R` is stored in the subtree of the node, and the children of a
node have the bounds that `split` computes from the bounds of the node.  Nothing is
required of the other rectangles in the tree. -/
def InBoundsFor (R : Rectangle α) : QuadTree α → Prop
  | nil => True
  | mk b objs n0 n1 n2 n3 l =>
    WellFormed b ∧
      (R ∈ allObjects (mk b objs n0 n1 n2 n3 l) → b.Contains R = true) ∧
      ((n0 = nil ∧ n1 = nil ∧ n2 = nil ∧ n3 = nil) ∨
        (boundsOf n0 = quadrant b 0 ∧ boundsOf n1 = quadrant b 1 ∧
          boundsOf n2 = quadrant b 2 ∧ boundsOf n3 = quadrant b 3 ∧
          InBoundsFor R n0 ∧ InBoundsFor R n1 ∧ InBoundsFor R n2 ∧ InBoundsFor R n3))

/-! ## Properties -/

section Traversals

theorem foldl_append_eq {β γ : Type} (g : β → List γ) (ks : List β) (init : List γ) :
    ks.foldl (fun acc k => acc ++ g k) init = init ++ ks.flatMap g := by
  induction ks generalizing init with
  | nil => simp
  | cons k ks ih => simp [List.foldl_cons, ih, List.flatMap_cons, List.append_assoc]

theorem flatMap_keys_perm {γ : Type} (σ : Equiv.Perm (Fin 4)) (g : Fin 4 → List γ) :
    (((List.finRange 4).map σ).flatMap g).Perm (g 0 ++ (g 1 ++ (g 2 ++ g 3))) := by
  have h := List.Perm.flatMap_right g σ.map_finRange_perm
  have e : (List.finRange 4).flatMap g = g 0 ++ (g 1 ++ (g 2 ++ g 3)) := by
    have : List.finRange 4 = [0, 1, 2, 3] := by decide
    simp [this]
  rw [e] at h
  exact h

theorem Retrieve_append (q : QuadTree α) (ord : RangeOrder) (rectangle : Rectangle α)
    (result : List (Rectangle α)) :
    Retrieve q ord rectangle result = result ++ Retrieve q ord rectangle [] := by
  induction q generalizing ord result with
  | nil => simp [Retrieve]
  | mk b objs n0 n1 n2 n3 l ih0 ih1 ih2 ih3 =>
    have hstep : ∀ init : List (Rectangle α),
        ((List.finRange 4).map (ord [])).foldl
          (fun res k =>
            match k with
            | 0 => if n0.hits rectangle then
                Retrieve n0 (fun p => ord (0 :: p)) rectangle res else res
            | 1 => if n1.hits rectangle then
                Retrieve n1 (fun p => ord (1 :: p)) rectangle res else res
            | 2 => if n2.hits rectangle then
                Retrieve n2 (fun p => ord (2 :: p)) rectangle res else res
            | 3 => if n3.hits rectangle then
                Retrieve n3 (fun p => ord (3 :: p)) rectangle res else res) init
          = init ++ ((List.finRange 4).map (ord [])).flatMap (fun k =>
            match k with
            | 0 => if n0.hits rectangle then
                Retrieve n0 (fun p => ord (0 :: p)) rectangle [] else []
            | 1 => if n1.hits rectangle then
                Retrieve n1 (fun p => ord (1 :: p)) rectangle [] else []
            | 2 => if n2.hits rectangle then
                Retrieve n2 (fun p => ord (2 :: p)) rectangle [] else []
            | 3 => if n3.hits rectangle then
                Retrieve n3 (fun p => ord (3 :: p)) rectangle [] else []) := by
      intro init
      rw [← foldl_append_eq]
      congr 1
      funext res k
      fin_cases k
      · show (if _ then _ else _) = _ ++ (if _ then _ else _)
        split
        · exact ih0 _ _
        · simp
      · show (if _ then _ else _) = _ ++ (if _ then _ else _)
        split
        · exact ih1 _ _
        · simp
      · show (if _ then _ else _) = _ ++ (if _ then _ else _)
        split
        · exact ih2 _ _
        · simp
      · show (if _ then _ else _) = _ ++ (if _ then _ else _)
        split
        · exact ih3 _ _
        · simp
    simp only [Retrieve]
    rw [hstep, hstep]
    simp [List.append_assoc]

theorem Retrieve_mk (b : Rectangle α) (objs : List (Rectangle α)) (n0 n1 n2 n3 : QuadTree α)
    (l : Int) (ord : RangeOrder) (rectangle : Rectangle α) (result : List (Rectangle α)) :
    Retrieve (mk b objs n0 n1 n2 n3 l) ord rectangle result =
      (result ++ objs) ++ ((List.finRange 4).map (ord [])).flatMap (fun k =>
        match k with
        | 0 => if n0.hits rectangle then
            Retrieve n0 (fun p => ord (0 :: p)) rectangle [] else []
        | 1 => if n1.hits rectangle then
            Retrieve n1 (fun p => ord (1 :: p)) rectangle [] else []
        | 2 => if n2.hits rectangle then
            Retrieve n2 (fun p => ord (2 :: p)) rectangle [] else []
        | 3 => if n3.hits rectangle then
            Retrieve n3 (fun p => ord (3 :: p)) rectangle [] else []) := by
  simp only [Retrieve]
  rw [← foldl_append_eq]
  congr 1
  funext res k
  fin_cases k
  · show (if _ then _ else _) = _ ++ (if _ then _ else _)
    split
    · exact Retrieve_append _ _ _ _
    · simp
  · show (if _ then _ else _) = _ ++ (if _ then _ else _)
    split
    · exact Retrieve_append _ _ _ _
    · simp
  · show (if _ then _ else _) = _ ++ (if _ then _ else _)
    split
    · exact Retrieve_append _ _ _ _
    · simp
  · show (if _ then _ else _) = _ ++ (if _ then _ else _)
    split
    · exact Retrieve_append _ _ _ _
    · simp

/-- Whatever the order of the `range` loops, `Retrieve` appends to the result a
rearrangement of `retrieved`. -/
theorem Retrieve_perm (q : QuadTree α) (ord : RangeOrder) (rectangle : Rectangle α)
    (result : List (Rectangle α)) :
    (Retrieve q ord rectangle result).Perm (result ++ retrieved q rectangle) := by
  induction q generalizing ord result with
  | nil => simp [Retrieve, retrieved]
  | mk b objs n0 n1 n2 n3 l ih0 ih1 ih2 ih3 =>
    rw [Retrieve_mk, retrieved, List.append_assoc]
    refine List.Perm.append_left _ (List.Perm.append_left _ ?_)
    refine (flatMap_keys_perm (ord []) _).trans ?_
    have p0 := ih0 (fun p => ord (0 :: p)) []
    have p1 := ih1 (fun p => ord (1 :: p)) []
    have p2 := ih2 (fun p => ord (2 :: p)) []
    have p3 := ih3 (fun p => ord (3 :: p)) []
    simp only [List.nil_append] at p0 p1 p2 p3
    refine List.Perm.append ?_ (List.Perm.append ?_ (List.Perm.append ?_ ?_))
    · show List.Perm (if _ then _ else _) _
      split
      · exact p0
      · exact List.Perm.refl _
    · show List.Perm (if _ then _ else _) _
      split
      · exact p1
      · exact List.Perm.refl _
    · show List.Perm (if _ then _ else _) _
      split
      · exact p2
      · exact List.Perm.refl _
    · show List.Perm (if _ then _ else _) _
      split
      · exact p3
      · exact List.Perm.refl _

theorem Boundaries_mk (b : Rectangle α) (objs : List (Rectangle α)) (n0 n1 n2 n3 : QuadTree α)
    (l : Int) (ord : RangeOrder) :
    Boundaries (mk b objs n0 n1 n2 n3 l) ord =
      [b] ++ ((List.finRange 4).map (ord [])).flatMap (fun k =>
        match k with
        | 0 => Boundaries n0 (fun p => ord (0 :: p))
        | 1 => Boundaries n1 (fun p => ord (1 :: p))
        | 2 => Boundaries n2 (fun p => ord (2 :: p))
        | 3 => Boundaries n3 (fun p => ord (3 :: p))) := by
  simp only [Boundaries]
  rw [← foldl_append_eq]
  congr 1
  funext res k
  fin_cases k <;> rfl

/-- Whatever the order of the `range` loops, `Boundaries` returns a rearrangement of
`regions`. -/
theorem Boundaries_perm (q : QuadTree α) (ord : RangeOrder) :
    (Boundaries q ord).Perm (regions q) := by
  induction q generalizing ord with
  | nil => simp [Boundaries, regions]
  | mk b objs n0 n1 n2 n3 l ih0 ih1 ih2 ih3 =>
    rw [Boundaries_mk, regions]
    refine List.Perm.append_left _ ?_
    refine (flatMap_keys_perm (ord []) _).trans ?_
    exact List.Perm.append (ih0 _) (List.Perm.append (ih1 _) (List.Perm.append (ih2 _) (ih3 _)))

theorem regions_length (q : QuadTree α) : (regions q).length = nodeCount q := by
  induction q with
  | nil => rfl
  | mk b objs n0 n1 n2 n3 l ih0 ih1 ih2 ih3 =>
    simp [regions, nodeCount, ih0, ih1, ih2, ih3]
    omega

theorem Boundaries_length (q : QuadTree α) (ord : RangeOrder) :
    (Boundaries q ord).length = nodeCount q := by
  rw [(Boundaries_perm q ord).length_eq, regions_length]

end Traversals

section Classification

/-- C9: for a well-formed rectangle, `index` returns `TOP_LEFT` iff the rectangle lies
strictly left of and above the centre of the node, `TOP_RIGHT` iff strictly right and
above, `BOTTOM_LEFT` iff strictly left and below, `BOTTOM_RIGHT` iff strictly right and
below, and `-1` in every other case; in particular it returns `-1` whenever the
rectangle straddles or touches one of the two centre lines. -/
theorem index_classifies (bounds r : Rectangle α) (h : WellFormed r) :
    (index bounds r = TOP_LEFT ↔ r.maxX < bounds.position.X ∧ r.maxY < bounds.position.Y) ∧
    (index bounds r = TOP_RIGHT ↔ r.minX > bounds.position.X ∧ r.maxY < bounds.position.Y) ∧
    (index bounds r = BOTTOM_LEFT ↔ r.maxX < bounds.position.X ∧ r.minY > bounds.position.Y) ∧
    (index bounds r = BOTTOM_RIGHT ↔ r.minX > bounds.position.X ∧ r.minY > bounds.position.Y) ∧
    (index bounds r = -1 ↔
      ¬ (r.maxX < bounds.position.X ∧ r.maxY < bounds.position.Y) ∧
      ¬ (r.minX > bounds.position.X ∧ r.maxY < bounds.position.Y) ∧
      ¬ (r.maxX < bounds.position.X ∧ r.minY > bounds.position.Y) ∧
      ¬ (r.minX > bounds.position.X ∧ r.minY > bounds.position.Y)) ∧
    ((r.minX ≤ bounds.position.X ∧ bounds.position.X ≤ r.maxX) ∨
      (r.minY ≤ bounds.position.Y ∧ bounds.position.Y ≤ r.maxY) → index bounds r = -1) := by
  obtain ⟨hx1, hx2, hy1, hy2⟩ := h
  have f1 : r.maxX < bounds.position.X → r.position.X < bounds.position.X :=
    fun h => lt_of_le_of_lt hx2 h
  have f2 : r.maxY < bounds.position.Y → r.position.Y < bounds.position.Y :=
    fun h => lt_of_le_of_lt hy2 h
  have f3 : bounds.position.X < r.minX → bounds.position.X < r.position.X :=
    fun h => lt_of_lt_of_le h hx1
  have f4 : bounds.position.Y < r.minY → bounds.position.Y < r.position.Y :=
    fun h => lt_of_lt_of_le h hy1
  have f5 : r.maxX < bounds.position.X → ¬ bounds.position.X < r.minX :=
    fun h h2 => absurd (lt_trans h h2) (not_lt.mpr (le_trans hx1 hx2))
  have f6 : r.maxY < bounds.position.Y → ¬ bounds.position.Y < r.minY :=
    fun h h2 => absurd (lt_trans h h2) (not_lt.mpr (le_trans hy1 hy2))
  clear hx1 hx2 hy1 hy2
  simp only [← not_lt, gt_iff_lt]
  by_cases hL : r.maxX < bounds.position.X <;> by_cases hR : bounds.position.X < r.minX <;>
    by_cases hT : r.maxY < bounds.position.Y <;> by_cases hB : bounds.position.Y < r.minY <;>
    first
    | exact absurd hR (f5 hL)
    | exact absurd hB (f6 hT)
    | simp [index, TOP_LEFT, TOP_RIGHT, BOTTOM_LEFT, BOTTOM_RIGHT, hL, hR, hT, hB, f1, f2, f3, f4]

/-- C9, witness: the box `NewRectangle(25, 25, 1, 1)` is well-formed and classified
`TOP_LEFT` by the node centred at (50, 50). -/
theorem index_classifies_witness :
    WellFormed (NewRectangle (25 : ℤ) 25 1 1) ∧
      index (NewRectangle (50 : ℤ) 50 50 50) (NewRectangle 25 25 1 1) = TOP_LEFT :=
  ⟨by unfold WellFormed; decide,
    (index_classifies (NewRectangle (50 : ℤ) 50 50 50) (NewRectangle 25 25 1 1)
      (by unfold WellFormed; decide)).1.mpr (by decide)⟩

/-- The value of `index` is `-1` or one of the four quadrant keys. -/
theorem index_range (bounds r : Rectangle α) :
    index bounds r = -1 ∨ index bounds r = 0 ∨ index bounds r = 1 ∨ index bounds r = 2 ∨
      index bounds r = 3 := by
  simp only [index, TOP_LEFT, TOP_RIGHT, BOTTOM_LEFT, BOTTOM_RIGHT]
  split_ifs <;> simp

end Classification

section ClearAndCapacity

/-- C3: `Clear` turns any tree into the fresh single leaf with the same level and
bounds; afterwards `Boundaries` returns exactly the bounds of the node and `Retrieve`
adds nothing to the result, for every query. -/
theorem Clear_resets (b : Rectangle α) (objs : List (Rectangle α)) (n0 n1 n2 n3 : QuadTree α)
    (l : Int) (ord : RangeOrder) (rectangle : Rectangle α) (result : List (Rectangle α)) :
    Clear (mk b objs n0 n1 n2 n3 l) = NewQuadTree l b ∧
      Boundaries (Clear (mk b objs n0 n1 n2 n3 l)) ord = [b] ∧
      Retrieve (Clear (mk b objs n0 n1 n2 n3 l)) ord rectangle result = result := by
  refine ⟨rfl, ?_, ?_⟩
  · have h := Boundaries_perm (Clear (mk b objs n0 n1 n2 n3 l)) ord
    simpa [Clear, regions] using h
  · have h := Retrieve_perm (Clear (mk b objs n0 n1 n2 n3 l)) ord rectangle []
    have e : Retrieve (Clear (mk b objs n0 n1 n2 n3 l)) ord rectangle [] = [] := by
      simpa [Clear, retrieved, hits] using h
    rw [Retrieve_append, e, List.append_nil]

/-- C4: `Clear` is idempotent: clearing a cleared tree leaves it as it is. -/
theorem Clear_idempotent (b : Rectangle α) (objs : List (Rectangle α))
    (n0 n1 n2 n3 : QuadTree α) (l : Int) :
    Clear (Clear (mk b objs n0 n1 n2 n3 l)) = Clear (mk b objs n0 n1 n2 n3 l) := rfl

/-- An `Insert` into a childless node holding fewer than `MAX_OBJECTS` rectangles only
appends. -/
theorem Insert_leaf_below_capacity (b : Rectangle α) (objs : List (Rectangle α)) (l : Int)
    (r : Rectangle α) (h : objs.length < MAX_OBJECTS) :
    Insert (mk b objs nil nil nil nil l) r = some (mk b (objs ++ [r]) nil nil nil nil l) := by
  have hlen : ¬ (objs.length + 1 > MAX_OBJECTS) := by omega
  simp [Insert, depthBudget, InsertFuel, lenNodes, isNil, QuadTree.objects, hlen]

theorem InsertAll_leaf_below_capacity (b : Rectangle α) (l : Int) (rs objs : List (Rectangle α))
    (h : objs.length + rs.length ≤ MAX_OBJECTS) :
    InsertAll (mk b objs nil nil nil nil l) rs = some (mk b (objs ++ rs) nil nil nil nil l) := by
  induction rs generalizing objs with
  | nil => simp [InsertAll]
  | cons r rs ih =>
    have h1 : objs.length < MAX_OBJECTS := by simp at h; omega
    have h2 : (objs ++ [r]).length + rs.length ≤ MAX_OBJECTS := by simp at h ⊢; omega
    simp [InsertAll, Insert_leaf_below_capacity b objs l r h1, ih _ h2]

/-- C5: up to `MAX_OBJECTS` rectangles inserted into a fresh node (any level, any bounds)
cause no split: the node has no children, its objects are the inserted rectangles in
insertion order, `Boundaries` has length 1, and `Retrieve` returns exactly the inserted
rectangles, whatever the query. -/
theorem Insert_up_to_capacity (pLevel : Int) (bounds : Rectangle α) (rs : List (Rectangle α))
    (ord : RangeOrder) (rectangle : Rectangle α) (h : rs.length ≤ MAX_OBJECTS) :
    ∃ t, InsertAll (NewQuadTree pLevel bounds) rs = some t ∧
      t = mk bounds rs nil nil nil nil pLevel ∧
      (Boundaries t ord).length = 1 ∧
      Retrieve t ord rectangle [] = rs := by
  refine ⟨mk bounds rs nil nil nil nil pLevel, ?_, rfl, ?_, ?_⟩
  · have := InsertAll_leaf_below_capacity bounds pLevel rs [] (by simpa using h)
    simpa [NewQuadTree] using this
  · rw [Boundaries_length]; rfl
  · have hp := Retrieve_perm (mk bounds rs nil nil nil nil pLevel) ord rectangle []
    rw [Retrieve_mk]
    have e : ∀ k : Fin 4, (match k with
        | 0 => if (nil : QuadTree α).hits rectangle then
            Retrieve nil (fun p => ord (0 :: p)) rectangle [] else []
        | 1 => if (nil : QuadTree α).hits rectangle then
            Retrieve nil (fun p => ord (1 :: p)) rectangle [] else []
        | 2 => if (nil : QuadTree α).hits rectangle then
            Retrieve nil (fun p => ord (2 :: p)) rectangle [] else []
        | 3 => if (nil : QuadTree α).hits rectangle then
            Retrieve nil (fun p => ord (3 :: p)) rectangle [] else []) = [] := by
      intro k
      fin_cases k <;> rfl
    simp [e]

/-- C5, witness: twelve copies of the scenario box inserted into the scenario root. -/
theorem Insert_up_to_capacity_witness :
    (List.replicate 12 scenarioBox).length ≤ MAX_OBJECTS ∧
      ∃ t, InsertAll (NewQuadTree 0 (NewRectangle (50 : ℤ) 50 50 50))
          (List.replicate 12 scenarioBox) = some t ∧
        t = mk (NewRectangle 50 50 50 50) (List.replicate 12 scenarioBox) nil nil nil nil 0 ∧
        (Boundaries t enumOrder).length = 1 ∧
        Retrieve t enumOrder (NewRectangle 75 75 1 1) [] = List.replicate 12 scenarioBox :=
  ⟨by decide,
    Insert_up_to_capacity 0 (NewRectangle 50 50 50 50) (List.replicate 12 scenarioBox)
      enumOrder (NewRectangle 75 75 1 1) (by decide)⟩

end ClearAndCapacity

section Redistribution

theorem pushDown_setObjects (ins : QuadTree α → Rectangle α → Option (QuadTree α))
    (os : List (Rectangle α)) (q : QuadTree α) (X Y : List (Rectangle α)) :
    (pushDown ins (setObjects q X) os).map (fun t => setObjects t Y) =
      (pushDown ins q os).map (fun t => setObjects t Y) := by
  induction os generalizing q with
  | nil => cases q <;> simp [pushDown, setObjects]
  | cons o os ih =>
    cases q with
    | nil => simp [pushDown, setObjects]
    | mk b objs n0 n1 n2 n3 l =>
      have hs : ∀ k c, setNode (mk b X n0 n1 n2 n3 l) k c =
          setObjects (setNode (mk b objs n0 n1 n2 n3 l) k c) X := by
        intro k c
        simp only [setNode]
        split_ifs <;> rfl
      simp only [setObjects, pushDown, nodeAt]
      cases hins : ins (if index b o = 0 then n0 else if index b o = 1 then n1
          else if index b o = 2 then n2 else if index b o = 3 then n3 else nil) o with
      | none => simp
      | some c =>
        simp only []
        rw [hs]
        exact ih _

theorem redistribute_eq (ins : QuadTree α → Rectangle α → Option (QuadTree α))
    (b : Rectangle α) (l : Int) (n : Nat) :
    ∀ (objs : List (Rectangle α)) (n0 n1 n2 n3 : QuadTree α), n ≤ objs.length →
      redistribute ins n (mk b objs n0 n1 n2 n3 l) =
        (pushDown ins (mk b objs n0 n1 n2 n3 l) (((objs.take n).filter (fits b)).reverse)).map
          (fun t => setObjects t
            ((objs.take n).filter (fun o => !fits b o) ++ objs.drop n)) := by
  induction n with
  | zero =>
    intro objs n0 n1 n2 n3 _
    simp [redistribute, pushDown, setObjects]
  | succ n ih =>
    intro objs n0 n1 n2 n3 hn
    have hlt : n < objs.length := hn
    have hget : objs.get? n = some objs[n] := by simp [List.getElem?_eq_getElem hlt]
    have htake : objs.take (n + 1) = objs.take n ++ [objs[n]] := by
      rw [List.take_succ]; simp [List.getElem?_eq_getElem hlt]
    have hdrop : objs.drop n = objs[n] :: objs.drop (n + 1) := List.drop_eq_getElem_cons hlt
    rw [redistribute]
    simp only [QuadTree.objects, hget]
    by_cases hfit : index b objs[n] ≠ -1
    · have hf : fits b objs[n] = true := by simp [fits, hfit]
      rw [if_pos hfit, htake]
      simp only [List.filter_append, List.filter_cons, List.filter_nil, hf, List.reverse_append,
        List.reverse_cons, List.reverse_nil, List.nil_append, List.singleton_append,
        Bool.not_true, Bool.false_eq_true, if_false, if_true, List.append_nil]
      rw [pushDown]
      cases hins : ins (nodeAt (mk b objs n0 n1 n2 n3 l) (index b objs[n])) objs[n] with
      | none => rfl
      | some c =>
        simp only []
        have hs : setNode (mk b objs n0 n1 n2 n3 l) (index b objs[n]) c =
            mk b objs (nodeAt (setNode (mk b objs n0 n1 n2 n3 l) (index b objs[n]) c) 0)
              (nodeAt (setNode (mk b objs n0 n1 n2 n3 l) (index b objs[n]) c) 1)
              (nodeAt (setNode (mk b objs n0 n1 n2 n3 l) (index b objs[n]) c) 2)
              (nodeAt (setNode (mk b objs n0 n1 n2 n3 l) (index b objs[n]) c) 3) l := by
          simp only [setNode]
          split_ifs <;> simp [nodeAt]
        rw [hs]
        simp only [setObjects]
        have hlen : n ≤ (objs.take n ++ objs.drop (n + 1)).length := by
          simp [List.length_take, List.length_drop]; omega
        rw [ih _ _ _ _ _ hlen]
        have e1 : (objs.take n ++ objs.drop (n + 1)).take n = objs.take n := by
          rw [List.take_append_of_le_length (by simp [List.length_take]; omega)]
          simp [List.take_take]
        have e2 : (objs.take n ++ objs.drop (n + 1)).drop n = objs.drop (n + 1) := by
          rw [List.drop_append_of_le_length (by simp [List.length_take]; omega)]
          simp [List.drop_take]
        rw [e1, e2]
        exact pushDown_setObjects ins _ (mk b objs _ _ _ _ l) _ _
    · have hf : fits b objs[n] = false := by simp [fits, hfit]
      rw [if_neg hfit, htake, ih objs n0 n1 n2 n3 (Nat.le_of_lt hlt), hdrop]
      simp only [List.filter_append, List.filter_cons, List.filter_nil, hf, Bool.not_false,
        if_true, Bool.false_eq_true, if_false, List.append_nil, List.append_assoc,
        List.singleton_append]

end Redistribution

section InsertEquations

/-- One unfolding of `Insert`, with the redistribution loop in closed form. -/
theorem InsertFuel_succ (fuel : Nat) (b : Rectangle α) (objs : List (Rectangle α))
    (n0 n1 n2 n3 : QuadTree α) (l : Int) (r : Rectangle α) :
    InsertFuel (fuel + 1) (mk b objs n0 n1 n2 n3 l) r =
      if lenNodes (mk b objs n0 n1 n2 n3 l) ≠ 0 ∧ index b r ≠ -1 then
        (InsertFuel fuel (nodeAt (mk b objs n0 n1 n2 n3 l) (index b r)) r).map
          (fun c => setNode (mk b objs n0 n1 n2 n3 l) (index b r) c)
      else if (objs ++ [r]).length > MAX_OBJECTS ∧ l < MAX_LEVELS then
        (pushDown (InsertFuel fuel)
          (if lenNodes (mk b objs n0 n1 n2 n3 l) = 0
            then split (mk b (objs ++ [r]) n0 n1 n2 n3 l) else mk b (objs ++ [r]) n0 n1 n2 n3 l)
          (((objs ++ [r]).filter (fits b)).reverse)).map
          (fun t => setObjects t ((objs ++ [r]).filter (fun o => !fits b o)))
      else some (mk b (objs ++ [r]) n0 n1 n2 n3 l) := by
  have hlen : (mk b (objs ++ [r]) n0 n1 n2 n3 l).objects.length = (objs ++ [r]).length := rfl
  have hnodes : lenNodes (mk b (objs ++ [r]) n0 n1 n2 n3 l) =
      lenNodes (mk b objs n0 n1 n2 n3 l) := rfl
  have hsplit : (split (mk b (objs ++ [r]) n0 n1 n2 n3 l)).objects = objs ++ [r] := rfl
  have htake : ∀ xs : List (Rectangle α), xs.take xs.length = xs := fun xs => List.take_length xs
  have hdrop : ∀ xs : List (Rectangle α), xs.drop xs.length = [] := fun xs => List.drop_length xs
  rw [InsertFuel]
  by_cases h1 : lenNodes (mk b objs n0 n1 n2 n3 l) ≠ 0 ∧ index b r ≠ -1
  · rw [if_pos h1, if_pos h1]
    cases InsertFuel fuel (nodeAt (mk b objs n0 n1 n2 n3 l) (index b r)) r <;> rfl
  · rw [if_neg h1, if_neg h1]
    simp only [hlen, hnodes]
    by_cases h2 : (objs ++ [r]).length > MAX_OBJECTS ∧ l < MAX_LEVELS
    · rw [if_pos h2, if_pos h2]
      by_cases h3 : lenNodes (mk b objs n0 n1 n2 n3 l) = 0
      · rw [if_pos h3, hsplit]
        simp only [split, NewQuadTree]
        rw [redistribute_eq _ _ _ _ _ _ _ _ _ (le_refl _), htake, hdrop, List.append_nil]
      · rw [if_neg h3]
        simp only [QuadTree.objects]
        rw [redistribute_eq _ _ _ _ _ _ _ _ _ (le_refl _), htake, hdrop, List.append_nil]
    · rw [if_neg h2, if_neg h2]

end InsertEquations

section Slots

theorem isKey_of_index (b r : Rectangle α) (h : index b r ≠ -1) : isKey (index b r) := by
  rcases index_range b r with h' | h'
  · exact absurd h' h
  · exact h'

theorem nodeAt_setNode (b : Rectangle α) (objs : List (Rectangle α)) (n0 n1 n2 n3 : QuadTree α)
    (l : Int) (k j : Int) (c : QuadTree α) (hk : isKey k) :
    nodeAt (setNode (mk b objs n0 n1 n2 n3 l) k c) j =
      if j = k then c else nodeAt (mk b objs n0 n1 n2 n3 l) j := by
  rcases hk with rfl | rfl | rfl | rfl <;> simp [setNode, nodeAt] <;> split_ifs <;> simp_all

theorem setNode_eq_mk (b : Rectangle α) (objs : List (Rectangle α)) (n0 n1 n2 n3 : QuadTree α)
    (l : Int) (k : Int) (c : QuadTree α) :
    setNode (mk b objs n0 n1 n2 n3 l) k c =
      mk b objs (if k = 0 then c else n0) (if k = 1 then c else n1) (if k = 2 then c else n2)
        (if k = 3 then c else n3) l := by
  simp only [setNode]
  split_ifs <;> simp_all

theorem eq_mk_of_boundsOf (q : QuadTree α) (b : Rectangle α) (h : boundsOf q = some b) :
    ∃ objs n0 n1 n2 n3 l, q = mk b objs n0 n1 n2 n3 l := by
  cases q with
  | nil => simp [boundsOf] at h
  | mk b' objs n0 n1 n2 n3 l =>
    simp [boundsOf] at h
    exact ⟨objs, n0, n1, n2, n3, l, by rw [h]⟩

theorem Shaped_ne_nil (q : QuadTree α) (h : Shaped q) :
    ∃ b objs n0 n1 n2 n3 l, q = mk b objs n0 n1 n2 n3 l := by
  cases q with
  | nil => exact absurd h (by simp [Shaped])
  | mk b objs n0 n1 n2 n3 l => exact ⟨b, objs, n0, n1, n2, n3, l, rfl⟩

theorem Shaped_of_keys (b : Rectangle α) (objs : List (Rectangle α)) (n0 n1 n2 n3 : QuadTree α)
    (l : Int) (h : ∀ j, isKey j → Shaped (nodeAt (mk b objs n0 n1 n2 n3 l) j)) :
    Shaped (mk b objs n0 n1 n2 n3 l) := by
  have h0 := h 0 (by simp [isKey])
  have h1 := h 1 (by simp [isKey])
  have h2 := h 2 (by simp [isKey])
  have h3 := h 3 (by simp [isKey])
  simp [nodeAt] at h0 h1 h2 h3
  exact Or.inr ⟨h0, h1, h2, h3⟩

theorem Shaped_keys (b : Rectangle α) (objs : List (Rectangle α)) (n0 n1 n2 n3 : QuadTree α)
    (l : Int) (h : Shaped (mk b objs n0 n1 n2 n3 l))
    (hlen : lenNodes (mk b objs n0 n1 n2 n3 l) ≠ 0) :
    ∀ j, isKey j → Shaped (nodeAt (mk b objs n0 n1 n2 n3 l) j) := by
  rcases h with ⟨rfl, rfl, rfl, rfl⟩ | ⟨h0, h1, h2, h3⟩
  · simp [lenNodes, isNil] at hlen
  · intro j hj
    rcases hj with rfl | rfl | rfl | rfl <;> simp [nodeAt] <;> assumption

theorem Shaped_leaf_of_lenNodes (b : Rectangle α) (objs : List (Rectangle α))
    (n0 n1 n2 n3 : QuadTree α) (l : Int) (h : Shaped (mk b objs n0 n1 n2 n3 l))
    (hlen : lenNodes (mk b objs n0 n1 n2 n3 l) = 0) :
    n0 = nil ∧ n1 = nil ∧ n2 = nil ∧ n3 = nil := by
  rcases h with h | ⟨h0, h1, h2, h3⟩
  · exact h
  · obtain ⟨_, _, _, _, _, _, _, rfl⟩ := Shaped_ne_nil n0 h0
    simp [lenNodes, isNil] at hlen

theorem depthBudget_le_succ (b : Rectangle α) (objs : List (Rectangle α))
    (n0 n1 n2 n3 : QuadTree α) (l : Int) (B : Nat) :
    depthBudget (mk b objs n0 n1 n2 n3 l) ≤ B + 1 ↔
      (MAX_LEVELS - l).toNat ≤ B ∧
        ∀ j, isKey j → depthBudget (nodeAt (mk b objs n0 n1 n2 n3 l) j) ≤ B := by
  constructor
  · intro h
    simp only [depthBudget] at h
    have h' := Nat.le_of_succ_le_succ h
    simp only [max_le_iff] at h'
    refine ⟨h'.1, ?_⟩
    intro j hj
    rcases hj with rfl | rfl | rfl | rfl <;> simp [nodeAt] <;> tauto
  · rintro ⟨hl, h⟩
    have h0 := h 0 (by simp [isKey])
    have h1 := h 1 (by simp [isKey])
    have h2 := h 2 (by simp [isKey])
    have h3 := h 3 (by simp [isKey])
    simp [nodeAt] at h0 h1 h2 h3
    simp only [depthBudget]
    apply Nat.succ_le_succ
    simp only [max_le_iff]
    exact ⟨hl, ⟨h0, h1⟩, h2, h3⟩

theorem allObjects_setNode_perm (b : Rectangle α) (objs : List (Rectangle α))
    (n0 n1 n2 n3 : QuadTree α) (l : Int) (k : Int) (c : QuadTree α) (os : List (Rectangle α))
    (hk : isKey k)
    (h : (allObjects c).Perm (os ++ allObjects (nodeAt (mk b objs n0 n1 n2 n3 l) k))) :
    (allObjects (setNode (mk b objs n0 n1 n2 n3 l) k c)).Perm
      (os ++ allObjects (mk b objs n0 n1 n2 n3 l)) := by
  rcases hk with rfl | rfl | rfl | rfl <;>
    simp [nodeAt, setNode, allObjects] at h ⊢ <;>
    rw [← Multiset.coe_eq_coe] at h ⊢ <;>
    simp only [← Multiset.coe_add] at h ⊢ <;>
    rw [h] <;>
    abel

end Slots

section Geometry

/-- What a quadrant key returned by `index` says about the rectangle, well-formed or not. -/
theorem index_sound (b r : Rectangle α) :
    (index b r = 0 → r.maxX < b.position.X ∧ r.maxY < b.position.Y) ∧
    (index b r = 1 → b.position.X < r.minX ∧ r.maxY < b.position.Y) ∧
    (index b r = 2 → r.maxX < b.position.X ∧ b.position.Y < r.minY) ∧
    (index b r = 3 → b.position.X < r.minX ∧ b.position.Y < r.minY) := by
  simp only [index, TOP_LEFT, TOP_RIGHT, BOTTOM_LEFT, BOTTOM_RIGHT, Bool.and_eq_true,
    decide_eq_true_eq, gt_iff_lt]
  split_ifs with h1 h2 h3 h4 <;> simp <;> tauto

theorem Contains_iff (b r : Rectangle α) :
    b.Contains r = true ↔
      b.minX ≤ r.minX ∧ b.minY ≤ r.minY ∧ r.maxX ≤ b.maxX ∧ r.maxY ≤ b.maxY := by
  simp [Rectangle.Contains, and_assoc]

theorem Intersects_iff (b r : Rectangle α) :
    b.Intersects r = true ↔
      b.minX < r.maxX ∧ b.minY < r.maxY ∧ r.minX < b.maxX ∧ r.minY < b.maxY := by
  simp [Rectangle.Intersects, and_assoc]

theorem quadrant_eq (b : Rectangle α) :
    quadrant b 0 = some (NewRectangle (b.position.X - (b.maxX - b.minX))
      (b.position.Y - (b.maxY - b.minY)) (b.maxX - b.minX) (b.maxY - b.minY)) ∧
    quadrant b 1 = some (NewRectangle (b.position.X + (b.maxX - b.minX))
      (b.position.Y - (b.maxY - b.minY)) (b.maxX - b.minX) (b.maxY - b.minY)) ∧
    quadrant b 2 = some (NewRectangle (b.position.X - (b.maxX - b.minX))
      (b.position.Y + (b.maxY - b.minY)) (b.maxX - b.minX) (b.maxY - b.minY)) ∧
    quadrant b 3 = some (NewRectangle (b.position.X + (b.maxX - b.minX))
      (b.position.Y + (b.maxY - b.minY)) (b.maxX - b.minX) (b.maxY - b.minY)) := by
  simp [quadrant, split, NewQuadTree, nodeAt, boundsOf]

/-- The bounds of a child created by `split` are well-formed when those of the parent
are. -/
theorem quadrant_wellFormed (b bk : Rectangle α) (k : Int) (hb : WellFormed b)
    (hk : isKey k) (hq : quadrant b k = some bk) : WellFormed bk := by
  obtain ⟨hx1, hx2, hy1, hy2⟩ := hb
  obtain ⟨q0, q1, q2, q3⟩ := quadrant_eq b
  have hW : 0 ≤ b.maxX - b.minX := by linarith
  have hH : 0 ≤ b.maxY - b.minY := by linarith
  rcases hk with rfl | rfl | rfl | rfl
  · rw [q0] at hq
    cases hq
    refine ⟨?_, ?_, ?_, ?_⟩ <;> simp only [NewRectangle] <;> linarith
  · rw [q1] at hq
    cases hq
    refine ⟨?_, ?_, ?_, ?_⟩ <;> simp only [NewRectangle] <;> linarith
  · rw [q2] at hq
    cases hq
    refine ⟨?_, ?_, ?_, ?_⟩ <;> simp only [NewRectangle] <;> linarith
  · rw [q3] at hq
    cases hq
    refine ⟨?_, ?_, ?_, ?_⟩ <;> simp only [NewRectangle] <;> linarith

/-- A rectangle inside the bounds of a node that `index` sends to quadrant `k` lies inside
the bounds `split` gives to child `k`. -/
theorem quadrant_contains (b bk o : Rectangle α) (hb : WellFormed b)
    (ho : b.Contains o = true) (hq : quadrant b (index b o) = some bk) :
    bk.Contains o = true := by
  obtain ⟨hx1, hx2, hy1, hy2⟩ := hb
  obtain ⟨q0, q1, q2, q3⟩ := quadrant_eq b
  obtain ⟨s0, s1, s2, s3⟩ := index_sound b o
  rw [Contains_iff] at ho ⊢
  obtain ⟨c1, c2, c3, c4⟩ := ho
  rcases index_range b o with h | h | h | h | h
  · rw [h] at hq
    simp [quadrant, split, NewQuadTree, nodeAt, boundsOf] at hq
  · rw [h, q0] at hq
    cases hq
    obtain ⟨a1, a2⟩ := s0 h
    refine ⟨?_, ?_, ?_, ?_⟩ <;> simp only [NewRectangle] <;> linarith
  · rw [h, q1] at hq
    cases hq
    obtain ⟨a1, a2⟩ := s1 h
    refine ⟨?_, ?_, ?_, ?_⟩ <;> simp only [NewRectangle] <;> linarith
  · rw [h, q2] at hq
    cases hq
    obtain ⟨a1, a2⟩ := s2 h
    refine ⟨?_, ?_, ?_, ?_⟩ <;> simp only [NewRectangle] <;> linarith
  · rw [h, q3] at hq
    cases hq
    obtain ⟨a1, a2⟩ := s3 h
    refine ⟨?_, ?_, ?_, ?_⟩ <;> simp only [NewRectangle] <;> linarith

end Geometry

section PushDown

/-- The effect of the redistribution loop on the children, given the specification of
`Insert` on trees that need no more than `fuel`. -/
theorem pushDown_post (ins : QuadTree α → Rectangle α → Option (QuadTree α)) (fuel : Nat)
    (hins : ∀ c o, Shaped c → depthBudget c ≤ fuel → ∃ c', ins c o = some c' ∧ InsertPost c o c')
    (b : Rectangle α) (l : Int) (os : List (Rectangle α)) :
    ∀ (objs : List (Rectangle α)) (n0 n1 n2 n3 : QuadTree α),
      (∀ o ∈ os, index b o ≠ -1) →
      (∀ j, isKey j → Shaped (nodeAt (mk b objs n0 n1 n2 n3 l) j) ∧
        depthBudget (nodeAt (mk b objs n0 n1 n2 n3 l) j) ≤ fuel) →
      ∃ m0 m1 m2 m3,
        pushDown ins (mk b objs n0 n1 n2 n3 l) os = some (mk b objs m0 m1 m2 m3 l) ∧
        (∀ j, isKey j →
          Shaped (nodeAt (mk b objs m0 m1 m2 m3 l) j) ∧
          depthBudget (nodeAt (mk b objs m0 m1 m2 m3 l) j) ≤
            depthBudget (nodeAt (mk b objs n0 n1 n2 n3 l) j) ∧
          boundsOf (nodeAt (mk b objs m0 m1 m2 m3 l) j) =
            boundsOf (nodeAt (mk b objs n0 n1 n2 n3 l) j) ∧
          levelOf (nodeAt (mk b objs m0 m1 m2 m3 l) j) =
            levelOf (nodeAt (mk b objs n0 n1 n2 n3 l) j) ∧
          ((∀ o ∈ os, index b o ≠ j) →
            nodeAt (mk b objs m0 m1 m2 m3 l) j = nodeAt (mk b objs n0 n1 n2 n3 l) j) ∧
          (InBounds (nodeAt (mk b objs n0 n1 n2 n3 l) j) →
            (∀ o ∈ os, index b o = j →
              ∀ bj, boundsOf (nodeAt (mk b objs n0 n1 n2 n3 l) j) = some bj →
                bj.Contains o = true) →
            InBounds (nodeAt (mk b objs m0 m1 m2 m3 l) j))) ∧
        (allObjects (mk b objs m0 m1 m2 m3 l)).Perm
          (os ++ allObjects (mk b objs n0 n1 n2 n3 l)) := by
  induction os with
  | nil =>
    intro objs n0 n1 n2 n3 _ hch
    refine ⟨n0, n1, n2, n3, rfl, ?_, by simp⟩
    intro j hj
    exact ⟨(hch j hj).1, le_refl _, rfl, rfl, fun _ => rfl, fun h _ => h⟩
  | cons o os ih =>
    intro objs n0 n1 n2 n3 hfit hch
    have hk : isKey (index b o) := isKey_of_index b o (hfit o (List.mem_cons_self _ _))
    obtain ⟨c, hc, hcS, hcB, hcb, hcl, hcP, hcI, -⟩ :=
      hins (nodeAt (mk b objs n0 n1 n2 n3 l) (index b o)) o (hch _ hk).1 (hch _ hk).2
    have hstep : pushDown ins (mk b objs n0 n1 n2 n3 l) (o :: os) =
        pushDown ins (setNode (mk b objs n0 n1 n2 n3 l) (index b o) c) os := by
      rw [pushDown, hc]
    have hnode := fun j => nodeAt_setNode b objs n0 n1 n2 n3 l (index b o) j c hk
    have hperm1 := allObjects_setNode_perm b objs n0 n1 n2 n3 l (index b o) c [o] hk
      (by simpa using hcP)
    rw [setNode_eq_mk] at hstep hnode hperm1
    have hch1 : ∀ j, isKey j →
        Shaped (nodeAt (mk b objs (if index b o = 0 then c else n0)
          (if index b o = 1 then c else n1) (if index b o = 2 then c else n2)
          (if index b o = 3 then c else n3) l) j) ∧
        depthBudget (nodeAt (mk b objs (if index b o = 0 then c else n0)
          (if index b o = 1 then c else n1) (if index b o = 2 then c else n2)
          (if index b o = 3 then c else n3) l) j) ≤ fuel := by
      intro j hj
      rw [hnode j]
      by_cases hjk : j = index b o
      · rw [if_pos hjk]
        exact ⟨hcS, le_trans hcB (hch _ hk).2⟩
      · rw [if_neg hjk]
        exact hch j hj
    obtain ⟨m0, m1, m2, m3, hpush, hkeys, hperm⟩ :=
      ih objs _ _ _ _ (fun o' ho' => hfit o' (List.mem_cons_of_mem _ ho')) hch1
    refine ⟨m0, m1, m2, m3, hstep.trans hpush, ?_, ?_⟩
    · intro j hj
      obtain ⟨kS, kB, kb, kl, kU, kI⟩ := hkeys j hj
      rw [hnode j] at kB kb kl kU kI
      by_cases hjk : j = index b o
      · rw [if_pos hjk] at kB kb kl kU kI
        subst hjk
        refine ⟨kS, le_trans kB hcB, kb.trans hcb, kl.trans hcl, ?_, ?_⟩
        · intro hno
          exact absurd rfl (hno o (List.mem_cons_self _ _))
        · intro hI hcont
          apply kI
          · exact hcI hI (fun bj hbj => hcont o (List.mem_cons_self _ _) rfl bj hbj)
          · intro o' ho' hidx bj hbj
            exact hcont o' (List.mem_cons_of_mem _ ho') hidx bj (hcb ▸ hbj)
      · rw [if_neg hjk] at kB kb kl kU kI
        refine ⟨kS, kB, kb, kl, ?_, ?_⟩
        · intro hno
          exact kU (fun o' ho' => hno o' (List.mem_cons_of_mem _ ho'))
        · intro hI hcont
          exact kI hI (fun o' ho' hidx bj hbj => hcont o' (List.mem_cons_of_mem _ ho') hidx bj hbj)
    · refine hperm.trans ?_
      refine (List.Perm.append_left os hperm1).trans ?_
      simp only [List.singleton_append, List.cons_append]
      exact List.perm_middle

end PushDown

section Invariants

theorem InBounds_of_keys (b : Rectangle α) (objs : List (Rectangle α))
    (n0 n1 n2 n3 : QuadTree α) (l : Int) (hb : WellFormed b)
    (hall : ∀ o ∈ allObjects (mk b objs n0 n1 n2 n3 l), b.Contains o = true)
    (h : ∀ j, isKey j → boundsOf (nodeAt (mk b objs n0 n1 n2 n3 l) j) = quadrant b j ∧
      InBounds (nodeAt (mk b objs n0 n1 n2 n3 l) j)) :
    InBounds (mk b objs n0 n1 n2 n3 l) := by
  have h0 := h 0 (by simp [isKey])
  have h1 := h 1 (by simp [isKey])
  have h2 := h 2 (by simp [isKey])
  have h3 := h 3 (by simp [isKey])
  simp only [nodeAt] at h0 h1 h2 h3
  simp at h0 h1 h2 h3
  exact ⟨hb, hall, Or.inr ⟨h0.1, h1.1, h2.1, h3.1, h0.2, h1.2, h2.2, h3.2⟩⟩

theorem InBounds_keys (b : Rectangle α) (objs : List (Rectangle α))
    (n0 n1 n2 n3 : QuadTree α) (l : Int) (hI : InBounds (mk b objs n0 n1 n2 n3 l))
    (hfull : ∀ j, isKey j → Shaped (nodeAt (mk b objs n0 n1 n2 n3 l) j)) :
    ∀ j, isKey j → boundsOf (nodeAt (mk b objs n0 n1 n2 n3 l) j) = quadrant b j ∧
      InBounds (nodeAt (mk b objs n0 n1 n2 n3 l) j) := by
  obtain ⟨_, _, hc⟩ := hI
  rcases hc with ⟨rfl, _, _, _⟩ | ⟨b0, b1, b2, b3, i0, i1, i2, i3⟩
  · have := hfull 0 (by simp [isKey])
    simp [nodeAt, Shaped] at this
  · intro j hj
    rcases hj with rfl | rfl | rfl | rfl <;> simp [nodeAt] <;> constructor <;> assumption

theorem InBounds_wellFormed (b : Rectangle α) (objs : List (Rectangle α))
    (n0 n1 n2 n3 : QuadTree α) (l : Int) (hI : InBounds (mk b objs n0 n1 n2 n3 l)) :
    WellFormed b ∧ ∀ o ∈ allObjects (mk b objs n0 n1 n2 n3 l), b.Contains o = true :=
  ⟨hI.1, hI.2.1⟩

theorem filter_split_perm (p : Rectangle α → Bool) (X : List (Rectangle α)) :
    (X.filter (fun o => !p o) ++ (X.filter p).reverse).Perm X := by
  have h1 : (X.filter p ++ X.filter (fun o => !p o)).Perm X := List.filter_append_perm p X
  exact (List.perm_append_comm.trans (List.Perm.append_right _ (List.reverse_perm _))).trans h1

/-- The overflow branch of `Insert`: the redistribution loop followed by the assignment
of the rectangles that stay. -/
theorem overflow_post (ins : QuadTree α → Rectangle α → Option (QuadTree α)) (fuel : Nat)
    (hins : ∀ c o, Shaped c → depthBudget c ≤ fuel → ∃ c', ins c o = some c' ∧ InsertPost c o c')
    (b : Rectangle α) (l : Int) (X : List (Rectangle α)) (m0 m1 m2 m3 : QuadTree α)
    (hch : ∀ j, isKey j → Shaped (nodeAt (mk b X m0 m1 m2 m3 l) j) ∧
      depthBudget (nodeAt (mk b X m0 m1 m2 m3 l) j) ≤ fuel) :
    ∃ q', (pushDown ins (mk b X m0 m1 m2 m3 l) ((X.filter (fits b)).reverse)).map
          (fun t => setObjects t (X.filter (fun o => !fits b o))) = some q' ∧
      Shaped q' ∧ boundsOf q' = some b ∧ levelOf q' = some l ∧
      q'.objects = X.filter (fun o => !fits b o) ∧
      (∀ B, (MAX_LEVELS - l).toNat ≤ B →
        (∀ j, isKey j → depthBudget (nodeAt (mk b X m0 m1 m2 m3 l) j) ≤ B) →
        depthBudget q' ≤ B + 1) ∧
      (allObjects q').Perm (allObjects (mk b X m0 m1 m2 m3 l)) ∧
      (WellFormed b → (∀ o ∈ allObjects (mk b X m0 m1 m2 m3 l), b.Contains o = true) →
        (∀ j, isKey j → boundsOf (nodeAt (mk b X m0 m1 m2 m3 l) j) = quadrant b j ∧
          InBounds (nodeAt (mk b X m0 m1 m2 m3 l) j)) → InBounds q') ∧
      (∀ j, isKey j → (∀ o ∈ X, index b o ≠ -1 → index b o ≠ j) →
        nodeAt q' j = nodeAt (mk b X m0 m1 m2 m3 l) j) ∧
      (∀ j, isKey j → Shaped (nodeAt q' j) ∧
        boundsOf (nodeAt q' j) = boundsOf (nodeAt (mk b X m0 m1 m2 m3 l) j) ∧
        levelOf (nodeAt q' j) = levelOf (nodeAt (mk b X m0 m1 m2 m3 l) j)) := by
  have hfit : ∀ o ∈ (X.filter (fits b)).reverse, index b o ≠ -1 := by
    intro o ho
    simp [fits] at ho
    exact ho.2
  obtain ⟨k0, k1, k2, k3, hpush, hkeys, hperm⟩ :=
    pushDown_post ins fuel hins b l _ X m0 m1 m2 m3 hfit hch
  have hnode : ∀ j Y, nodeAt (mk b Y k0 k1 k2 k3 l) j = nodeAt (mk b X k0 k1 k2 k3 l) j :=
    fun j Y => rfl
  have hP : (allObjects (mk b (X.filter (fun o => !fits b o)) k0 k1 k2 k3 l)).Perm
      (allObjects (mk b X m0 m1 m2 m3 l)) := by
    have h1 := filter_split_perm (fits b) X
    simp only [allObjects] at hperm ⊢
    rw [← Multiset.coe_eq_coe] at hperm h1 ⊢
    simp only [← Multiset.coe_add] at hperm h1 ⊢
    have h2 : ((allObjects k0 : Multiset (Rectangle α)) + (↑(allObjects k1) +
        (↑(allObjects k2) + ↑(allObjects k3)))) =
        ↑(X.filter (fits b)).reverse + (↑(allObjects m0) + (↑(allObjects m1) +
          (↑(allObjects m2) + ↑(allObjects m3)))) := by
      apply add_left_cancel (a := (X : Multiset (Rectangle α)))
      rw [hperm]
      abel
    rw [h2, ← h1]
    abel
  refine ⟨mk b (X.filter (fun o => !fits b o)) k0 k1 k2 k3 l, ?_, ?_, rfl, rfl, rfl, ?_, hP,
    ?_, ?_, ?_⟩
  · rw [hpush]; rfl
  · exact Shaped_of_keys _ _ _ _ _ _ _ (fun j hj => (hkeys j hj).1)
  · intro B hl hB
    rw [depthBudget_le_succ]
    exact ⟨hl, fun j hj => le_trans (hkeys j hj).2.1 (hB j hj)⟩
  · intro hb hall hq
    apply InBounds_of_keys _ _ _ _ _ _ _ hb
    · intro o ho
      exact hall o ((hP.mem_iff).mp ho)
    · intro j hj
      obtain ⟨_, _, kb, _, _, kI⟩ := hkeys j hj
      rw [hnode]
      refine ⟨kb.trans (hq j hj).1, kI (hq j hj).2 ?_⟩
      intro o ho hidx bj hbj
      have hoX : o ∈ X := by
        simp at ho
        exact ho.1
      have hob : b.Contains o = true := hall o (by simp [allObjects, hoX])
      apply quadrant_contains b bj o hb hob
      rw [hidx, ← (hq j hj).1]
      exact hbj
  · intro j hj hno
    rw [hnode]
    apply (hkeys j hj).2.2.2.2.1
    intro o ho
    simp [fits] at ho
    exact hno o ho.1 ho.2
  · intro j hj
    rw [hnode]
    exact ⟨(hkeys j hj).1, (hkeys j hj).2.2.1, (hkeys j hj).2.2.2.1⟩

end Invariants

section InsertSpecification

theorem fresh_children (b : Rectangle α) (X : List (Rectangle α)) (l : Int) :
    ∃ f0 f1 f2 f3 b0 b1 b2 b3,
      split (mk b X nil nil nil nil l) = mk b X f0 f1 f2 f3 l ∧
      f0 = NewQuadTree (l + 1) b0 ∧ f1 = NewQuadTree (l + 1) b1 ∧
      f2 = NewQuadTree (l + 1) b2 ∧ f3 = NewQuadTree (l + 1) b3 ∧
      quadrant b 0 = some b0 ∧ quadrant b 1 = some b1 ∧
      quadrant b 2 = some b2 ∧ quadrant b 3 = some b3 := by
  obtain ⟨q0, q1, q2, q3⟩ := quadrant_eq b
  exact ⟨_, _, _, _, _, _, _, _, rfl, rfl, rfl, rfl, rfl, q0, q1, q2, q3⟩

theorem fresh_budget (b : Rectangle α) (l : Int) (hl : l < MAX_LEVELS) :
    depthBudget (NewQuadTree (l + 1) b) = (MAX_LEVELS - l).toNat := by
  simp only [NewQuadTree, depthBudget, MAX_LEVELS] at *
  omega

theorem fresh_key (b : Rectangle α) (X : List (Rectangle α)) (l : Int) (j : Int)
    (hj : isKey j) :
    ∃ bj, nodeAt (split (mk b X nil nil nil nil l)) j = NewQuadTree (l + 1) bj ∧
      quadrant b j = some bj := by
  obtain ⟨q0, q1, q2, q3⟩ := quadrant_eq b
  rcases hj with rfl | rfl | rfl | rfl
  · exact ⟨_, by simp [split, nodeAt], q0⟩
  · exact ⟨_, by simp [split, nodeAt], q1⟩
  · exact ⟨_, by simp [split, nodeAt], q2⟩
  · exact ⟨_, by simp [split, nodeAt], q3⟩

/-- Specification of `Insert`: on a tree without missing children, given fuel for its
depth, the call returns, and the result satisfies `InsertPost`. -/
theorem InsertFuel_post (fuel : Nat) :
    ∀ (q : QuadTree α) (r : Rectangle α), Shaped q → depthBudget q ≤ fuel →
      ∃ q', InsertFuel fuel q r = some q' ∧ InsertPost q r q' := by
  induction fuel with
  | zero =>
    intro q r hS hB
    obtain ⟨b, objs, n0, n1, n2, n3, l, rfl⟩ := Shaped_ne_nil q hS
    simp [depthBudget] at hB
  | succ fuel ih =>
    intro q r hS hB
    obtain ⟨b, objs, n0, n1, n2, n3, l, rfl⟩ := Shaped_ne_nil q hS
    obtain ⟨hlB, hkB⟩ := (depthBudget_le_succ b objs n0 n1 n2 n3 l fuel).mp hB
    obtain ⟨Bq, hBq⟩ : ∃ Bq, depthBudget (mk b objs n0 n1 n2 n3 l) = Bq + 1 := ⟨_, rfl⟩
    obtain ⟨hlq, hkq⟩ := (depthBudget_le_succ b objs n0 n1 n2 n3 l Bq).mp (le_of_eq hBq)
    rw [InsertFuel_succ]
    by_cases h1 : lenNodes (mk b objs n0 n1 n2 n3 l) ≠ 0 ∧ index b r ≠ -1
    · rw [if_pos h1]
      have hfull := Shaped_keys b objs n0 n1 n2 n3 l hS h1.1
      have hk := isKey_of_index b r h1.2
      obtain ⟨c, hc, hcS, hcB, hcb, hcl, hcP, hcI, -⟩ :=
        ih (nodeAt (mk b objs n0 n1 n2 n3 l) (index b r)) r (hfull _ hk) (hkB _ hk)
      have hnode := fun j => nodeAt_setNode b objs n0 n1 n2 n3 l (index b r) j c hk
      have hperm := allObjects_setNode_perm b objs n0 n1 n2 n3 l (index b r) c [r] hk
        (by simpa using hcP)
      refine ⟨setNode (mk b objs n0 n1 n2 n3 l) (index b r) c, by rw [hc]; rfl, ?_⟩
      rw [setNode_eq_mk] at hnode hperm ⊢
      refine ⟨?_, ?_, rfl, rfl, by simpa using hperm, ?_, ?_⟩
      · apply Shaped_of_keys
        intro j hj
        rw [hnode]
        split_ifs
        · exact hcS
        · exact hfull j hj
      · rw [hBq, depthBudget_le_succ]
        refine ⟨hlq, ?_⟩
        intro j hj
        rw [hnode]
        split_ifs with hjk
        · exact le_trans hcB (hkq _ hk)
        · exact hkq j hj
      · intro hI hcont
        have hbr : b.Contains r = true := hcont b rfl
        obtain ⟨hwf, hall⟩ := InBounds_wellFormed _ _ _ _ _ _ _ hI
        have hq := InBounds_keys _ _ _ _ _ _ _ hI hfull
        apply InBounds_of_keys _ _ _ _ _ _ _ hwf
        · intro o ho
          have := (hperm.mem_iff).mp ho
          simp only [List.singleton_append, List.mem_cons] at this
          rcases this with rfl | h
          · exact hbr
          · exact hall o h
        · intro j hj
          rw [hnode]
          split_ifs with hjk
          · subst hjk
            refine ⟨hcb.trans (hq _ hk).1, hcI (hq _ hk).2 ?_⟩
            intro bj hbj
            exact quadrant_contains b bj r hwf hbr ((hq _ hk).1 ▸ hbj)
          · exact hq j hj
      · intro b' hb' o ho hidx
        cases hb'
        rcases ho with ho | rfl
        · exact ho
        · exact absurd hidx h1.2
    · rw [if_neg h1]
      by_cases h2 : (objs ++ [r]).length > MAX_OBJECTS ∧ l < MAX_LEVELS
      · rw [if_pos h2]
        have hlevel : (MAX_LEVELS - l).toNat ≤ Bq := hlq
        by_cases h3 : lenNodes (mk b objs n0 n1 n2 n3 l) = 0
        · rw [if_pos h3]
          obtain ⟨rfl, rfl, rfl, rfl⟩ := Shaped_leaf_of_lenNodes b objs n0 n1 n2 n3 l hS h3
          obtain ⟨f0, f1, f2, f3, b0, b1, b2, b3, hsp, rfl, rfl, rfl, rfl, e0, e1, e2, e3⟩ :=
            fresh_children b (objs ++ [r]) l
          have hfk := fun j hj => fresh_key b (objs ++ [r]) l j hj
          rw [hsp] at hfk ⊢
          have hfb : (MAX_LEVELS - l).toNat ≤ fuel := hlB
          have hch : ∀ j, isKey j →
              Shaped (nodeAt (mk b (objs ++ [r]) (NewQuadTree (l + 1) b0)
                (NewQuadTree (l + 1) b1) (NewQuadTree (l + 1) b2)
                (NewQuadTree (l + 1) b3) l) j) ∧
              depthBudget (nodeAt (mk b (objs ++ [r]) (NewQuadTree (l + 1) b0)
                (NewQuadTree (l + 1) b1) (NewQuadTree (l + 1) b2)
                (NewQuadTree (l + 1) b3) l) j) ≤ fuel := by
            intro j hj
            obtain ⟨bj, hbj, _⟩ := hfk j hj
            rw [hbj, fresh_budget bj l h2.2]
            exact ⟨Or.inl ⟨rfl, rfl, rfl, rfl⟩, hfb⟩
          obtain ⟨q', hq', hS', hb', hl', hobj', hB', hP', hI', -, -⟩ :=
            overflow_post (InsertFuel fuel) fuel ih b l (objs ++ [r]) _ _ _ _ hch
          refine ⟨q', hq', hS', ?_, hb', hl', ?_, ?_, ?_⟩
          · rw [hBq]
            apply hB' Bq hlevel
            intro j hj
            obtain ⟨bj, hbj, _⟩ := hfk j hj
            rw [hbj, fresh_budget bj l h2.2]
            exact hlevel
          · refine hP'.trans ?_
            simp only [allObjects, NewQuadTree, List.append_nil, List.nil_append]
            exact List.perm_append_comm
          · intro hI hcont
            obtain ⟨hwf, hall⟩ := InBounds_wellFormed _ _ _ _ _ _ _ hI
            apply hI' hwf
            · intro o ho
              simp only [allObjects, NewQuadTree, List.append_nil, List.nil_append,
                List.mem_append, List.mem_singleton] at ho
              rcases ho with ho | rfl
              · exact hall o (by simp [allObjects, ho])
              · exact hcont b rfl
            · intro j hj
              obtain ⟨bj, hbj, hqj⟩ := hfk j hj
              rw [hbj]
              refine ⟨by rw [hqj]; rfl, quadrant_wellFormed b bj j hwf hj hqj, ?_, ?_⟩
              · simp [allObjects]
              · exact Or.inl ⟨rfl, rfl, rfl, rfl⟩
          · intro b' hb'' o ho hidx
            cases hb''
            rw [hobj']
            simp only [List.mem_filter, List.mem_append, List.mem_singleton, fits,
              Bool.not_eq_true', decide_eq_false_iff_not, not_not]
            exact ⟨ho, hidx⟩
        · rw [if_neg h3]
          have hfull := Shaped_keys b objs n0 n1 n2 n3 l hS h3
          have hch : ∀ j, isKey j →
              Shaped (nodeAt (mk b (objs ++ [r]) n0 n1 n2 n3 l) j) ∧
              depthBudget (nodeAt (mk b (objs ++ [r]) n0 n1 n2 n3 l) j) ≤ fuel :=
            fun j hj => ⟨hfull j hj, hkB j hj⟩
          obtain ⟨q', hq', hS', hb', hl', hobj', hB', hP', hI', -, -⟩ :=
            overflow_post (InsertFuel fuel) fuel ih b l (objs ++ [r]) _ _ _ _ hch
          refine ⟨q', hq', hS', ?_, hb', hl', ?_, ?_, ?_⟩
          · rw [hBq]
            exact hB' Bq hlevel hkq
          · refine hP'.trans ?_
            simp only [allObjects, List.append_assoc, List.singleton_append]
            exact List.perm_middle
          · intro hI hcont
            obtain ⟨hwf, hall⟩ := InBounds_wellFormed _ _ _ _ _ _ _ hI
            apply hI' hwf
            · intro o ho
              simp only [allObjects, List.append_assoc, List.mem_append,
                List.mem_singleton] at ho
              rcases ho with ho | rfl | ho
              · exact hall o (by simp [allObjects, ho])
              · exact hcont b rfl
              · exact hall o (by simp only [allObjects, List.mem_append]; exact Or.inr ho)
            · exact fun j hj => InBounds_keys b objs n0 n1 n2 n3 l hI hfull j hj
          · intro b' hb'' o ho hidx
            cases hb''
            rw [hobj']
            simp only [List.mem_filter, List.mem_append, List.mem_singleton, fits,
              Bool.not_eq_true', decide_eq_false_iff_not, not_not]
            exact ⟨ho, hidx⟩
      · rw [if_neg h2]
        refine ⟨_, rfl, ?_, le_refl _, rfl, rfl, ?_, ?_, ?_⟩
        · exact hS
        · simp only [allObjects, List.append_assoc, List.singleton_append]
          exact List.perm_middle
        · intro hI hcont
          obtain ⟨hwf, hall, hc⟩ := hI
          refine ⟨hwf, ?_, hc⟩
          intro o ho
          simp only [allObjects, List.append_assoc, List.mem_append, List.mem_singleton] at ho
          rcases ho with ho | rfl | ho
          · exact hall o (by simp [allObjects, ho])
          · exact hcont b rfl
          · exact hall o (by simp only [allObjects, List.mem_append]; exact Or.inr ho)
        · intro b' hb'' o ho hidx
          simp only [QuadTree.objects, List.mem_append, List.mem_singleton]
          exact ho

end InsertSpecification

section Sequences

/-- `Insert` returns on every tree without missing children, and establishes
`InsertPost`. -/
theorem Insert_post (q : QuadTree α) (r : Rectangle α) (hS : Shaped q) :
    ∃ q', Insert q r = some q' ∧ InsertPost q r q' :=
  InsertFuel_post (depthBudget q) q r hS (le_refl _)

/-- A sequence of `Insert` calls returns, keeps bounds and level of the root, stores
exactly the inserted rectangles in addition to the old ones, keeps the containment
invariant when the rectangles lie in the bounds of the root, and leaves in the objects
of the root every rectangle that fits no quadrant of the root. -/
theorem InsertAll_post (rs : List (Rectangle α)) :
    ∀ q : QuadTree α, Shaped q →
      ∃ t, InsertAll q rs = some t ∧ Shaped t ∧ boundsOf t = boundsOf q ∧
        levelOf t = levelOf q ∧ (allObjects t).Perm (rs ++ allObjects q) ∧
        (InBounds q → (∀ b, boundsOf q = some b → ∀ r ∈ rs, b.Contains r = true) →
          InBounds t) ∧
        (∀ b, boundsOf q = some b → ∀ o, o ∈ q.objects ∨ o ∈ rs → index b o = -1 →
          o ∈ t.objects) := by
  induction rs with
  | nil =>
    intro q hS
    exact ⟨q, rfl, hS, rfl, rfl, by simp, fun h _ => h, fun b _ o ho _ => by simpa using ho⟩
  | cons r rs ih =>
    intro q hS
    obtain ⟨q1, h1, hS1, -, hb1, hl1, hP1, hI1, hO1⟩ := Insert_post q r hS
    obtain ⟨t, ht, hSt, hbt, hlt, hPt, hIt, hOt⟩ := ih q1 hS1
    refine ⟨t, by simp only [InsertAll, h1, ht], hSt, hbt.trans hb1, hlt.trans hl1, ?_, ?_, ?_⟩
    · refine hPt.trans ?_
      refine (List.Perm.append_left rs hP1).trans ?_
      simp only [List.cons_append]
      exact List.perm_middle
    · intro hI hcont
      apply hIt
      · exact hI1 hI (fun b hb => hcont b hb r (List.mem_cons_self _ _))
      · intro b hb r' hr'
        exact hcont b (hb1 ▸ hb) r' (List.mem_cons_of_mem _ hr')
    · intro b hb o ho hidx
      apply hOt b (hb1 ▸ hb) o _ hidx
      rcases ho with ho | ho
      · exact Or.inl (hO1 b hb o (Or.inl ho) hidx)
      · rcases List.mem_cons.mp ho with rfl | ho
        · exact Or.inl (hO1 b hb o (Or.inr rfl) hidx)
        · exact Or.inr ho

theorem hits_of_contains (n : QuadTree α) (bn o rectangle : Rectangle α)
    (hb : boundsOf n = some bn) (hc : bn.Contains o = true)
    (hi : o.Intersects rectangle = true) : n.hits rectangle = true := by
  obtain ⟨objs, n0, n1, n2, n3, l, rfl⟩ := eq_mk_of_boundsOf n bn hb
  rw [Contains_iff] at hc
  rw [Intersects_iff] at hi
  simp only [hits]
  rw [Intersects_iff]
  obtain ⟨c1, c2, c3, c4⟩ := hc
  obtain ⟨i1, i2, i3, i4⟩ := hi
  exact ⟨lt_of_le_of_lt c1 i1, lt_of_le_of_lt c2 i2, lt_of_lt_of_le i3 c3, lt_of_lt_of_le i4 c4⟩

/-- Under the containment invariant, every stored rectangle that intersects the query is
among the rectangles `Retrieve` collects. -/
theorem mem_retrieved_of_InBounds (q : QuadTree α) (o rectangle : Rectangle α)
    (hI : InBounds q) (ho : o ∈ allObjects q) (hi : o.Intersects rectangle = true) :
    o ∈ retrieved q rectangle := by
  induction q with
  | nil => simp [allObjects] at ho
  | mk b objs n0 n1 n2 n3 l ih0 ih1 ih2 ih3 =>
    obtain ⟨_, _, hc⟩ := hI
    have key : ∀ n : QuadTree α, InBounds n → o ∈ allObjects n →
        (o ∈ retrieved n rectangle) → o ∈ (if n.hits rectangle then retrieved n rectangle else []) := by
      intro n hn hon hr
      cases n with
      | nil => simp [allObjects] at hon
      | mk bn objsn a0 a1 a2 a3 ln =>
        have hcn : bn.Contains o = true := hn.2.1 o hon
        rw [if_pos (hits_of_contains (mk bn objsn a0 a1 a2 a3 ln) bn o rectangle rfl hcn hi)]
        exact hr
    simp only [allObjects, List.mem_append] at ho
    simp only [retrieved, List.mem_append]
    rcases hc with ⟨rfl, rfl, rfl, rfl⟩ | ⟨_, _, _, _, i0, i1, i2, i3⟩
    · simp [allObjects] at ho
      exact Or.inl ho
    · rcases ho with ho | ho | ho | ho | ho
      · exact Or.inl ho
      · exact Or.inr (Or.inl (key n0 i0 ho (ih0 i0 ho)))
      · exact Or.inr (Or.inr (Or.inl (key n1 i1 ho (ih1 i1 ho))))
      · exact Or.inr (Or.inr (Or.inr (Or.inl (key n2 i2 ho (ih2 i2 ho)))))
      · exact Or.inr (Or.inr (Or.inr (Or.inr (key n3 i3 ho (ih3 i3 ho)))))

theorem mem_Retrieve_of_mem_retrieved (q : QuadTree α) (ord : RangeOrder)
    (rectangle : Rectangle α) (result : List (Rectangle α)) (o : Rectangle α)
    (h : o ∈ retrieved q rectangle) : o ∈ Retrieve q ord rectangle result :=
  ((Retrieve_perm q ord rectangle result).mem_iff).mpr (List.mem_append_right _ h)

theorem mem_Retrieve_of_mem_objects (q : QuadTree α) (ord : RangeOrder)
    (rectangle : Rectangle α) (result : List (Rectangle α)) (o : Rectangle α)
    (h : o ∈ q.objects) : o ∈ Retrieve q ord rectangle result := by
  apply mem_Retrieve_of_mem_retrieved
  cases q with
  | nil => simp [QuadTree.objects] at h
  | mk b objs n0 n1 n2 n3 l =>
    simp only [retrieved, List.mem_append]
    exact Or.inl h

end Sequences

section Claims

/-- C1, the code at the failing input: thirteen rectangles are inserted into the scenario
root, the last one lying outside the region of the root; it overlaps the query equal to
itself, and `Retrieve` with that query returns the twelve other rectangles and not the
inserted one, in whatever order the `range` loops run. -/
theorem Insert_outside_not_retrieved :
    ∃ t, InsertAll scenarioRoot (List.replicate 12 scenarioStraddler ++ [scenarioOutside]) =
        some t ∧
      scenarioOutside ∈ List.replicate 12 scenarioStraddler ++ [scenarioOutside] ∧
      scenarioOutside.Intersects scenarioOutside = true ∧
      ∀ ord : RangeOrder,
        Retrieve t ord scenarioOutside [] = List.replicate 12 scenarioStraddler ∧
        scenarioOutside ∉ Retrieve t ord scenarioOutside [] := by
  refine ⟨_, rfl, by decide, by decide, ?_⟩
  intro ord
  have hp := Retrieve_perm
    ((InsertAll scenarioRoot
      (List.replicate 12 scenarioStraddler ++ [scenarioOutside])).getD nil) ord
    scenarioOutside []
  have hr : retrieved ((InsertAll scenarioRoot
      (List.replicate 12 scenarioStraddler ++ [scenarioOutside])).getD nil)
      scenarioOutside = List.replicate 12 scenarioStraddler := by decide
  rw [hr, List.nil_append] at hp
  have he := List.perm_replicate.mp hp
  exact ⟨he, fun hmem => absurd (he ▸ hmem) (by decide)⟩

/-- C2, counterexample: after thirteen copies of the scenario box, the node reached from
the root by the keys `TOP_LEFT`, `BOTTOM_RIGHT`, `TOP_LEFT`,
`BOTTOM_RIGHT`, `TOP_LEFT` stores all thirteen and its bounds intersect the query
`NewRectangle(75, 75, 1, 1)`, yet `Retrieve` with that query returns nothing, in whatever
order the `range` loops run. -/
theorem Retrieve_misses_intersecting_node :
    ∃ t N, InsertAll scenarioRoot (List.replicate 13 scenarioBox) = some t ∧
      N = nodeAt (nodeAt (nodeAt (nodeAt (nodeAt t TOP_LEFT) BOTTOM_RIGHT) TOP_LEFT)
        BOTTOM_RIGHT) TOP_LEFT ∧
      N.objects = List.replicate 13 scenarioBox ∧
      boundsOf N = some (NewRectangle (-1050) (-1050) 1600 1600) ∧
      (NewRectangle (-1050) (-1050) 1600 1600).Intersects (NewRectangle 75 75 1 1) = true ∧
      ∀ ord : RangeOrder, Retrieve t ord (NewRectangle 75 75 1 1) [] = [] := by
  refine ⟨_, _, rfl, rfl, by decide, by decide, by decide, ?_⟩
  intro ord
  have hp := Retrieve_perm
    ((InsertAll scenarioRoot (List.replicate 13 scenarioBox)).getD nil) ord
    (NewRectangle 75 75 1 1) []
  have hr : retrieved ((InsertAll scenarioRoot (List.replicate 13 scenarioBox)).getD nil)
      (NewRectangle 75 75 1 1) = [] := by decide
  rw [hr] at hp
  exact List.Perm.eq_nil hp

/-- C10, the code at the failing input: `split` on the scenario root, whose region is
`[0, 100] x [0, 100]`, gives the child under `TOP_LEFT` level 1 and the region
`[-150, 50] x [-150, 50]`: four times the area of the parent, and not inside it. -/
theorem split_children_oversized :
    ∃ c, boundsOf (nodeAt (split scenarioRoot) TOP_LEFT) = some c ∧
      levelOf (nodeAt (split scenarioRoot) TOP_LEFT) = some 1 ∧
      c = NewRectangle (-50) (-50) 100 100 ∧
      c.minX = -150 ∧ c.maxX = 50 ∧ c.minY = -150 ∧ c.maxY = 50 ∧
      c.width * c.height =
        4 * ((NewRectangle (50 : ℤ) 50 50 50).width * (NewRectangle (50 : ℤ) 50 50 50).height) ∧
      (NewRectangle (50 : ℤ) 50 50 50).Contains c = false :=
  ⟨_, rfl, rfl, by decide, by decide, by decide, by decide, by decide, by decide, by decide⟩

/-- On every node, each child created by `split` is twice as wide and twice as high as
the parent. -/
theorem split_child_extent (b c : Rectangle α) (k : Int) (hk : isKey k)
    (hc : quadrant b k = some c) : c.width = 2 * b.width ∧ c.height = 2 * b.height := by
  obtain ⟨q0, q1, q2, q3⟩ := quadrant_eq b
  rcases hk with rfl | rfl | rfl | rfl
  · rw [q0] at hc; cases hc
    constructor <;> simp only [Rectangle.width, Rectangle.height, NewRectangle] <;> ring
  · rw [q1] at hc; cases hc
    constructor <;> simp only [Rectangle.width, Rectangle.height, NewRectangle] <;> ring
  · rw [q2] at hc; cases hc
    constructor <;> simp only [Rectangle.width, Rectangle.height, NewRectangle] <;> ring
  · rw [q3] at hc; cases hc
    constructor <;> simp only [Rectangle.width, Rectangle.height, NewRectangle] <;> ring

/-- C8: a rectangle that fits no quadrant of the root stays in the objects of the root
once inserted, whatever is inserted afterwards, and `Retrieve` on the root returns it for
every query (in particular for every query that intersects the region of the root). -/
theorem straddler_stays_at_root (b : Rectangle α) (objs : List (Rectangle α))
    (n0 n1 n2 n3 : QuadTree α) (l : Int) (r : Rectangle α) (rs : List (Rectangle α))
    (hS : Shaped (mk b objs n0 n1 n2 n3 l)) (hr : index b r = -1) :
    ∃ t, InsertAll (mk b objs n0 n1 n2 n3 l) (r :: rs) = some t ∧ r ∈ t.objects ∧
      ∀ (ord : RangeOrder) (Q : Rectangle α) (result : List (Rectangle α)),
        r ∈ Retrieve t ord Q result := by
  obtain ⟨t, ht, -, -, -, -, -, hO⟩ := InsertAll_post (r :: rs) (mk b objs n0 n1 n2 n3 l) hS
  have hmem : r ∈ t.objects := hO b rfl r (Or.inr (List.mem_cons_self _ _)) hr
  exact ⟨t, ht, hmem, fun ord Q result => mem_Retrieve_of_mem_objects t ord Q result r hmem⟩

/-- C8, witness: the box `NewRectangle(50, 50, 10, 10)` on the centre of the scenario
root, followed by thirteen copies of the scenario box, which force splits below the
root. -/
theorem straddler_stays_at_root_witness :
    Shaped (mk (NewRectangle (50 : ℤ) 50 50 50) [] nil nil nil nil 0) ∧
      index (NewRectangle (50 : ℤ) 50 50 50) (NewRectangle 50 50 10 10) = -1 ∧
      ∃ t, InsertAll (mk (NewRectangle (50 : ℤ) 50 50 50) [] nil nil nil nil 0)
          (NewRectangle 50 50 10 10 :: List.replicate 13 scenarioBox) = some t ∧
        NewRectangle 50 50 10 10 ∈ t.objects ∧
        ∀ (ord : RangeOrder) (Q : Rectangle ℤ) (result : List (Rectangle ℤ)),
          NewRectangle 50 50 10 10 ∈ Retrieve t ord Q result :=
  ⟨Or.inl ⟨rfl, rfl, rfl, rfl⟩, by decide,
    straddler_stays_at_root (NewRectangle 50 50 50 50) [] nil nil nil nil 0
      (NewRectangle 50 50 10 10) (List.replicate 13 scenarioBox)
      (Or.inl ⟨rfl, rfl, rfl, rfl⟩) (by decide)⟩

end Claims

section SameQuadrant

theorem InsertAll_append (xs ys : List (Rectangle α)) (q : QuadTree α) :
    InsertAll q (xs ++ ys) =
      match InsertAll q xs with
      | none => none
      | some t => InsertAll t ys := by
  induction xs generalizing q with
  | nil => simp [InsertAll]
  | cons x xs ih =>
    simp only [List.cons_append, InsertAll]
    cases Insert q x with
    | none => rfl
    | some q1 => exact ih q1

theorem InsertFuel_leaf_below_capacity (fuel : Nat) (b : Rectangle α)
    (objs : List (Rectangle α)) (l : Int) (r : Rectangle α) (h : objs.length < MAX_OBJECTS) :
    InsertFuel (fuel + 1) (mk b objs nil nil nil nil l) r =
      some (mk b (objs ++ [r]) nil nil nil nil l) := by
  have hlen : ¬ (objs.length + 1 > MAX_OBJECTS) := by omega
  simp [InsertFuel, lenNodes, isNil, QuadTree.objects, hlen]

theorem foldlM_leaf_below_capacity (fuel : Nat) (b : Rectangle α) (l : Int)
    (rs objs : List (Rectangle α)) (h : objs.length + rs.length ≤ MAX_OBJECTS) :
    List.foldlM (InsertFuel (fuel + 1)) (mk b objs nil nil nil nil l) rs =
      some (mk b (objs ++ rs) nil nil nil nil l) := by
  induction rs generalizing objs with
  | nil => simp
  | cons r rs ih =>
    have h1 : objs.length < MAX_OBJECTS := by simp at h; omega
    have h2 : (objs ++ [r]).length + rs.length ≤ MAX_OBJECTS := by simp at h ⊢; omega
    simp [List.foldlM_cons, InsertFuel_leaf_below_capacity fuel b objs l r h1, ih _ h2]

theorem setNode_nodeAt (b : Rectangle α) (objs : List (Rectangle α))
    (n0 n1 n2 n3 : QuadTree α) (l : Int) (k : Int) :
    setNode (mk b objs n0 n1 n2 n3 l) k (nodeAt (mk b objs n0 n1 n2 n3 l) k) =
      mk b objs n0 n1 n2 n3 l := by
  simp only [setNode, nodeAt]
  split_ifs <;> simp_all

theorem setNode_setNode (b : Rectangle α) (objs : List (Rectangle α))
    (n0 n1 n2 n3 : QuadTree α) (l : Int) (k : Int) (c c' : QuadTree α) :
    setNode (setNode (mk b objs n0 n1 n2 n3 l) k c) k c' =
      setNode (mk b objs n0 n1 n2 n3 l) k c' := by
  simp only [setNode]
  split_ifs <;> simp_all [setNode]

/-- When all the rectangles moved by the redistribution loop go to the same child, the
loop is a sequence of insertions into that child. -/
theorem pushDown_same_key (ins : QuadTree α → Rectangle α → Option (QuadTree α))
    (b : Rectangle α) (l : Int) (k : Int) (hk : isKey k) (os : List (Rectangle α)) :
    ∀ (objs : List (Rectangle α)) (n0 n1 n2 n3 : QuadTree α), (∀ o ∈ os, index b o = k) →
      pushDown ins (mk b objs n0 n1 n2 n3 l) os =
        (List.foldlM ins (nodeAt (mk b objs n0 n1 n2 n3 l) k) os).map
          (fun c => setNode (mk b objs n0 n1 n2 n3 l) k c) := by
  induction os with
  | nil =>
    intro objs n0 n1 n2 n3 _
    simp [pushDown, setNode_nodeAt]
  | cons o os ih =>
    intro objs n0 n1 n2 n3 hidx
    have ho : index b o = k := hidx o (List.mem_cons_self _ _)
    rw [pushDown, ho, List.foldlM_cons]
    cases hins : ins (nodeAt (mk b objs n0 n1 n2 n3 l) k) o with
    | none => rfl
    | some c =>
      have hrest := fun o' ho' => hidx o' (List.mem_cons_of_mem _ ho')
      have hstep := ih objs (if k = 0 then c else n0) (if k = 1 then c else n1)
        (if k = 2 then c else n2) (if k = 3 then c else n3) hrest
      rw [← setNode_eq_mk, nodeAt_setNode b objs n0 n1 n2 n3 l k k c hk, if_pos rfl] at hstep
      simp only [hstep, Option.some_bind, Option.bind_eq_bind]
      congr 1
      funext c'
      exact setNode_setNode b objs n0 n1 n2 n3 l k c c'

/-- A sequence of `Insert` calls, with given fuel, on a tree whose depth the fuel
covers. -/
theorem foldlM_InsertFuel_post (fuel : Nat) (os : List (Rectangle α)) :
    ∀ c0 : QuadTree α, Shaped c0 → depthBudget c0 ≤ fuel →
      ∃ c, List.foldlM (InsertFuel fuel) c0 os = some c ∧ Shaped c ∧
        boundsOf c = boundsOf c0 ∧ levelOf c = levelOf c0 ∧
        (allObjects c).Perm (os ++ allObjects c0) := by
  induction os with
  | nil =>
    intro c0 hS _
    exact ⟨c0, rfl, hS, rfl, rfl, by simp⟩
  | cons o os ih =>
    intro c0 hS hB
    obtain ⟨c1, h1, hS1, hB1, hb1, hl1, hP1, -, -⟩ := InsertFuel_post fuel c0 o hS hB
    obtain ⟨c, hc, hSc, hbc, hlc, hPc⟩ := ih c1 hS1 (le_trans hB1 hB)
    refine ⟨c, by simp [List.foldlM_cons, h1, hc], hSc, hbc.trans hb1, hlc.trans hl1, ?_⟩
    refine hPc.trans ?_
    refine (List.Perm.append_left os hP1).trans ?_
    simp only [List.cons_append]
    exact List.perm_middle

theorem lenNodes_of_keys (b : Rectangle α) (objs : List (Rectangle α))
    (n0 n1 n2 n3 : QuadTree α) (l : Int)
    (h : ∀ j, isKey j → Shaped (nodeAt (mk b objs n0 n1 n2 n3 l) j)) :
    lenNodes (mk b objs n0 n1 n2 n3 l) = 4 ∧ 5 ≤ nodeCount (mk b objs n0 n1 n2 n3 l) := by
  obtain ⟨_, _, _, _, _, _, _, rfl⟩ := Shaped_ne_nil _ (h 0 (by simp [isKey]))
  obtain ⟨_, _, _, _, _, _, _, rfl⟩ := Shaped_ne_nil _ (h 1 (by simp [isKey]))
  obtain ⟨_, _, _, _, _, _, _, rfl⟩ := Shaped_ne_nil _ (h 2 (by simp [isKey]))
  obtain ⟨_, _, _, _, _, _, _, rfl⟩ := Shaped_ne_nil _ (h 3 (by simp [isKey]))
  clear h
  constructor
  · simp [lenNodes, isNil]
  · simp only [nodeCount]
    omega

/-- The `Insert` that brings a childless node below the depth cap to `MAX_OBJECTS + 1`
rectangles splits it: afterwards all four keys are present. -/
theorem leaf_overflow_splits (fuel : Nat) (b : Rectangle α) (objs : List (Rectangle α))
    (l : Int) (r : Rectangle α) (hlen : objs.length = MAX_OBJECTS) (hl : l < MAX_LEVELS)
    (hf : (MAX_LEVELS - l).toNat ≤ fuel) :
    ∃ q', InsertFuel (fuel + 1) (mk b objs nil nil nil nil l) r = some q' ∧
      boundsOf q' = some b ∧ ∀ j, isKey j → Shaped (nodeAt q' j) := by
  rw [InsertFuel_succ]
  have h1 : ¬ (lenNodes (mk b objs nil nil nil nil l) ≠ 0 ∧ index b r ≠ -1) := by
    simp [lenNodes, isNil]
  have h2 : (objs ++ [r]).length > MAX_OBJECTS ∧ l < MAX_LEVELS := by
    refine ⟨?_, hl⟩
    simp [hlen]
  have h3 : lenNodes (mk b objs nil nil nil nil l) = 0 := by simp [lenNodes, isNil]
  rw [if_neg h1, if_pos h2, if_pos h3]
  obtain ⟨f0, f1, f2, f3, b0, b1, b2, b3, hsp, rfl, rfl, rfl, rfl, -, -, -, -⟩ :=
    fresh_children b (objs ++ [r]) l
  have hfk := fun j hj => fresh_key b (objs ++ [r]) l j hj
  rw [hsp] at hfk ⊢
  have hch : ∀ j, isKey j →
      Shaped (nodeAt (mk b (objs ++ [r]) (NewQuadTree (l + 1) b0)
        (NewQuadTree (l + 1) b1) (NewQuadTree (l + 1) b2)
        (NewQuadTree (l + 1) b3) l) j) ∧
      depthBudget (nodeAt (mk b (objs ++ [r]) (NewQuadTree (l + 1) b0)
        (NewQuadTree (l + 1) b1) (NewQuadTree (l + 1) b2)
        (NewQuadTree (l + 1) b3) l) j) ≤ fuel := by
    intro j hj
    obtain ⟨bj, hbj, _⟩ := hfk j hj
    rw [hbj, fresh_budget bj l hl]
    exact ⟨Or.inl ⟨rfl, rfl, rfl, rfl⟩, hf⟩
  obtain ⟨q', hq', -, hb', -, -, -, -, -, -, hK⟩ :=
    overflow_post (InsertFuel fuel) fuel (InsertFuel_post fuel) b l (objs ++ [r]) _ _ _ _ hch
  exact ⟨q', hq', hb', fun j hj => (hK j hj).1⟩

end SameQuadrant

section SameQuadrantRoot

theorem isKey_ne (k : Int) (hk : isKey k) : k ≠ -1 := by
  rcases hk with rfl | rfl | rfl | rfl <;> decide

theorem filter_fits_all (b : Rectangle α) (X : List (Rectangle α)) (k : Int) (hk : isKey k)
    (hidx : ∀ o ∈ X, index b o = k) :
    X.filter (fits b) = X ∧ X.filter (fun o => !fits b o) = [] := by
  have h : ∀ o ∈ X, fits b o = true := by
    intro o ho
    simp [fits, hidx o ho, isKey_ne k hk]
  constructor
  · exact List.filter_eq_self.mpr h
  · apply List.filter_eq_nil_iff.mpr
    intro o ho
    simp [h o ho]

/-- The tree after `MAX_OBJECTS + 1` rectangles, all classified into quadrant `k`, have
been inserted into a fresh level-0 root: the root has split, holds no objects, and child
`k` is the result of inserting all the rectangles, last one first, into the fresh child;
the other three children are as `split` created them. -/
theorem same_quadrant_root (b : Rectangle α) (rs : List (Rectangle α)) (k : Int)
    (hlen : rs.length = MAX_OBJECTS + 1) (hk : isKey k) (hidx : ∀ r ∈ rs, index b r = k) :
    ∃ t c, InsertAll (NewQuadTree 0 b) rs = some t ∧
      List.foldlM (InsertFuel 5) (nodeAt (split (NewQuadTree 0 b)) k) rs.reverse = some c ∧
      t = setNode (split (NewQuadTree 0 b)) k c ∧
      Shaped c ∧ boundsOf c = quadrant b k ∧ levelOf c = some 1 := by
  rcases List.eq_nil_or_concat rs with rfl | ⟨xs, x, hrs⟩
  · simp [MAX_OBJECTS] at hlen
  rw [List.concat_eq_append] at hrs
  subst hrs
  have hxs : xs.length = MAX_OBJECTS := by simpa using hlen
  obtain ⟨bk, hbk, hqk⟩ := fresh_key b ([] : List (Rectangle α)) 0 k hk
  have hfresh : nodeAt (split (NewQuadTree 0 b)) k = NewQuadTree (0 + 1) bk := hbk
  have hS0 : Shaped (NewQuadTree (0 + 1) bk) := Or.inl ⟨rfl, rfl, rfl, rfl⟩
  have hB0 : depthBudget (NewQuadTree (0 + 1) bk) ≤ 5 := by
    rw [fresh_budget bk 0 (by decide)]
    decide
  obtain ⟨c, hc, hSc, hbc, hlc, -⟩ :=
    foldlM_InsertFuel_post 5 (xs ++ [x]).reverse (NewQuadTree (0 + 1) bk) hS0 hB0
  refine ⟨setNode (split (NewQuadTree 0 b)) k c, c, ?_, by rw [hfresh]; exact hc, rfl, hSc,
    by rw [hbc, hqk]; rfl, by rw [hlc]; rfl⟩
  rw [InsertAll_append]
  have h12 := InsertAll_leaf_below_capacity b 0 xs [] (by simp [hxs])
  simp only [NewQuadTree, List.nil_append] at h12 ⊢
  rw [h12]
  simp only [InsertAll]
  have hins : Insert (mk b xs nil nil nil nil 0) x =
      some (setNode (split (mk b [] nil nil nil nil 0)) k c) := by
    have hbud : depthBudget (mk b xs nil nil nil nil (0 : Int)) = 5 + 1 := by
      simp [depthBudget, MAX_LEVELS]
    rw [Insert, hbud, InsertFuel_succ]
    have h1 : ¬ (lenNodes (mk b xs nil nil nil nil 0) ≠ 0 ∧ index b x ≠ -1) := by
      simp [lenNodes, isNil]
    have h2 : (xs ++ [x]).length > MAX_OBJECTS ∧ (0 : Int) < MAX_LEVELS := by
      refine ⟨by simp [hxs], by decide⟩
    have h3 : lenNodes (mk b xs nil nil nil nil 0) = 0 := by simp [lenNodes, isNil]
    rw [if_neg h1, if_pos h2, if_pos h3]
    obtain ⟨hf1, hf2⟩ := filter_fits_all b (xs ++ [x]) k hk hidx
    rw [hf1, hf2]
    have hsp : split (mk b (xs ++ [x]) nil nil nil nil 0) =
        setObjects (split (mk b [] nil nil nil nil 0)) (xs ++ [x]) := rfl
    have hsp2 : ∃ f0 f1 f2 f3, split (mk b [] nil nil nil nil (0 : Int)) = mk b [] f0 f1 f2 f3 0 :=
      ⟨_, _, _, _, rfl⟩
    obtain ⟨f0, f1, f2, f3, hsp3⟩ := hsp2
    have hfresh' : nodeAt (mk b [] f0 f1 f2 f3 0) k = NewQuadTree (0 + 1) bk := by
      rw [← hsp3]; exact hfresh
    rw [hsp, hsp3]
    simp only [setObjects]
    rw [pushDown_same_key (InsertFuel 5) b 0 k hk _ _ _ _ _ _
      (fun o ho => hidx o (by simpa [or_comm] using ho))]
    have hn : nodeAt (mk b (xs ++ [x]) f0 f1 f2 f3 0) k = nodeAt (mk b [] f0 f1 f2 f3 0) k := rfl
    rw [hn, hfresh', hc]
    simp only [Option.map_some', setNode_eq_mk, setObjects]
  rw [hins]

end SameQuadrantRoot

section ClaimsSameQuadrant

theorem hits_eq_of_boundsOf (c : QuadTree α) (bk Q : Rectangle α) (h : boundsOf c = some bk) :
    c.hits Q = bk.Intersects Q := by
  obtain ⟨objs, n0, n1, n2, n3, l, rfl⟩ := eq_mk_of_boundsOf c bk h
  rfl

/-- C6, counterexample: after thirteen copies of the scenario box have been inserted into
the scenario root, `Boundaries` has length 21, not 5. -/
theorem Boundaries_after_thirteen :
    ∃ t, InsertAll scenarioRoot (List.replicate 13 scenarioBox) = some t ∧
      (Boundaries t enumOrder).length = 21 ∧ (Boundaries t enumOrder).length ≠ 5 :=
  ⟨_, rfl, by decide, by decide⟩

/-- C6, amended: `MAX_OBJECTS + 1` rectangles that all fit the same quadrant `k` of a fresh
level-0 root make the root split (it then has four children and no objects of its own),
and child `k`, which receives all of them below the depth cap, splits in turn: the tree
has at least nine nodes, so `Boundaries` has length at least 9. -/
theorem overflow_splits_again (b : Rectangle α) (rs : List (Rectangle α)) (k : Int)
    (hlen : rs.length = MAX_OBJECTS + 1) (hk : isKey k) (hidx : ∀ r ∈ rs, index b r = k) :
    ∃ t, InsertAll (NewQuadTree 0 b) rs = some t ∧ lenNodes t = 4 ∧ t.objects = [] ∧
      lenNodes (nodeAt t k) = 4 ∧ ∀ ord : RangeOrder, 9 ≤ (Boundaries t ord).length := by
  obtain ⟨t, c, ht, hc, rfl, -, hbc, -⟩ := same_quadrant_root b rs k hlen hk hidx
  obtain ⟨bk, hbk, hqk⟩ := fresh_key b ([] : List (Rectangle α)) 0 k hk
  have hfresh : nodeAt (split (NewQuadTree 0 b)) k = mk bk [] nil nil nil nil (0 + 1) := hbk
  rw [hfresh] at hc
  rcases List.eq_nil_or_concat rs.reverse with hnil | ⟨ys, y, hys⟩
  · have : rs.reverse.length = MAX_OBJECTS + 1 := by simpa using hlen
    rw [hnil] at this
    simp [MAX_OBJECTS] at this
  rw [List.concat_eq_append] at hys
  have hylen : ys.length = MAX_OBJECTS := by
    have : rs.reverse.length = MAX_OBJECTS + 1 := by simpa using hlen
    rw [hys] at this
    simpa using this
  rw [hys, List.foldlM_append,
    foldlM_leaf_below_capacity 4 bk (0 + 1) ys [] (by simp [hylen])] at hc
  obtain ⟨q', hq', hbq, hKq⟩ := leaf_overflow_splits 4 bk ys (0 + 1) y hylen (by decide)
    (by decide)
  simp only [List.nil_append, Option.some_bind, Option.bind_eq_bind, List.foldlM_cons,
    List.foldlM_nil, hq', Option.pure_def] at hc
  have hcq : c = q' := (Option.some.inj hc).symm
  subst hcq
  obtain ⟨objs, m0, m1, m2, m3, l, rfl⟩ := eq_mk_of_boundsOf c bk hbq
  obtain ⟨hlen4, hcount⟩ := lenNodes_of_keys bk objs m0 m1 m2 m3 l hKq
  refine ⟨_, ht, ?_, ?_, ?_, ?_⟩
  · rcases hk with rfl | rfl | rfl | rfl <;>
      simp [setNode, split, lenNodes, isNil, NewQuadTree]
  · rcases hk with rfl | rfl | rfl | rfl <;>
      simp [setNode, split, QuadTree.objects, NewQuadTree]
  · rw [show split (NewQuadTree 0 b) = mk b [] _ _ _ _ 0 from rfl,
      nodeAt_setNode _ _ _ _ _ _ _ k k _ hk, if_pos rfl]
    exact hlen4
  · intro ord
    rw [Boundaries_length]
    simp only [nodeCount] at hcount
    rcases hk with rfl | rfl | rfl | rfl <;>
      simp only [setNode, split, nodeCount, NewQuadTree, if_true] <;>
      simp <;> omega

/-- C6, witness: thirteen copies of the scenario box, all classified `TOP_LEFT` by the
scenario root. -/
theorem overflow_splits_again_witness :
    (List.replicate 13 scenarioBox).length = MAX_OBJECTS + 1 ∧ isKey 0 ∧
      (∀ r ∈ List.replicate 13 scenarioBox, index (NewRectangle (50 : ℤ) 50 50 50) r = 0) ∧
      ∃ t, InsertAll (NewQuadTree 0 (NewRectangle (50 : ℤ) 50 50 50))
          (List.replicate 13 scenarioBox) = some t ∧ lenNodes t = 4 ∧ t.objects = [] ∧
        lenNodes (nodeAt t 0) = 4 ∧ ∀ ord : RangeOrder, 9 ≤ (Boundaries t ord).length :=
  ⟨by decide, Or.inl rfl, by decide,
    overflow_splits_again (NewRectangle 50 50 50 50) (List.replicate 13 scenarioBox) 0
      (by decide) (Or.inl rfl) (by decide)⟩

/-- C7: after `MAX_OBJECTS + 1` rectangles that all classify into the same quadrant `k`
have been inserted into a fresh level-0 root, `Retrieve` returns no rectangle for a query
that does not intersect the bounds of child `k`; and in the scenario of thirteen copies of
`NewRectangle(25, 25, 1, 1)` in the root `NewRectangle(50, 50, 50, 50)`, the query
`NewRectangle(75, 75, 1, 1)` returns no rectangle and the query
`NewRectangle(25, 25, 25, 25)` returns all thirteen. -/
theorem same_quadrant_pruned (bounds : Rectangle α) (rs : List (Rectangle α)) (k : Int)
    (Q : Rectangle α) (ord : RangeOrder) (hlen : rs.length = MAX_OBJECTS + 1) (hk : isKey k)
    (hidx : ∀ r ∈ rs, index bounds r = k) :
    (∃ t bk, InsertAll (NewQuadTree 0 bounds) rs = some t ∧
      boundsOf (nodeAt t k) = some bk ∧
      (bk.Intersects Q = false → Retrieve t ord Q [] = [])) ∧
    (∃ t, InsertAll scenarioRoot (List.replicate 13 scenarioBox) = some t ∧
      Retrieve t ord (NewRectangle 75 75 1 1) [] = [] ∧
      Retrieve t ord (NewRectangle 25 25 25 25) [] = List.replicate 13 scenarioBox) := by
  constructor
  · obtain ⟨t, c, ht, -, rfl, -, hbc, -⟩ := same_quadrant_root bounds rs k hlen hk hidx
    obtain ⟨bk, -, hqk⟩ := fresh_key bounds ([] : List (Rectangle α)) 0 k hk
    have hbc' : boundsOf c = some bk := hbc.trans hqk
    have hnode : nodeAt (setNode (split (NewQuadTree 0 bounds)) k c) k = c := by
      rw [show split (NewQuadTree 0 bounds) = mk bounds [] _ _ _ _ 0 from rfl,
        nodeAt_setNode _ _ _ _ _ _ _ k k _ hk, if_pos rfl]
    refine ⟨_, bk, ht, by rw [hnode]; exact hbc', ?_⟩
    intro hQ
    have hhit : c.hits Q = false := by rw [hits_eq_of_boundsOf c bk Q hbc']; exact hQ
    have hr : retrieved (setNode (split (NewQuadTree 0 bounds)) k c) Q = [] := by
      rcases hk with rfl | rfl | rfl | rfl <;>
        simp [setNode, split, NewQuadTree, retrieved, hhit]
    have hp := Retrieve_perm (setNode (split (NewQuadTree 0 bounds)) k c) ord Q []
    rw [hr] at hp
    exact List.Perm.eq_nil hp
  · refine ⟨_, rfl, ?_, ?_⟩
    · have hp := Retrieve_perm
        ((InsertAll scenarioRoot (List.replicate 13 scenarioBox)).getD nil) ord
        (NewRectangle 75 75 1 1) []
      have hr : retrieved ((InsertAll scenarioRoot (List.replicate 13 scenarioBox)).getD nil)
          (NewRectangle 75 75 1 1) = [] := by decide
      rw [hr] at hp
      exact List.Perm.eq_nil hp
    · have hp := Retrieve_perm
        ((InsertAll scenarioRoot (List.replicate 13 scenarioBox)).getD nil) ord
        (NewRectangle 25 25 25 25) []
      have hr : retrieved ((InsertAll scenarioRoot (List.replicate 13 scenarioBox)).getD nil)
          (NewRectangle 25 25 25 25) = List.replicate 13 scenarioBox := by decide
      rw [hr] at hp
      exact List.perm_replicate.mp hp

/-- C7, witness: the scenario itself, with the query `NewRectangle(75, 75, 1, 1)`. -/
theorem same_quadrant_pruned_witness :
    (List.replicate 13 scenarioBox).length = MAX_OBJECTS + 1 ∧ isKey 0 ∧
      (∀ r ∈ List.replicate 13 scenarioBox, index (NewRectangle (50 : ℤ) 50 50 50) r = 0) ∧
      ((∃ t bk, InsertAll (NewQuadTree 0 (NewRectangle (50 : ℤ) 50 50 50))
          (List.replicate 13 scenarioBox) = some t ∧
        boundsOf (nodeAt t 0) = some bk ∧
        (bk.Intersects (NewRectangle 75 75 1 1) = false →
          Retrieve t enumOrder (NewRectangle 75 75 1 1) [] = [])) ∧
      (∃ t, InsertAll scenarioRoot (List.replicate 13 scenarioBox) = some t ∧
        Retrieve t enumOrder (NewRectangle 75 75 1 1) [] = [] ∧
        Retrieve t enumOrder (NewRectangle 25 25 25 25) [] = List.replicate 13 scenarioBox)) :=
  ⟨by decide, Or.inl rfl, by decide,
    same_quadrant_pruned (NewRectangle 50 50 50 50) (List.replicate 13 scenarioBox) 0
      (NewRectangle 75 75 1 1) enumOrder (by decide) (Or.inl rfl) (by decide)⟩

end ClaimsSameQuadrant

section Fuel

theorem pushDown_mono (ins ins' : QuadTree α → Rectangle α → Option (QuadTree α))
    (h : ∀ c o c', ins c o = some c' → ins' c o = some c') (os : List (Rectangle α)) :
    ∀ (q t : QuadTree α), pushDown ins q os = some t → pushDown ins' q os = some t := by
  induction os with
  | nil =>
    intro q t ht
    cases q <;> simpa [pushDown] using ht
  | cons o os ih =>
    intro q t ht
    cases q with
    | nil => simp [pushDown] at ht
    | mk b objs n0 n1 n2 n3 l =>
      rw [pushDown] at ht ⊢
      cases hc : ins (nodeAt (mk b objs n0 n1 n2 n3 l) (index b o)) o with
      | none => rw [hc] at ht; simp at ht
      | some c =>
        rw [hc] at ht
        rw [h _ _ _ hc]
        exact ih _ _ ht

/-- More fuel does not change a result of `Insert`. -/
theorem InsertFuel_mono (fuel : Nat) :
    ∀ (q : QuadTree α) (r : Rectangle α) (t : QuadTree α),
      InsertFuel fuel q r = some t → InsertFuel (fuel + 1) q r = some t := by
  induction fuel with
  | zero =>
    intro q r t h
    simp [InsertFuel] at h
  | succ fuel ih =>
    intro q r t h
    cases q with
    | nil => simp [InsertFuel] at h
    | mk b objs n0 n1 n2 n3 l =>
      rw [InsertFuel_succ] at h ⊢
      by_cases h1 : lenNodes (mk b objs n0 n1 n2 n3 l) ≠ 0 ∧ index b r ≠ -1
      · rw [if_pos h1] at h ⊢
        cases hc : InsertFuel fuel (nodeAt (mk b objs n0 n1 n2 n3 l) (index b r)) r with
        | none => rw [hc] at h; simp at h
        | some c =>
          rw [hc] at h
          rw [ih _ _ _ hc]
          exact h
      · rw [if_neg h1] at h ⊢
        by_cases h2 : (objs ++ [r]).length > MAX_OBJECTS ∧ l < MAX_LEVELS
        · rw [if_pos h2] at h ⊢
          cases hp : pushDown (InsertFuel fuel)
              (if lenNodes (mk b objs n0 n1 n2 n3 l) = 0
                then split (mk b (objs ++ [r]) n0 n1 n2 n3 l)
                else mk b (objs ++ [r]) n0 n1 n2 n3 l)
              (((objs ++ [r]).filter (fits b)).reverse) with
          | none => rw [hp] at h; simp at h
          | some t' =>
            rw [hp] at h
            rw [pushDown_mono (InsertFuel fuel) (InsertFuel (fuel + 1)) (fun c o c' => ih c o c')
              _ _ _ hp]
            exact h
        · rw [if_neg h2] at h ⊢
          exact h

theorem InsertFuel_mono_le (n m : Nat) (hnm : n ≤ m) (q : QuadTree α) (r : Rectangle α)
    (t : QuadTree α) (h : InsertFuel n q r = some t) : InsertFuel m q r = some t := by
  induction m with
  | zero =>
    have : n = 0 := Nat.le_zero.mp hnm
    subst this
    exact h
  | succ m ih =>
    rcases Nat.lt_or_ge n (m + 1) with hlt | hge
    · exact InsertFuel_mono m q r t (ih (Nat.lt_succ_iff.mp hlt))
    · have : n = m + 1 := Nat.le_antisymm hnm hge
      subst this
      exact h

/-- On a tree without missing children, `Insert` run with any fuel that covers the depth
of the tree returns the result of `Insert`. -/
theorem InsertFuel_eq_Insert (fuel : Nat) (q : QuadTree α) (r : Rectangle α) (hS : Shaped q)
    (hf : depthBudget q ≤ fuel) : InsertFuel fuel q r = Insert q r := by
  obtain ⟨q', hq', -⟩ := Insert_post q r hS
  rw [hq']
  exact InsertFuel_mono_le (depthBudget q) fuel hf q r q' hq'

end Fuel

section StructuralInvariant

theorem Structured_Shaped (q : QuadTree α) (h : Structured q) : Shaped q := by
  induction q with
  | nil => exact h
  | mk b objs n0 n1 n2 n3 l ih0 ih1 ih2 ih3 =>
    rcases h with ⟨h0, h1, h2, h3, _⟩ | ⟨_, _, _, _, _, _, s0, s1, s2, s3⟩
    · exact Or.inl ⟨h0, h1, h2, h3⟩
    · exact Or.inr ⟨ih0 s0, ih1 s1, ih2 s2, ih3 s3⟩

theorem Structured_of_keys (b : Rectangle α) (objs : List (Rectangle α))
    (n0 n1 n2 n3 : QuadTree α) (l : Int) (hl : l < MAX_LEVELS)
    (hobjs : ∀ o ∈ objs, index b o = -1)
    (h : ∀ j, isKey j → levelOf (nodeAt (mk b objs n0 n1 n2 n3 l) j) = some (l + 1) ∧
      Structured (nodeAt (mk b objs n0 n1 n2 n3 l) j)) :
    Structured (mk b objs n0 n1 n2 n3 l) := by
  have h0 := h 0 (by simp [isKey])
  have h1 := h 1 (by simp [isKey])
  have h2 := h 2 (by simp [isKey])
  have h3 := h 3 (by simp [isKey])
  simp only [nodeAt] at h0 h1 h2 h3
  simp at h0 h1 h2 h3
  exact Or.inr ⟨hl, hobjs, h0.1, h1.1, h2.1, h3.1, h0.2, h1.2, h2.2, h3.2⟩

theorem Structured_keys (b : Rectangle α) (objs : List (Rectangle α))
    (n0 n1 n2 n3 : QuadTree α) (l : Int) (h : Structured (mk b objs n0 n1 n2 n3 l))
    (hlen : lenNodes (mk b objs n0 n1 n2 n3 l) ≠ 0) :
    l < MAX_LEVELS ∧ (∀ o ∈ objs, index b o = -1) ∧
      ∀ j, isKey j → levelOf (nodeAt (mk b objs n0 n1 n2 n3 l) j) = some (l + 1) ∧
        Structured (nodeAt (mk b objs n0 n1 n2 n3 l) j) := by
  rcases h with ⟨rfl, rfl, rfl, rfl, _⟩ | ⟨hl, ho, l0, l1, l2, l3, s0, s1, s2, s3⟩
  · simp [lenNodes, isNil] at hlen
  · refine ⟨hl, ho, ?_⟩
    intro j hj
    rcases hj with rfl | rfl | rfl | rfl <;> simp [nodeAt] <;> constructor <;> assumption

theorem Structured_leaf (b : Rectangle α) (objs : List (Rectangle α))
    (n0 n1 n2 n3 : QuadTree α) (l : Int) (h : Structured (mk b objs n0 n1 n2 n3 l))
    (hlen : lenNodes (mk b objs n0 n1 n2 n3 l) = 0) :
    (n0 = nil ∧ n1 = nil ∧ n2 = nil ∧ n3 = nil) ∧
      (l < MAX_LEVELS → objs.length ≤ MAX_OBJECTS) := by
  rcases h with ⟨h0, h1, h2, h3, hc⟩ | ⟨_, _, _, _, _, _, s0, _, _, _⟩
  · exact ⟨⟨h0, h1, h2, h3⟩, hc⟩
  · obtain ⟨_, _, _, _, _, _, _, rfl⟩ := Shaped_ne_nil n0 (Structured_Shaped n0 s0)
    simp [lenNodes, isNil] at hlen

theorem Structured_fresh (pLevel : Int) (bounds : Rectangle α) :
    Structured (NewQuadTree pLevel bounds) :=
  Or.inl ⟨rfl, rfl, rfl, rfl, fun _ => by simp [MAX_OBJECTS]⟩

/-- The redistribution loop on children that satisfy the structural invariant: every
child still satisfies it, keeps its level, and holds in addition exactly the moved
rectangles that are classified into it. -/
theorem pushDown_structured (ins : QuadTree α → Rectangle α → Option (QuadTree α))
    (fuel : Nat)
    (hins : ∀ c o, Structured c → depthBudget c ≤ fuel →
      ∃ c', ins c o = some c' ∧ InsertPost c o c' ∧ Structured c')
    (b : Rectangle α) (l : Int) (os : List (Rectangle α)) :
    ∀ (objs : List (Rectangle α)) (n0 n1 n2 n3 : QuadTree α),
      (∀ o ∈ os, index b o ≠ -1) →
      (∀ j, isKey j → Structured (nodeAt (mk b objs n0 n1 n2 n3 l) j) ∧
        depthBudget (nodeAt (mk b objs n0 n1 n2 n3 l) j) ≤ fuel) →
      ∃ m0 m1 m2 m3,
        pushDown ins (mk b objs n0 n1 n2 n3 l) os = some (mk b objs m0 m1 m2 m3 l) ∧
        ∀ j, isKey j →
          Structured (nodeAt (mk b objs m0 m1 m2 m3 l) j) ∧
          levelOf (nodeAt (mk b objs m0 m1 m2 m3 l) j) =
            levelOf (nodeAt (mk b objs n0 n1 n2 n3 l) j) ∧
          depthBudget (nodeAt (mk b objs m0 m1 m2 m3 l) j) ≤
            depthBudget (nodeAt (mk b objs n0 n1 n2 n3 l) j) ∧
          (allObjects (nodeAt (mk b objs m0 m1 m2 m3 l) j)).Perm
            (os.filter (fun o => decide (index b o = j)) ++
              allObjects (nodeAt (mk b objs n0 n1 n2 n3 l) j)) := by
  induction os with
  | nil =>
    intro objs n0 n1 n2 n3 _ hch
    refine ⟨n0, n1, n2, n3, rfl, ?_⟩
    intro j hj
    exact ⟨(hch j hj).1, rfl, le_refl _, by simp⟩
  | cons o os ih =>
    intro objs n0 n1 n2 n3 hfit hch
    have hk : isKey (index b o) := isKey_of_index b o (hfit o (List.mem_cons_self _ _))
    obtain ⟨c, hc, ⟨-, hcB, -, hcl, hcP, -, -⟩, hcS⟩ :=
      hins (nodeAt (mk b objs n0 n1 n2 n3 l) (index b o)) o (hch _ hk).1 (hch _ hk).2
    have hstep : pushDown ins (mk b objs n0 n1 n2 n3 l) (o :: os) =
        pushDown ins (setNode (mk b objs n0 n1 n2 n3 l) (index b o) c) os := by
      rw [pushDown, hc]
    have hnode := fun j => nodeAt_setNode b objs n0 n1 n2 n3 l (index b o) j c hk
    rw [setNode_eq_mk] at hstep hnode
    have hch1 : ∀ j, isKey j →
        Structured (nodeAt (mk b objs (if index b o = 0 then c else n0)
          (if index b o = 1 then c else n1) (if index b o = 2 then c else n2)
          (if index b o = 3 then c else n3) l) j) ∧
        depthBudget (nodeAt (mk b objs (if index b o = 0 then c else n0)
          (if index b o = 1 then c else n1) (if index b o = 2 then c else n2)
          (if index b o = 3 then c else n3) l) j) ≤ fuel := by
      intro j hj
      rw [hnode j]
      by_cases hjk : j = index b o
      · rw [if_pos hjk]
        exact ⟨hcS, le_trans hcB (hch _ hk).2⟩
      · rw [if_neg hjk]
        exact hch j hj
    obtain ⟨m0, m1, m2, m3, hpush, hkeys⟩ :=
      ih objs _ _ _ _ (fun o' ho' => hfit o' (List.mem_cons_of_mem _ ho')) hch1
    refine ⟨m0, m1, m2, m3, hstep.trans hpush, ?_⟩
    intro j hj
    obtain ⟨kS, kl, kB, kP⟩ := hkeys j hj
    rw [hnode j] at kl kB kP
    by_cases hjk : j = index b o
    · rw [if_pos hjk] at kl kB kP
      subst hjk
      refine ⟨kS, kl.trans hcl, le_trans kB hcB, ?_⟩
      refine kP.trans ?_
      refine (List.Perm.append_left _ hcP).trans ?_
      simp only [List.filter_cons, decide_True, if_true, List.cons_append]
      exact List.perm_middle
    · rw [if_neg hjk] at kl kB kP
      refine ⟨kS, kl, kB, ?_⟩
      have hne : ¬ index b o = j := fun h => hjk h.symm
      simpa [List.filter_cons, hne] using kP

end StructuralInvariant

section StructuredInsert

/-- `Insert` keeps the structural invariant. -/
theorem InsertFuel_structured (fuel : Nat) :
    ∀ (q : QuadTree α) (r : Rectangle α), Structured q → depthBudget q ≤ fuel →
      ∃ q', InsertFuel fuel q r = some q' ∧ InsertPost q r q' ∧ Structured q' := by
  induction fuel with
  | zero =>
    intro q r hS hB
    obtain ⟨b, objs, n0, n1, n2, n3, l, rfl⟩ := Shaped_ne_nil q (Structured_Shaped q hS)
    simp [depthBudget] at hB
  | succ fuel ih =>
    intro q r hS hB
    obtain ⟨b, objs, n0, n1, n2, n3, l, rfl⟩ := Shaped_ne_nil q (Structured_Shaped q hS)
    obtain ⟨q', hq', hpost⟩ :=
      InsertFuel_post (fuel + 1) (mk b objs n0 n1 n2 n3 l) r (Structured_Shaped _ hS) hB
    refine ⟨q', hq', hpost, ?_⟩
    obtain ⟨hlB, hkB⟩ := (depthBudget_le_succ b objs n0 n1 n2 n3 l fuel).mp hB
    rw [InsertFuel_succ] at hq'
    by_cases h1 : lenNodes (mk b objs n0 n1 n2 n3 l) ≠ 0 ∧ index b r ≠ -1
    · rw [if_pos h1] at hq'
      obtain ⟨hl, hobjs, hkeys⟩ := Structured_keys b objs n0 n1 n2 n3 l hS h1.1
      have hk := isKey_of_index b r h1.2
      obtain ⟨c, hc, ⟨-, -, -, hcl, -, -, -⟩, hcS⟩ :=
        ih (nodeAt (mk b objs n0 n1 n2 n3 l) (index b r)) r (hkeys _ hk).2 (hkB _ hk)
      rw [hc] at hq'
      have hq'' : setNode (mk b objs n0 n1 n2 n3 l) (index b r) c = q' := by
        simpa using hq'
      have hnode := fun j => nodeAt_setNode b objs n0 n1 n2 n3 l (index b r) j c hk
      rw [← hq'']
      rw [setNode_eq_mk] at hnode ⊢
      apply Structured_of_keys _ _ _ _ _ _ _ hl hobjs
      intro j hj
      rw [hnode]
      split_ifs with hjk
      · subst hjk
        exact ⟨hcl.trans (hkeys _ hk).1, hcS⟩
      · exact hkeys j hj
    · rw [if_neg h1] at hq'
      by_cases h2 : (objs ++ [r]).length > MAX_OBJECTS ∧ l < MAX_LEVELS
      · rw [if_pos h2] at hq'
        have hnotfit : ∀ o ∈ (objs ++ [r]).filter (fun o => !fits b o), index b o = -1 := by
          intro o ho
          have h := (List.mem_filter.mp ho).2
          simpa [fits] using h
        have hfit : ∀ o ∈ ((objs ++ [r]).filter (fits b)).reverse, index b o ≠ -1 := by
          intro o ho
          have h := (List.mem_filter.mp (List.mem_reverse.mp ho)).2
          simpa [fits] using h
        by_cases h3 : lenNodes (mk b objs n0 n1 n2 n3 l) = 0
        · rw [if_pos h3] at hq'
          obtain ⟨⟨rfl, rfl, rfl, rfl⟩, -⟩ := Structured_leaf b objs n0 n1 n2 n3 l hS h3
          obtain ⟨f0, f1, f2, f3, b0, b1, b2, b3, hsp, rfl, rfl, rfl, rfl, -, -, -, -⟩ :=
            fresh_children b (objs ++ [r]) l
          have hfk := fun j hj => fresh_key b (objs ++ [r]) l j hj
          rw [hsp] at hfk hq'
          have hch : ∀ j, isKey j →
              Structured (nodeAt (mk b (objs ++ [r]) (NewQuadTree (l + 1) b0)
                (NewQuadTree (l + 1) b1) (NewQuadTree (l + 1) b2)
                (NewQuadTree (l + 1) b3) l) j) ∧
              depthBudget (nodeAt (mk b (objs ++ [r]) (NewQuadTree (l + 1) b0)
                (NewQuadTree (l + 1) b1) (NewQuadTree (l + 1) b2)
                (NewQuadTree (l + 1) b3) l) j) ≤ fuel := by
            intro j hj
            obtain ⟨bj, hbj, _⟩ := hfk j hj
            rw [hbj, fresh_budget bj l h2.2]
            exact ⟨Structured_fresh _ _, hlB⟩
          obtain ⟨m0, m1, m2, m3, hpush, hkeys⟩ :=
            pushDown_structured (InsertFuel fuel) fuel ih b l _ (objs ++ [r]) _ _ _ _ hfit hch
          rw [hpush] at hq'
          have hq'' : mk b ((objs ++ [r]).filter (fun o => !fits b o)) m0 m1 m2 m3 l = q' := by
            simpa [setObjects] using hq'
          rw [← hq'']
          apply Structured_of_keys _ _ _ _ _ _ _ h2.2 hnotfit
          intro j hj
          obtain ⟨kS, kl, -, -⟩ := hkeys j hj
          obtain ⟨bj, hbj, _⟩ := hfk j hj
          refine ⟨?_, kS⟩
          have : levelOf (nodeAt (mk b (objs ++ [r]) m0 m1 m2 m3 l) j) = some (l + 1) := by
            rw [kl, hbj]; rfl
          exact this
        · rw [if_neg h3] at hq'
          obtain ⟨hl, hobjs, hkeys0⟩ := Structured_keys b objs n0 n1 n2 n3 l hS h3
          have hch : ∀ j, isKey j →
              Structured (nodeAt (mk b (objs ++ [r]) n0 n1 n2 n3 l) j) ∧
              depthBudget (nodeAt (mk b (objs ++ [r]) n0 n1 n2 n3 l) j) ≤ fuel :=
            fun j hj => ⟨(hkeys0 j hj).2, hkB j hj⟩
          obtain ⟨m0, m1, m2, m3, hpush, hkeys⟩ :=
            pushDown_structured (InsertFuel fuel) fuel ih b l _ (objs ++ [r]) _ _ _ _ hfit hch
          rw [hpush] at hq'
          have hq'' : mk b ((objs ++ [r]).filter (fun o => !fits b o)) m0 m1 m2 m3 l = q' := by
            simpa [setObjects] using hq'
          rw [← hq'']
          apply Structured_of_keys _ _ _ _ _ _ _ h2.2 hnotfit
          intro j hj
          obtain ⟨kS, kl, -, -⟩ := hkeys j hj
          refine ⟨?_, kS⟩
          have : levelOf (nodeAt (mk b (objs ++ [r]) m0 m1 m2 m3 l) j) = some (l + 1) := by
            rw [kl]; exact (hkeys0 j hj).1
          exact this
      · rw [if_neg h2] at hq'
        have hq'' : mk b (objs ++ [r]) n0 n1 n2 n3 l = q' := by simpa using hq'
        rw [← hq'']
        by_cases h3 : lenNodes (mk b objs n0 n1 n2 n3 l) = 0
        · obtain ⟨⟨rfl, rfl, rfl, rfl⟩, -⟩ := Structured_leaf b objs n0 n1 n2 n3 l hS h3
          refine Or.inl ⟨rfl, rfl, rfl, rfl, ?_⟩
          intro hl
          by_contra hc
          exact h2 ⟨by omega, hl⟩
        · obtain ⟨hl, hobjs, hkeys0⟩ := Structured_keys b objs n0 n1 n2 n3 l hS h3
          have hr : index b r = -1 := by
            by_contra hc
            exact h1 ⟨h3, hc⟩
          apply Structured_of_keys _ _ _ _ _ _ _ hl
          · intro o ho
            rcases List.mem_append.mp ho with ho | ho
            · exact hobjs o ho
            · rw [List.mem_singleton.mp ho]; exact hr
          · exact fun j hj => hkeys0 j hj

end StructuredInsert

section Reachable

/-- `Insert` returns on every tree that satisfies the structural invariant, and keeps
it. -/
theorem Insert_structured (q : QuadTree α) (r : Rectangle α) (hS : Structured q) :
    ∃ q', Insert q r = some q' ∧ InsertPost q r q' ∧ Structured q' :=
  InsertFuel_structured (depthBudget q) q r hS (le_refl _)

/-- Every sequence of `Insert` and `Clear` calls on a tree that satisfies the structural
invariant returns a tree that satisfies it, with the bounds and the level of the root
unchanged. -/
theorem run_post (cs : List (Call α)) :
    ∀ q : QuadTree α, Structured q →
      ∃ t, run q cs = some t ∧ Structured t ∧ boundsOf t = boundsOf q ∧
        levelOf t = levelOf q := by
  induction cs with
  | nil =>
    intro q hS
    exact ⟨q, rfl, hS, rfl, rfl⟩
  | cons c cs ih =>
    intro q hS
    cases c with
    | insert r =>
      obtain ⟨q1, h1, ⟨-, -, hb1, hl1, -, -, -⟩, hS1⟩ := Insert_structured q r hS
      obtain ⟨t, ht, hSt, hbt, hlt⟩ := ih q1 hS1
      exact ⟨t, by simp only [run, applyCall, h1, ht], hSt, hbt.trans hb1, hlt.trans hl1⟩
    | clear =>
      obtain ⟨b, objs, n0, n1, n2, n3, l, rfl⟩ := Shaped_ne_nil q (Structured_Shaped q hS)
      obtain ⟨t, ht, hSt, hbt, hlt⟩ := ih (NewQuadTree l b) (Structured_fresh l b)
      exact ⟨t, by simpa only [run, applyCall, Clear] using ht, hSt, hbt, hlt⟩

/-- Every sequence of `Insert` and `Clear` calls on a fresh node returns. -/
theorem run_fresh (pLevel : Int) (bounds : Rectangle α) (cs : List (Call α)) :
    ∃ t, run (NewQuadTree pLevel bounds) cs = some t ∧ Structured t ∧
      boundsOf t = some bounds ∧ levelOf t = some pLevel :=
  run_post cs (NewQuadTree pLevel bounds) (Structured_fresh pLevel bounds)

theorem mem_subtrees_ne_nil (t N : QuadTree α) (h : N ∈ subtrees t) :
    ∃ b objs n0 n1 n2 n3 l, N = mk b objs n0 n1 n2 n3 l := by
  induction t with
  | nil => simp [subtrees] at h
  | mk b objs n0 n1 n2 n3 l ih0 ih1 ih2 ih3 =>
    simp only [subtrees, List.mem_cons, List.mem_append] at h
    rcases h with rfl | h | h | h | h
    · exact ⟨b, objs, n0, n1, n2, n3, l, rfl⟩
    · exact ih0 h
    · exact ih1 h
    · exact ih2 h
    · exact ih3 h

/-- The structural invariant holds at every node of a tree that satisfies it. -/
theorem Structured_subtrees (t : QuadTree α) (hS : Structured t) :
    ∀ N ∈ subtrees t, Structured N := by
  induction t with
  | nil => intro N h; simp [subtrees] at h
  | mk b objs n0 n1 n2 n3 l ih0 ih1 ih2 ih3 =>
    intro N h
    simp only [subtrees, List.mem_cons, List.mem_append] at h
    rcases hS with ⟨rfl, rfl, rfl, rfl, hc⟩ | ⟨hl, ho, l0, l1, l2, l3, s0, s1, s2, s3⟩
    · simp only [subtrees, List.not_mem_nil, or_false] at h
      rw [h]
      exact Or.inl ⟨rfl, rfl, rfl, rfl, hc⟩
    · rcases h with rfl | h | h | h | h
      · exact Or.inr ⟨hl, ho, l0, l1, l2, l3, s0, s1, s2, s3⟩
      · exact ih0 s0 N h
      · exact ih1 s1 N h
      · exact ih2 s2 N h
      · exact ih3 s3 N h

/-- In a tree that satisfies the structural invariant and whose root is at a level up to
`MAX_LEVELS`, every node is at a level between that of the root and `MAX_LEVELS`. -/
theorem level_subtrees (t : QuadTree α) (hS : Structured t) :
    ∀ l, levelOf t = some l → l ≤ MAX_LEVELS →
      ∀ N ∈ subtrees t, ∃ lN, levelOf N = some lN ∧ l ≤ lN ∧ lN ≤ MAX_LEVELS := by
  induction t with
  | nil => intro l _ _ N h; simp [subtrees] at h
  | mk b objs n0 n1 n2 n3 l' ih0 ih1 ih2 ih3 =>
    intro l hl hle N h
    have hll : l' = l := by simpa [levelOf] using hl
    subst hll
    simp only [subtrees, List.mem_cons, List.mem_append] at h
    rcases hS with ⟨rfl, rfl, rfl, rfl, hc⟩ | ⟨hlt, ho, l0, l1, l2, l3, s0, s1, s2, s3⟩
    · simp only [subtrees, List.not_mem_nil, or_false] at h
      rw [h]
      exact ⟨l', rfl, le_refl _, hle⟩
    · have hle' : l' + 1 ≤ MAX_LEVELS := by
        simp only [MAX_LEVELS] at hlt ⊢
        omega
      have up : ∀ n : QuadTree α, (∃ lN, levelOf N = some lN ∧ l' + 1 ≤ lN ∧ lN ≤ MAX_LEVELS) →
          ∃ lN, levelOf N = some lN ∧ l' ≤ lN ∧ lN ≤ MAX_LEVELS := by
        rintro _ ⟨lN, h1, h2, h3⟩
        exact ⟨lN, h1, by omega, h3⟩
      rcases h with rfl | h | h | h | h
      · exact ⟨l', rfl, le_refl _, hle⟩
      · exact up n0 (ih0 s0 _ l0 hle' N h)
      · exact up n1 (ih1 s1 _ l1 hle' N h)
      · exact up n2 (ih2 s2 _ l2 hle' N h)
      · exact up n3 (ih3 s3 _ l3 hle' N h)

/-- The fuel `Insert` takes on a tree that satisfies the structural invariant is one more
than the number of levels from the root down to `MAX_LEVELS`. -/
theorem depthBudget_le_of_Structured (t : QuadTree α) (hS : Structured t) :
    ∀ l, levelOf t = some l → depthBudget t ≤ (MAX_LEVELS - l).toNat + 1 := by
  induction t with
  | nil => exact absurd hS (by simp [Structured])
  | mk b objs n0 n1 n2 n3 l' ih0 ih1 ih2 ih3 =>
    intro l hl
    have hll : l' = l := by simpa [levelOf] using hl
    subst hll
    rcases hS with ⟨rfl, rfl, rfl, rfl, hc⟩ | ⟨hlt, ho, l0, l1, l2, l3, s0, s1, s2, s3⟩
    · simp [depthBudget]
    · have e : (MAX_LEVELS - (l' + 1)).toNat + 1 = (MAX_LEVELS - l').toNat := by
        simp only [MAX_LEVELS] at hlt ⊢
        omega
      have h0 := ih0 s0 _ l0
      have h1 := ih1 s1 _ l1
      have h2 := ih2 s2 _ l2
      have h3 := ih3 s3 _ l3
      rw [e] at h0 h1 h2 h3
      rw [depthBudget_le_succ]
      refine ⟨le_refl _, ?_⟩
      intro j hj
      rcases hj with rfl | rfl | rfl | rfl <;> simp [nodeAt] <;> assumption

end Reachable

section ReachableClaims

/-- C11: in every tree reached from a fresh node by `Insert` and `Clear` calls, every node
has either no children or all four children `TOP_LEFT`, `TOP_RIGHT`, `BOTTOM_LEFT`,
`BOTTOM_RIGHT`, and the level of every child is the level of its parent plus one. -/
theorem reachable_zero_or_four (pLevel : Int) (bounds : Rectangle α) (cs : List (Call α)) :
    ∃ t, run (NewQuadTree pLevel bounds) cs = some t ∧
      ∀ N ∈ subtrees t, ∃ lN, levelOf N = some lN ∧
        ((lenNodes N = 0 ∧ nodeAt N TOP_LEFT = nil ∧ nodeAt N TOP_RIGHT = nil ∧
            nodeAt N BOTTOM_LEFT = nil ∧ nodeAt N BOTTOM_RIGHT = nil) ∨
          (lenNodes N = 4 ∧ levelOf (nodeAt N TOP_LEFT) = some (lN + 1) ∧
            levelOf (nodeAt N TOP_RIGHT) = some (lN + 1) ∧
            levelOf (nodeAt N BOTTOM_LEFT) = some (lN + 1) ∧
            levelOf (nodeAt N BOTTOM_RIGHT) = some (lN + 1))) := by
  obtain ⟨t, ht, hS, -, -⟩ := run_fresh pLevel bounds cs
  refine ⟨t, ht, ?_⟩
  intro N hN
  have hSN := Structured_subtrees t hS N hN
  obtain ⟨b, objs, n0, n1, n2, n3, l, rfl⟩ := mem_subtrees_ne_nil t N hN
  refine ⟨l, rfl, ?_⟩
  rcases hSN with ⟨rfl, rfl, rfl, rfl, _⟩ | ⟨_, _, l0, l1, l2, l3, s0, s1, s2, s3⟩
  · left
    simp [lenNodes, isNil, nodeAt, TOP_LEFT, TOP_RIGHT, BOTTOM_LEFT, BOTTOM_RIGHT]
  · right
    obtain ⟨_, _, _, _, _, _, _, rfl⟩ := Shaped_ne_nil n0 (Structured_Shaped n0 s0)
    obtain ⟨_, _, _, _, _, _, _, rfl⟩ := Shaped_ne_nil n1 (Structured_Shaped n1 s1)
    obtain ⟨_, _, _, _, _, _, _, rfl⟩ := Shaped_ne_nil n2 (Structured_Shaped n2 s2)
    obtain ⟨_, _, _, _, _, _, _, rfl⟩ := Shaped_ne_nil n3 (Structured_Shaped n3 s3)
    refine ⟨by simp [lenNodes, isNil], ?_, ?_, ?_, ?_⟩ <;>
      simp only [nodeAt, TOP_LEFT, TOP_RIGHT, BOTTOM_LEFT, BOTTOM_RIGHT] <;> simp <;>
      first | exact l0 | exact l1 | exact l2 | exact l3

/-- C12: in every tree reached from a level-0 root by `Insert` and `Clear` calls, every
node is at a level up to `MAX_LEVELS` and the nodes at level `MAX_LEVELS` have no
children; and an `Insert` into a childless node at level `MAX_LEVELS` or deeper only
appends the rectangle to the objects of the node. -/
theorem depth_cap (bounds : Rectangle α) (cs : List (Call α)) :
    (∃ t, run (NewQuadTree 0 bounds) cs = some t ∧
      ∀ N ∈ subtrees t, ∃ lN, levelOf N = some lN ∧ lN ≤ MAX_LEVELS ∧
        (lN = MAX_LEVELS → lenNodes N = 0)) ∧
    (∀ (b : Rectangle α) (objs : List (Rectangle α)) (l : Int) (r : Rectangle α),
      MAX_LEVELS ≤ l →
        Insert (mk b objs nil nil nil nil l) r = some (mk b (objs ++ [r]) nil nil nil nil l)) := by
  constructor
  · obtain ⟨t, ht, hS, -, hl⟩ := run_fresh 0 bounds cs
    refine ⟨t, ht, ?_⟩
    intro N hN
    obtain ⟨lN, hlN, -, hle⟩ := level_subtrees t hS 0 hl (by decide) N hN
    refine ⟨lN, hlN, hle, ?_⟩
    intro heq
    have hSN := Structured_subtrees t hS N hN
    obtain ⟨b, objs, n0, n1, n2, n3, l, rfl⟩ := mem_subtrees_ne_nil t N hN
    have hll : l = lN := by simpa [levelOf] using hlN
    rcases hSN with ⟨rfl, rfl, rfl, rfl, _⟩ | ⟨hlt, _⟩
    · simp [lenNodes, isNil]
    · rw [hll, heq] at hlt
      exact absurd hlt (lt_irrefl _)
  · intro b objs l r hl
    have hnl : ¬ l < MAX_LEVELS := not_lt.mpr hl
    simp [Insert, depthBudget, InsertFuel, lenNodes, isNil, QuadTree.objects, hnl]

/-- C13: in every tree reached from a fresh node by `Insert` and `Clear` calls, every
rectangle stored in the own objects of a node that has children fits none of the
quadrants of that node; so a stored rectangle that fits a quadrant of its node is held by
a node without children. -/
theorem local_items_fit_no_quadrant (pLevel : Int) (bounds : Rectangle α)
    (cs : List (Call α)) :
    ∃ t, run (NewQuadTree pLevel bounds) cs = some t ∧
      ∀ N ∈ subtrees t, ∃ b, boundsOf N = some b ∧
        (lenNodes N ≠ 0 → ∀ o ∈ N.objects, index b o = -1) ∧
        (∀ o ∈ N.objects, index b o ≠ -1 → lenNodes N = 0) := by
  obtain ⟨t, ht, hS, -, -⟩ := run_fresh pLevel bounds cs
  refine ⟨t, ht, ?_⟩
  intro N hN
  have hSN := Structured_subtrees t hS N hN
  obtain ⟨b, objs, n0, n1, n2, n3, l, rfl⟩ := mem_subtrees_ne_nil t N hN
  have h1 : lenNodes (mk b objs n0 n1 n2 n3 l) ≠ 0 → ∀ o ∈ objs, index b o = -1 :=
    fun hlen => (Structured_keys b objs n0 n1 n2 n3 l hSN hlen).2.1
  refine ⟨b, rfl, h1, ?_⟩
  intro o ho hidx
  by_contra hlen
  exact hidx (h1 hlen o ho)

/-- C17: on every tree reached from a level-0 root by `Insert` and `Clear` calls, `Insert`
returns, with no more than `MAX_LEVELS + 1` nested calls (the call on the root and one
per level below it), and every node of the tree it returns is at a level between 0 and
`MAX_LEVELS`. -/
theorem Insert_terminates_within_depth (bounds : Rectangle α) (cs : List (Call α)) :
    ∃ t, run (NewQuadTree 0 bounds) cs = some t ∧
      ∀ r : Rectangle α, ∃ t', Insert t r = some t' ∧
        (∀ fuel, MAX_LEVELS.toNat + 1 ≤ fuel → InsertFuel fuel t r = some t') ∧
        ∀ N ∈ subtrees t', ∃ lN, levelOf N = some lN ∧ 0 ≤ lN ∧ lN ≤ MAX_LEVELS := by
  obtain ⟨t, ht, hS, -, hl⟩ := run_fresh 0 bounds cs
  refine ⟨t, ht, ?_⟩
  intro r
  obtain ⟨t', ht', ⟨-, -, -, hl', -, -, -⟩, hS'⟩ := Insert_structured t r hS
  refine ⟨t', ht', ?_, ?_⟩
  · intro fuel hfuel
    have hB := depthBudget_le_of_Structured t hS 0 hl
    rw [InsertFuel_eq_Insert fuel t r (Structured_Shaped t hS) (le_trans hB (by simpa using hfuel))]
    exact ht'
  · intro N hN
    obtain ⟨lN, hlN, h0, hle⟩ := level_subtrees t' hS' 0 (hl'.trans hl) (by decide) N hN
    exact ⟨lN, hlN, h0, hle⟩

/-- C19: on every tree reached from a fresh node by `Insert` and `Clear` calls, `Insert`
returns a tree that stores, over all its nodes, exactly the rectangles stored before and
one more occurrence of the inserted rectangle. -/
theorem Insert_keeps_all_rectangles (pLevel : Int) (bounds : Rectangle α)
    (cs : List (Call α)) :
    ∃ t, run (NewQuadTree pLevel bounds) cs = some t ∧
      ∀ r : Rectangle α, ∃ t', Insert t r = some t' ∧
        (allObjects t' : Multiset (Rectangle α)) = r ::ₘ (allObjects t : Multiset (Rectangle α)) := by
  obtain ⟨t, ht, hS, -, -⟩ := run_fresh pLevel bounds cs
  refine ⟨t, ht, ?_⟩
  intro r
  obtain ⟨t', ht', ⟨-, -, -, -, hP, -, -⟩, -⟩ := Insert_structured t r hS
  refine ⟨t', ht', ?_⟩
  rw [Multiset.cons_coe, Multiset.coe_eq_coe]
  exact hP

/-- C20: in every tree reached from a fresh node by `Insert` and `Clear` calls, a node
without children whose level is below `MAX_LEVELS` holds at most `MAX_OBJECTS`
rectangles; a node that holds more has all four children, and then none of its own
rectangles fits a quadrant, or is at level `MAX_LEVELS` or deeper. -/
theorem leaf_capacity (pLevel : Int) (bounds : Rectangle α) (cs : List (Call α)) :
    ∃ t, run (NewQuadTree pLevel bounds) cs = some t ∧
      ∀ N ∈ subtrees t, ∃ b lN, boundsOf N = some b ∧ levelOf N = some lN ∧
        (lenNodes N = 0 → lN < MAX_LEVELS → N.objects.length ≤ MAX_OBJECTS) ∧
        (MAX_OBJECTS < N.objects.length →
          (lenNodes N = 4 ∧ ∀ o ∈ N.objects, index b o = -1) ∨ MAX_LEVELS ≤ lN) := by
  obtain ⟨t, ht, hS, -, -⟩ := run_fresh pLevel bounds cs
  refine ⟨t, ht, ?_⟩
  intro N hN
  have hSN := Structured_subtrees t hS N hN
  obtain ⟨b, objs, n0, n1, n2, n3, l, rfl⟩ := mem_subtrees_ne_nil t N hN
  refine ⟨b, l, rfl, rfl, ?_, ?_⟩
  · intro hlen hl
    exact (Structured_leaf b objs n0 n1 n2 n3 l hSN hlen).2 hl
  · intro hmore
    by_cases hlen : lenNodes (mk b objs n0 n1 n2 n3 l) = 0
    · right
      by_contra hl
      have := (Structured_leaf b objs n0 n1 n2 n3 l hSN hlen).2 (not_le.mp hl)
      simp only [QuadTree.objects] at hmore
      omega
    · left
      obtain ⟨-, hobjs, hkeys⟩ := Structured_keys b objs n0 n1 n2 n3 l hSN hlen
      refine ⟨(lenNodes_of_keys b objs n0 n1 n2 n3 l
        (fun j hj => Structured_Shaped _ (hkeys j hj).2)).1, hobjs⟩

end ReachableClaims

section Overflow

theorem filter_key_perm (b : Rectangle α) (X : List (Rectangle α)) (k : Int) (hk : isKey k) :
    (((X.filter (fits b)).reverse).filter (fun o => decide (index b o = k))).Perm
      (X.filter (fun o => decide (index b o = k))) := by
  rw [List.filter_reverse]
  refine (List.reverse_perm _).trans ?_
  rw [List.filter_filter]
  have e : (fun a => decide (index b a = k) && fits b a) = fun a => decide (index b a = k) := by
    funext a
    by_cases h : index b a = k
    · simp [fits, h, isKey_ne k hk]
    · simp [h]
  rw [e]

theorem filter_not_fits (b : Rectangle α) (X : List (Rectangle α)) :
    X.filter (fun o => !fits b o) = X.filter (fun o => decide (index b o = -1)) := by
  congr 1
  funext o
  simp [fits]

/-- The redistribution loop on four childless children that stay within `MAX_OBJECTS`:
each moved rectangle is appended to the objects of the child it is classified into. -/
theorem pushDown_leaves (f : Nat) (b : Rectangle α) (l : Int) (os : List (Rectangle α)) :
    ∀ (objs : List (Rectangle α)) (b0 b1 b2 b3 : Rectangle α)
      (o0 o1 o2 o3 : List (Rectangle α)) (l0 l1 l2 l3 : Int),
      (∀ o ∈ os, index b o ≠ -1) →
      o0.length + (os.filter (fun o => decide (index b o = 0))).length ≤ MAX_OBJECTS →
      o1.length + (os.filter (fun o => decide (index b o = 1))).length ≤ MAX_OBJECTS →
      o2.length + (os.filter (fun o => decide (index b o = 2))).length ≤ MAX_OBJECTS →
      o3.length + (os.filter (fun o => decide (index b o = 3))).length ≤ MAX_OBJECTS →
      pushDown (InsertFuel (f + 1))
          (mk b objs (mk b0 o0 nil nil nil nil l0) (mk b1 o1 nil nil nil nil l1)
            (mk b2 o2 nil nil nil nil l2) (mk b3 o3 nil nil nil nil l3) l) os =
        some (mk b objs
          (mk b0 (o0 ++ os.filter (fun o => decide (index b o = 0))) nil nil nil nil l0)
          (mk b1 (o1 ++ os.filter (fun o => decide (index b o = 1))) nil nil nil nil l1)
          (mk b2 (o2 ++ os.filter (fun o => decide (index b o = 2))) nil nil nil nil l2)
          (mk b3 (o3 ++ os.filter (fun o => decide (index b o = 3))) nil nil nil nil l3) l) := by
  induction os with
  | nil =>
    intro objs b0 b1 b2 b3 o0 o1 o2 o3 l0 l1 l2 l3 _ _ _ _ _
    simp [pushDown]
  | cons o os ih =>
    intro objs b0 b1 b2 b3 o0 o1 o2 o3 l0 l1 l2 l3 hfit h0 h1 h2 h3
    have hrest : ∀ o' ∈ os, index b o' ≠ -1 :=
      fun o' ho' => hfit o' (List.mem_cons_of_mem _ ho')
    rcases index_range b o with h | h | h | h | h
    · exact absurd h (hfit o (List.mem_cons_self _ _))
    · simp only [List.filter_cons, h, decide_True, if_true, List.length_cons] at h0 h1 h2 h3 ⊢
      simp only [show ¬ ((0 : Int) = 1) by decide, show ¬ ((0 : Int) = 2) by decide,
        show ¬ ((0 : Int) = 3) by decide, decide_False, Bool.false_eq_true, if_false]
        at h1 h2 h3 ⊢
      rw [pushDown, h]
      simp only [nodeAt, setNode, if_true]
      rw [InsertFuel_leaf_below_capacity f b0 o0 l0 o (by omega)]
      simp only []
      rw [ih objs b0 b1 b2 b3 (o0 ++ [o]) o1 o2 o3 l0 l1 l2 l3 hrest
        (by simp only [List.length_append, List.length_singleton]; omega) h1 h2 h3]
      simp [List.append_assoc]
    · simp only [List.filter_cons, h, decide_True, if_true, List.length_cons] at h0 h1 h2 h3 ⊢
      simp only [show ¬ ((1 : Int) = 0) by decide, show ¬ ((1 : Int) = 2) by decide,
        show ¬ ((1 : Int) = 3) by decide, decide_False, Bool.false_eq_true, if_false]
        at h0 h2 h3 ⊢
      rw [pushDown, h]
      simp only [nodeAt, setNode, show ¬ ((1 : Int) = 0) by decide, if_true, if_false]
      rw [InsertFuel_leaf_below_capacity f b1 o1 l1 o (by omega)]
      simp only []
      rw [ih objs b0 b1 b2 b3 o0 (o1 ++ [o]) o2 o3 l0 l1 l2 l3 hrest h0
        (by simp only [List.length_append, List.length_singleton]; omega) h2 h3]
      simp [List.append_assoc]
    · simp only [List.filter_cons, h, decide_True, if_true, List.length_cons] at h0 h1 h2 h3 ⊢
      simp only [show ¬ ((2 : Int) = 0) by decide, show ¬ ((2 : Int) = 1) by decide,
        show ¬ ((2 : Int) = 3) by decide, decide_False, Bool.false_eq_true, if_false]
        at h0 h1 h3 ⊢
      rw [pushDown, h]
      simp only [nodeAt, setNode, show ¬ ((2 : Int) = 0) by decide,
        show ¬ ((2 : Int) = 1) by decide, if_true, if_false]
      rw [InsertFuel_leaf_below_capacity f b2 o2 l2 o (by omega)]
      simp only []
      rw [ih objs b0 b1 b2 b3 o0 o1 (o2 ++ [o]) o3 l0 l1 l2 l3 hrest h0 h1
        (by simp only [List.length_append, List.length_singleton]; omega) h3]
      simp [List.append_assoc]
    · simp only [List.filter_cons, h, decide_True, if_true, List.length_cons] at h0 h1 h2 h3 ⊢
      simp only [show ¬ ((3 : Int) = 0) by decide, show ¬ ((3 : Int) = 1) by decide,
        show ¬ ((3 : Int) = 2) by decide, decide_False, Bool.false_eq_true, if_false]
        at h0 h1 h2 ⊢
      rw [pushDown, h]
      simp only [nodeAt, setNode, show ¬ ((3 : Int) = 0) by decide,
        show ¬ ((3 : Int) = 1) by decide, show ¬ ((3 : Int) = 2) by decide, if_true, if_false]
      rw [InsertFuel_leaf_below_capacity f b3 o3 l3 o (by omega)]
      simp only []
      rw [ih objs b0 b1 b2 b3 o0 o1 o2 (o3 ++ [o]) l0 l1 l2 l3 hrest h0 h1 h2
        (by simp only [List.length_append, List.length_singleton]; omega)]
      simp [List.append_assoc]

end Overflow

section OverflowClaim

/-- C15: the `Insert` that brings a childless node below `MAX_LEVELS` to `MAX_OBJECTS + 1`
rectangles gives the node four children; its own objects are then the rectangles among
the thirteen that fit no quadrant, in their original order, and for each quadrant `k` the
subtree of child `k` holds exactly the rectangles classified into `k`; when no quadrant
receives more than `MAX_OBJECTS` rectangles, the tree has exactly five nodes. -/
theorem overflow_redistributes (b : Rectangle α) (objs : List (Rectangle α)) (l : Int)
    (r : Rectangle α) (hlen : objs.length = MAX_OBJECTS) (hl : l < MAX_LEVELS) :
    ∃ q', Insert (mk b objs nil nil nil nil l) r = some q' ∧ lenNodes q' = 4 ∧
      q'.objects = (objs ++ [r]).filter (fun o => decide (index b o = -1)) ∧
      (∀ k, isKey k → (allObjects (nodeAt q' k)).Perm
        ((objs ++ [r]).filter (fun o => decide (index b o = k)))) ∧
      ((∀ k, isKey k →
          ((objs ++ [r]).filter (fun o => decide (index b o = k))).length ≤ MAX_OBJECTS) →
        nodeCount q' = 5 ∧ ∀ ord : RangeOrder, (Boundaries q' ord).length = 5) := by
  obtain ⟨f, hf⟩ : ∃ f, (MAX_LEVELS - l).toNat = f + 1 := by
    refine ⟨(MAX_LEVELS - l).toNat - 1, ?_⟩
    simp only [MAX_LEVELS] at hl ⊢
    omega
  have hbud : depthBudget (mk b objs nil nil nil nil l) = (f + 1) + 1 := by
    simp [depthBudget, hf]
  have h1 : ¬ (lenNodes (mk b objs nil nil nil nil l) ≠ 0 ∧ index b r ≠ -1) := by
    simp [lenNodes, isNil]
  have h2 : (objs ++ [r]).length > MAX_OBJECTS ∧ l < MAX_LEVELS := ⟨by simp [hlen], hl⟩
  have h3 : lenNodes (mk b objs nil nil nil nil l) = 0 := by simp [lenNodes, isNil]
  have hfit : ∀ o ∈ ((objs ++ [r]).filter (fits b)).reverse, index b o ≠ -1 := by
    intro o ho
    have h := (List.mem_filter.mp (List.mem_reverse.mp ho)).2
    simpa [fits] using h
  obtain ⟨f0, f1, f2, f3, b0, b1, b2, b3, hsp, rfl, rfl, rfl, rfl, -, -, -, -⟩ :=
    fresh_children b (objs ++ [r]) l
  have hfk := fun j hj => fresh_key b (objs ++ [r]) l j hj
  rw [hsp] at hfk
  have hch : ∀ j, isKey j →
      Structured (nodeAt (mk b (objs ++ [r]) (NewQuadTree (l + 1) b0)
        (NewQuadTree (l + 1) b1) (NewQuadTree (l + 1) b2)
        (NewQuadTree (l + 1) b3) l) j) ∧
      depthBudget (nodeAt (mk b (objs ++ [r]) (NewQuadTree (l + 1) b0)
        (NewQuadTree (l + 1) b1) (NewQuadTree (l + 1) b2)
        (NewQuadTree (l + 1) b3) l) j) ≤ f + 1 := by
    intro j hj
    obtain ⟨bj, hbj, _⟩ := hfk j hj
    rw [hbj, fresh_budget bj l hl, hf]
    exact ⟨Structured_fresh _ _, le_refl _⟩
  obtain ⟨m0, m1, m2, m3, hpush, hkeys⟩ :=
    pushDown_structured (InsertFuel (f + 1)) (f + 1) (InsertFuel_structured (f + 1)) b l _
      (objs ++ [r]) _ _ _ _ hfit hch
  have hIns : Insert (mk b objs nil nil nil nil l) r =
      some (mk b ((objs ++ [r]).filter (fun o => !fits b o)) m0 m1 m2 m3 l) := by
    rw [Insert, hbud, InsertFuel_succ, if_neg h1, if_pos h2, if_pos h3, hsp, hpush]
    rfl
  have hshaped : ∀ j, isKey j →
      Shaped (nodeAt (mk b ((objs ++ [r]).filter (fun o => !fits b o)) m0 m1 m2 m3 l) j) :=
    fun j hj => Structured_Shaped _ (hkeys j hj).1
  refine ⟨_, hIns, (lenNodes_of_keys _ _ _ _ _ _ _ hshaped).1, ?_, ?_, ?_⟩
  · exact filter_not_fits b (objs ++ [r])
  · intro k hk
    obtain ⟨-, -, -, kP⟩ := hkeys k hk
    obtain ⟨bk, hbk, -⟩ := hfk k hk
    rw [hbk] at kP
    have kP' : (allObjects (nodeAt (mk b (objs ++ [r]) m0 m1 m2 m3 l) k)).Perm
        ((((objs ++ [r]).filter (fits b)).reverse).filter
          (fun o => decide (index b o = k))) := by
      simpa [allObjects, NewQuadTree] using kP
    exact kP'.trans (filter_key_perm b (objs ++ [r]) k hk)
  · intro hcount
    have hc := fun k hk => (filter_key_perm b (objs ++ [r]) k hk).length_eq.trans_le (hcount k hk)
    have hleaves := pushDown_leaves f b l (((objs ++ [r]).filter (fits b)).reverse)
      (objs ++ [r]) b0 b1 b2 b3 [] [] [] [] (l + 1) (l + 1) (l + 1) (l + 1) hfit
      (by simpa using hc 0 (by simp [isKey])) (by simpa using hc 1 (by simp [isKey]))
      (by simpa using hc 2 (by simp [isKey])) (by simpa using hc 3 (by simp [isKey]))
    simp only [NewQuadTree] at hpush
    rw [hpush] at hleaves
    simp only [Option.some.injEq, QuadTree.mk.injEq, true_and, and_true] at hleaves
    obtain ⟨rfl, rfl, rfl, rfl⟩ := hleaves
    have hn : nodeCount (mk b ((objs ++ [r]).filter (fun o => !fits b o))
        (mk b0 ([] ++ (((objs ++ [r]).filter (fits b)).reverse).filter
          (fun o => decide (index b o = 0))) nil nil nil nil (l + 1))
        (mk b1 ([] ++ (((objs ++ [r]).filter (fits b)).reverse).filter
          (fun o => decide (index b o = 1))) nil nil nil nil (l + 1))
        (mk b2 ([] ++ (((objs ++ [r]).filter (fits b)).reverse).filter
          (fun o => decide (index b o = 2))) nil nil nil nil (l + 1))
        (mk b3 ([] ++ (((objs ++ [r]).filter (fits b)).reverse).filter
          (fun o => decide (index b o = 3))) nil nil nil nil (l + 1)) l) = 5 := by
      simp [nodeCount]
    exact ⟨hn, fun ord => by rw [Boundaries_length, hn]⟩

/-- C15, witness: the thirteenth insert of the test of multiple boundaries: twelve boxes
`NewRectangle(4i, 4i, 3, 3)`, `i = 0 .. 11`, are held by the scenario root, and
`NewRectangle(48, 48, 3, 3)` is inserted. -/
theorem overflow_redistributes_witness :
    ((List.range 12).map (fun i : Nat =>
        NewRectangle ((4 * i : Nat) : ℤ) ((4 * i : Nat) : ℤ) 3 3)).length = MAX_OBJECTS ∧
      (0 : Int) < MAX_LEVELS ∧
      ∃ q', Insert (mk (NewRectangle (50 : ℤ) 50 50 50)
          ((List.range 12).map (fun i : Nat =>
            NewRectangle ((4 * i : Nat) : ℤ) ((4 * i : Nat) : ℤ) 3 3)) nil nil nil nil 0)
          (NewRectangle 48 48 3 3) = some q' ∧ lenNodes q' = 4 ∧
        q'.objects = (((List.range 12).map (fun i : Nat =>
            NewRectangle ((4 * i : Nat) : ℤ) ((4 * i : Nat) : ℤ) 3 3)) ++
          [NewRectangle 48 48 3 3]).filter
            (fun o => decide (index (NewRectangle (50 : ℤ) 50 50 50) o = -1)) ∧
        (∀ k, isKey k → (allObjects (nodeAt q' k)).Perm
          ((((List.range 12).map (fun i : Nat =>
              NewRectangle ((4 * i : Nat) : ℤ) ((4 * i : Nat) : ℤ) 3 3)) ++
            [NewRectangle 48 48 3 3]).filter
              (fun o => decide (index (NewRectangle (50 : ℤ) 50 50 50) o = k)))) ∧
        ((∀ k, isKey k →
            ((((List.range 12).map (fun i : Nat =>
                NewRectangle ((4 * i : Nat) : ℤ) ((4 * i : Nat) : ℤ) 3 3)) ++
              [NewRectangle 48 48 3 3]).filter
                (fun o => decide (index (NewRectangle (50 : ℤ) 50 50 50) o = k))).length ≤
              MAX_OBJECTS) →
          nodeCount q' = 5 ∧ ∀ ord : RangeOrder, (Boundaries q' ord).length = 5) :=
  ⟨by decide, by decide,
    overflow_redistributes (NewRectangle 50 50 50 50)
      ((List.range 12).map (fun i : Nat =>
        NewRectangle ((4 * i : Nat) : ℤ) ((4 * i : Nat) : ℤ) 3 3))
      0 (NewRectangle 48 48 3 3) (by decide) (by decide)⟩

end OverflowClaim

section Listing

/-- C14, counterexample: on the tree with five nodes built by thirteen inserts, a `range`
that visits `TOP_RIGHT` before `TOP_LEFT` makes `Boundaries` list the region of the
top-right child before that of the top-left child: the result is not the listing in
quadrant-enumeration order. -/
theorem Boundaries_not_in_enumeration_order :
    ∃ t, InsertAll scenarioRoot (List.replicate 12 scenarioStraddler ++ [scenarioBox]) =
        some t ∧
      Boundaries t swappedOrder =
        [NewRectangle 50 50 50 50, NewRectangle 150 (-50) 100 100,
          NewRectangle (-50) (-50) 100 100, NewRectangle (-50) 150 100 100,
          NewRectangle 150 150 100 100] ∧
      regions t =
        [NewRectangle 50 50 50 50, NewRectangle (-50) (-50) 100 100,
          NewRectangle 150 (-50) 100 100, NewRectangle (-50) 150 100 100,
          NewRectangle 150 150 100 100] ∧
      Boundaries t swappedOrder ≠ regions t :=
  ⟨_, rfl, by decide, by decide, by decide⟩

theorem Boundaries_enumOrder (q : QuadTree α) : Boundaries q enumOrder = regions q := by
  induction q with
  | nil => rfl
  | mk b objs n0 n1 n2 n3 l ih0 ih1 ih2 ih3 =>
    have e : ∀ k : Fin 4, (fun p => enumOrder (k :: p)) = enumOrder := fun _ => rfl
    have hk : (List.finRange 4).map (enumOrder []) = [0, 1, 2, 3] := by decide
    simp only [Boundaries, hk, List.foldl_cons, List.foldl_nil, e, ih0, ih1, ih2, ih3, regions]
    simp [List.append_assoc]

/-- C14, amended: `Boundaries` returns the bounds of the node followed by the complete
`Boundaries` listing of each child, the children taken in the order in which the `range`
over the `nodes` map visits the keys; the result is a rearrangement of the pre-order
listing in quadrant-enumeration order, and equal to it when every `range` visits the keys
in enumeration order; its length is the number of nodes of the tree. -/
theorem Boundaries_listing (b : Rectangle α) (objs : List (Rectangle α))
    (n0 n1 n2 n3 : QuadTree α) (l : Int) (ord : RangeOrder) :
    Boundaries (mk b objs n0 n1 n2 n3 l) ord =
        b :: ((List.finRange 4).map (ord [])).flatMap (fun k =>
          Boundaries (nodeAt (mk b objs n0 n1 n2 n3 l) ((k : Nat) : Int))
            (fun p => ord (k :: p))) ∧
      (Boundaries (mk b objs n0 n1 n2 n3 l) ord).Perm (regions (mk b objs n0 n1 n2 n3 l)) ∧
      Boundaries (mk b objs n0 n1 n2 n3 l) enumOrder = regions (mk b objs n0 n1 n2 n3 l) ∧
      (Boundaries (mk b objs n0 n1 n2 n3 l) ord).length =
        nodeCount (mk b objs n0 n1 n2 n3 l) := by
  refine ⟨?_, Boundaries_perm _ ord, Boundaries_enumOrder _, Boundaries_length _ ord⟩
  rw [Boundaries_mk]
  simp only [List.singleton_append]
  congr 2
  funext k
  fin_cases k <;> rfl

end Listing

section Containment

/-- C16, the code at the failing input: the node with region `[0, 100] x [0, 100]`
classifies the box `NewRectangle(-200, -200, 1, 1)` as `TOP_LEFT`, and the region `split`
gives to the top-left child, `[-150, 50] x [-150, 50]`, does not contain that box; nor
does the top-left quarter of the region of the node, `[0, 50] x [0, 50]`. -/
theorem index_quadrant_not_containing :
    index (NewRectangle (50 : ℤ) 50 50 50) scenarioOutside = TOP_LEFT ∧
      (∃ c, boundsOf (nodeAt (split scenarioRoot) TOP_LEFT) = some c ∧
        c = NewRectangle (-50) (-50) 100 100 ∧ c.Contains scenarioOutside = false) ∧
      (NewRectangle (25 : ℤ) 25 25 25).Contains scenarioOutside = false :=
  ⟨by decide, ⟨_, rfl, by decide, by decide⟩, by decide⟩

/-- Inside the node: for every node with well-formed bounds and every rectangle contained
in the bounds of the node, if `index` returns a quadrant `k`, the region of the child `k`
created by `split` contains the rectangle (coordinates taken as exact numbers: the edge
of the child at the centre line is `(x - w) + w = x`). -/
theorem index_quadrant_contains (b : Rectangle α) (objs : List (Rectangle α))
    (n0 n1 n2 n3 : QuadTree α) (l : Int) (r : Rectangle α) (hb : WellFormed b)
    (hr : b.Contains r = true) (hk : index b r ≠ -1) :
    ∃ c, boundsOf (nodeAt (split (mk b objs n0 n1 n2 n3 l)) (index b r)) = some c ∧
      c.Contains r = true := by
  obtain ⟨c, hc, hq⟩ := fresh_key b ([] : List (Rectangle α)) 0 (index b r)
    (isKey_of_index b r hk)
  have hsame : boundsOf (nodeAt (split (mk b objs n0 n1 n2 n3 l)) (index b r)) =
      quadrant b (index b r) := by
    rcases isKey_of_index b r hk with h | h | h | h <;> rw [h] <;> rfl
  exact ⟨c, hsame.trans hq, quadrant_contains b c r hb hr hq⟩

/-- The scenario box in the scenario root: an instance of `index_quadrant_contains`. -/
theorem index_quadrant_contains_witness :
    WellFormed (NewRectangle (50 : ℤ) 50 50 50) ∧
      (NewRectangle (50 : ℤ) 50 50 50).Contains scenarioBox = true ∧
      index (NewRectangle (50 : ℤ) 50 50 50) scenarioBox ≠ -1 ∧
      ∃ c, boundsOf (nodeAt (split (mk (NewRectangle (50 : ℤ) 50 50 50) [] nil nil nil nil 0))
          (index (NewRectangle (50 : ℤ) 50 50 50) scenarioBox)) = some c ∧
        c.Contains scenarioBox = true :=
  ⟨by unfold WellFormed; decide, by decide, by decide,
    index_quadrant_contains (NewRectangle 50 50 50 50) [] nil nil nil nil 0 scenarioBox
      (by unfold WellFormed; decide) (by decide) (by decide)⟩

theorem NewRectangle_wellFormed (x y halfWidth halfHeight : α) (hw : 0 ≤ halfWidth)
    (hh : 0 ≤ halfHeight) : WellFormed (NewRectangle x y halfWidth halfHeight) := by
  refine ⟨?_, ?_, ?_, ?_⟩ <;> simp only [NewRectangle] <;> linarith

/-- The containment invariant holds at every node of a tree that satisfies it. -/
theorem InBounds_subtrees (t : QuadTree α) (hI : InBounds t) :
    ∀ N ∈ subtrees t, InBounds N := by
  induction t with
  | nil => intro N h; simp [subtrees] at h
  | mk b objs n0 n1 n2 n3 l ih0 ih1 ih2 ih3 =>
    intro N h
    simp only [subtrees, List.mem_cons, List.mem_append] at h
    rcases h with rfl | h
    · exact hI
    · obtain ⟨_, _, hc⟩ := hI
      rcases hc with ⟨rfl, rfl, rfl, rfl⟩ | ⟨_, _, _, _, i0, i1, i2, i3⟩
      · simp [subtrees] at h
      · rcases h with h | h | h | h
        · exact ih0 i0 N h
        · exact ih1 i1 N h
        · exact ih2 i2 N h
        · exact ih3 i3 N h

/-- C18: on a fresh root whose bounds have non-negative half-extents, after any sequence
of `Insert` calls with rectangles contained in the bounds of the root, the bounds of
every node contain every rectangle stored in the subtree of that node (so every stored
rectangle lies in the bounds of its owning node and of each of its ancestors), and every
inserted rectangle `R` is returned by `Retrieve` for every query `Q` with
`R.Intersects(Q)`. -/
theorem in_bounds_no_false_negatives (pLevel : Int) (x y halfWidth halfHeight : α)
    (rs : List (Rectangle α)) (hw : 0 ≤ halfWidth) (hh : 0 ≤ halfHeight)
    (hin : ∀ r ∈ rs, (NewRectangle x y halfWidth halfHeight).Contains r = true) :
    ∃ t, InsertAll (NewQuadTree pLevel (NewRectangle x y halfWidth halfHeight)) rs = some t ∧
      (∀ N ∈ subtrees t, ∃ bN, boundsOf N = some bN ∧
        ∀ o ∈ allObjects N, bN.Contains o = true) ∧
      ∀ R ∈ rs, ∀ Q : Rectangle α, R.Intersects Q = true →
        ∀ (ord : RangeOrder) (result : List (Rectangle α)), R ∈ Retrieve t ord Q result := by
  have hb := NewRectangle_wellFormed x y halfWidth halfHeight hw hh
  have hS : Shaped (NewQuadTree pLevel (NewRectangle x y halfWidth halfHeight)) :=
    Or.inl ⟨rfl, rfl, rfl, rfl⟩
  have hI : InBounds (NewQuadTree pLevel (NewRectangle x y halfWidth halfHeight)) :=
    ⟨hb, by simp [allObjects], Or.inl ⟨rfl, rfl, rfl, rfl⟩⟩
  obtain ⟨t, ht, -, -, -, hP, hIt, -⟩ := InsertAll_post rs _ hS
  have hIt' : InBounds t := by
    apply hIt hI
    intro b hb' r hr
    cases hb'
    exact hin r hr
  refine ⟨t, ht, ?_, ?_⟩
  · intro N hN
    have hIN := InBounds_subtrees t hIt' N hN
    obtain ⟨bN, objs, n0, n1, n2, n3, l, rfl⟩ := mem_subtrees_ne_nil t N hN
    exact ⟨bN, rfl, hIN.2.1⟩
  · intro R hR Q hQ ord result
    apply mem_Retrieve_of_mem_retrieved
    exact mem_retrieved_of_InBounds t R Q hIt' ((hP.mem_iff).mpr (List.mem_append_left _ hR)) hQ

/-- C18, witness: thirteen copies of the scenario box inserted into the scenario root. -/
theorem in_bounds_no_false_negatives_witness :
    (0 : ℤ) ≤ 50 ∧
      (∀ r ∈ List.replicate 13 scenarioBox, (NewRectangle (50 : ℤ) 50 50 50).Contains r = true) ∧
      ∃ t, InsertAll (NewQuadTree 0 (NewRectangle (50 : ℤ) 50 50 50))
          (List.replicate 13 scenarioBox) = some t ∧
        (∀ N ∈ subtrees t, ∃ bN, boundsOf N = some bN ∧
          ∀ o ∈ allObjects N, bN.Contains o = true) ∧
        ∀ R ∈ List.replicate 13 scenarioBox, ∀ Q : Rectangle ℤ, R.Intersects Q = true →
          ∀ (ord : RangeOrder) (result : List (Rectangle ℤ)), R ∈ Retrieve t ord Q result :=
  ⟨by decide, by decide,
    in_bounds_no_false_negatives 0 50 50 50 50 (List.replicate 13 scenarioBox) (by decide)
      (by decide) (by decide)⟩

end Containment

section Reached

/-- The rectangles `Retrieve` collects are exactly those stored in the nodes it descends
to. -/
theorem mem_retrieved_iff_reaches (q : QuadTree α) (rectangle o : Rectangle α) :
    o ∈ retrieved q rectangle ↔ ∃ N, reaches rectangle q N ∧ o ∈ N.objects := by
  induction q with
  | nil => simp [retrieved, reaches]
  | mk b objs n0 n1 n2 n3 l ih0 ih1 ih2 ih3 =>
    simp only [retrieved, reaches, List.mem_append]
    constructor
    · rintro (h | h | h | h | h)
      · exact ⟨_, Or.inl rfl, h⟩
      · by_cases hh : n0.hits rectangle = true
        · rw [if_pos hh] at h
          obtain ⟨N, hN, ho⟩ := ih0.mp h
          exact ⟨N, Or.inr (Or.inl ⟨hh, hN⟩), ho⟩
        · rw [if_neg hh] at h; simp at h
      · by_cases hh : n1.hits rectangle = true
        · rw [if_pos hh] at h
          obtain ⟨N, hN, ho⟩ := ih1.mp h
          exact ⟨N, Or.inr (Or.inr (Or.inl ⟨hh, hN⟩)), ho⟩
        · rw [if_neg hh] at h; simp at h
      · by_cases hh : n2.hits rectangle = true
        · rw [if_pos hh] at h
          obtain ⟨N, hN, ho⟩ := ih2.mp h
          exact ⟨N, Or.inr (Or.inr (Or.inr (Or.inl ⟨hh, hN⟩))), ho⟩
        · rw [if_neg hh] at h; simp at h
      · by_cases hh : n3.hits rectangle = true
        · rw [if_pos hh] at h
          obtain ⟨N, hN, ho⟩ := ih3.mp h
          exact ⟨N, Or.inr (Or.inr (Or.inr (Or.inr ⟨hh, hN⟩))), ho⟩
        · rw [if_neg hh] at h; simp at h
    · rintro ⟨N, (rfl | ⟨hh, hN⟩ | ⟨hh, hN⟩ | ⟨hh, hN⟩ | ⟨hh, hN⟩), ho⟩
      · exact Or.inl ho
      · rw [if_pos hh]; exact Or.inr (Or.inl (ih0.mpr ⟨N, hN, ho⟩))
      · rw [if_pos hh]; exact Or.inr (Or.inr (Or.inl (ih1.mpr ⟨N, hN, ho⟩)))
      · rw [if_pos hh]; exact Or.inr (Or.inr (Or.inr (Or.inl (ih2.mpr ⟨N, hN, ho⟩))))
      · rw [if_pos hh]; exact Or.inr (Or.inr (Or.inr (Or.inr (ih3.mpr ⟨N, hN, ho⟩))))

/-- Membership in the result of `Retrieve`, for any order of the `range` loops: the
rectangles already in `result` and those stored in the nodes the descent reaches. -/
theorem mem_Retrieve_iff (q : QuadTree α) (ord : RangeOrder) (rectangle o : Rectangle α)
    (result : List (Rectangle α)) :
    o ∈ Retrieve q ord rectangle result ↔
      o ∈ result ∨ ∃ N, reaches rectangle q N ∧ o ∈ N.objects := by
  rw [(Retrieve_perm q ord rectangle result).mem_iff, List.mem_append,
    mem_retrieved_iff_reaches]

/-- Every node the descent reaches is a node of the tree. -/
theorem reaches_subtrees (rectangle : Rectangle α) (q N : QuadTree α)
    (h : reaches rectangle q N) : N ∈ subtrees q := by
  induction q with
  | nil => exact absurd h (by simp [reaches])
  | mk b objs n0 n1 n2 n3 l ih0 ih1 ih2 ih3 =>
    simp only [subtrees, List.mem_cons, List.mem_append]
    rcases h with rfl | ⟨_, h⟩ | ⟨_, h⟩ | ⟨_, h⟩ | ⟨_, h⟩
    · exact Or.inl rfl
    · exact Or.inr (Or.inl (ih0 h))
    · exact Or.inr (Or.inr (Or.inl (ih1 h)))
    · exact Or.inr (Or.inr (Or.inr (Or.inl (ih2 h))))
    · exact Or.inr (Or.inr (Or.inr (Or.inr (ih3 h))))

/-- C2, amended: in every tree built by `Insert` calls on a fresh root, for every query
`Q` and every node `N` such that the bounds of `N` and of every ancestor of `N` below the
root intersect `Q`, every rectangle stored in `N` is in the result of `Retrieve` with `Q`
on the root, in whatever order the `range` loops run. -/
theorem Retrieve_returns_reached_nodes (pLevel : Int) (bounds : Rectangle α)
    (rs : List (Rectangle α)) :
    ∃ t, InsertAll (NewQuadTree pLevel bounds) rs = some t ∧
      ∀ (Q : Rectangle α) (N : QuadTree α), reaches Q t N → ∀ o ∈ N.objects,
        ∀ (ord : RangeOrder) (result : List (Rectangle α)), o ∈ Retrieve t ord Q result := by
  have hS : Shaped (NewQuadTree pLevel bounds) := Or.inl ⟨rfl, rfl, rfl, rfl⟩
  obtain ⟨t, ht, -⟩ := InsertAll_post rs (NewQuadTree pLevel bounds) hS
  refine ⟨t, ht, ?_⟩
  intro Q N hN o ho ord result
  exact (mem_Retrieve_iff t ord Q o result).mpr (Or.inr ⟨N, hN, ho⟩)

/-- After thirteen copies of the scenario box, the descent of `Retrieve` for the query
`NewRectangle(25, 25, 25, 25)` reaches the node under the keys `TOP_LEFT`,
`BOTTOM_RIGHT`, `TOP_LEFT`, `BOTTOM_RIGHT`, `TOP_LEFT`; the descent for
`NewRectangle(75, 75, 1, 1)` does not. -/
theorem reaches_level_five :
    reaches (NewRectangle 25 25 25 25)
        ((InsertAll scenarioRoot (List.replicate 13 scenarioBox)).getD nil)
        (nodeAt (nodeAt (nodeAt (nodeAt (nodeAt
          ((InsertAll scenarioRoot (List.replicate 13 scenarioBox)).getD nil)
          TOP_LEFT) BOTTOM_RIGHT) TOP_LEFT) BOTTOM_RIGHT) TOP_LEFT) ∧
      ¬ reaches (NewRectangle 75 75 1 1)
        ((InsertAll scenarioRoot (List.replicate 13 scenarioBox)).getD nil)
        (nodeAt (nodeAt (nodeAt (nodeAt (nodeAt
          ((InsertAll scenarioRoot (List.replicate 13 scenarioBox)).getD nil)
          TOP_LEFT) BOTTOM_RIGHT) TOP_LEFT) BOTTOM_RIGHT) TOP_LEFT) := by
  decide

/-- C2, witness: after thirteen copies of the scenario box the node under the keys
`TOP_LEFT`, `BOTTOM_RIGHT`, `TOP_LEFT`, `BOTTOM_RIGHT`, `TOP_LEFT` stores all thirteen; its
bounds and those of its four ancestors below the root intersect the query
`NewRectangle(25, 25, 25, 25)`, and `Retrieve` with that query returns the thirteen. -/
theorem Retrieve_returns_reached_nodes_witness :
    ∃ t N, InsertAll scenarioRoot (List.replicate 13 scenarioBox) = some t ∧
      N = nodeAt (nodeAt (nodeAt (nodeAt (nodeAt t TOP_LEFT) BOTTOM_RIGHT) TOP_LEFT)
        BOTTOM_RIGHT) TOP_LEFT ∧
      N.objects = List.replicate 13 scenarioBox ∧
      reaches (NewRectangle 25 25 25 25) t N ∧
      ∀ o ∈ N.objects, ∀ (ord : RangeOrder) (result : List (Rectangle ℤ)),
        o ∈ Retrieve t ord (NewRectangle 25 25 25 25) result := by
  obtain ⟨t, ht, h⟩ := Retrieve_returns_reached_nodes 0 (NewRectangle (50 : ℤ) 50 50 50)
    (List.replicate 13 scenarioBox)
  have hreach := reaches_level_five.1
  have hobj : (nodeAt (nodeAt (nodeAt (nodeAt (nodeAt
      ((InsertAll scenarioRoot (List.replicate 13 scenarioBox)).getD nil)
      TOP_LEFT) BOTTOM_RIGHT) TOP_LEFT) BOTTOM_RIGHT) TOP_LEFT).objects =
      List.replicate 13 scenarioBox := by decide
  have ht1 : InsertAll scenarioRoot (List.replicate 13 scenarioBox) = some t := ht
  have ht2 : (InsertAll scenarioRoot (List.replicate 13 scenarioBox)).getD nil = t := by
    rw [ht1]; rfl
  rw [ht2] at hreach hobj
  exact ⟨t, _, ht1, rfl, hobj, hreach,
    fun o ho ord result => h (NewRectangle 25 25 25 25) _ hreach o ho ord result⟩

end Reached

section OneRectangle

theorem InBoundsFor_of_keys (R b : Rectangle α) (objs : List (Rectangle α))
    (n0 n1 n2 n3 : QuadTree α) (l : Int) (hb : WellFormed b)
    (hall : R ∈ allObjects (mk b objs n0 n1 n2 n3 l) → b.Contains R = true)
    (h : ∀ j, isKey j → boundsOf (nodeAt (mk b objs n0 n1 n2 n3 l) j) = quadrant b j ∧
      InBoundsFor R (nodeAt (mk b objs n0 n1 n2 n3 l) j)) :
    InBoundsFor R (mk b objs n0 n1 n2 n3 l) := by
  have h0 := h 0 (by simp [isKey])
  have h1 := h 1 (by simp [isKey])
  have h2 := h 2 (by simp [isKey])
  have h3 := h 3 (by simp [isKey])
  simp only [nodeAt] at h0 h1 h2 h3
  simp at h0 h1 h2 h3
  exact ⟨hb, hall, Or.inr ⟨h0.1, h1.1, h2.1, h3.1, h0.2, h1.2, h2.2, h3.2⟩⟩

theorem InBoundsFor_keys (R b : Rectangle α) (objs : List (Rectangle α))
    (n0 n1 n2 n3 : QuadTree α) (l : Int) (hI : InBoundsFor R (mk b objs n0 n1 n2 n3 l))
    (hfull : ∀ j, isKey j → Shaped (nodeAt (mk b objs n0 n1 n2 n3 l) j)) :
    ∀ j, isKey j → boundsOf (nodeAt (mk b objs n0 n1 n2 n3 l) j) = quadrant b j ∧
      InBoundsFor R (nodeAt (mk b objs n0 n1 n2 n3 l) j) := by
  obtain ⟨_, _, hc⟩ := hI
  rcases hc with ⟨rfl, _, _, _⟩ | ⟨b0, b1, b2, b3, i0, i1, i2, i3⟩
  · have := hfull 0 (by simp [isKey])
    simp [nodeAt, Shaped] at this
  · intro j hj
    rcases hj with rfl | rfl | rfl | rfl <;> simp [nodeAt] <;> constructor <;> assumption

theorem InBoundsFor_fresh (R bounds : Rectangle α) (pLevel : Int) (hb : WellFormed bounds) :
    InBoundsFor R (NewQuadTree pLevel bounds) :=
  ⟨hb, by simp [allObjects], Or.inl ⟨rfl, rfl, rfl, rfl⟩⟩

/-- The redistribution loop keeps the containment invariant for `R` in every child, when
`R`, if it is among the moved rectangles, lies in the bounds of the child it is
classified into. -/
theorem pushDown_inBoundsFor (R : Rectangle α)
    (ins : QuadTree α → Rectangle α → Option (QuadTree α)) (fuel : Nat)
    (hins : ∀ c o, Structured c → depthBudget c ≤ fuel →
      ∃ c', ins c o = some c' ∧ InsertPost c o c' ∧ Structured c' ∧
        (InBoundsFor R c → (o = R → ∀ bc, boundsOf c = some bc → bc.Contains R = true) →
          InBoundsFor R c'))
    (b : Rectangle α) (l : Int) (os : List (Rectangle α)) :
    ∀ (objs : List (Rectangle α)) (n0 n1 n2 n3 : QuadTree α),
      (∀ o ∈ os, index b o ≠ -1) →
      (∀ j, isKey j → Structured (nodeAt (mk b objs n0 n1 n2 n3 l) j) ∧
        depthBudget (nodeAt (mk b objs n0 n1 n2 n3 l) j) ≤ fuel) →
      ∃ m0 m1 m2 m3,
        pushDown ins (mk b objs n0 n1 n2 n3 l) os = some (mk b objs m0 m1 m2 m3 l) ∧
        ∀ j, isKey j →
          Structured (nodeAt (mk b objs m0 m1 m2 m3 l) j) ∧
          depthBudget (nodeAt (mk b objs m0 m1 m2 m3 l) j) ≤
            depthBudget (nodeAt (mk b objs n0 n1 n2 n3 l) j) ∧
          boundsOf (nodeAt (mk b objs m0 m1 m2 m3 l) j) =
            boundsOf (nodeAt (mk b objs n0 n1 n2 n3 l) j) ∧
          (InBoundsFor R (nodeAt (mk b objs n0 n1 n2 n3 l) j) →
            (R ∈ os → index b R = j →
              ∀ bj, boundsOf (nodeAt (mk b objs n0 n1 n2 n3 l) j) = some bj →
                bj.Contains R = true) →
            InBoundsFor R (nodeAt (mk b objs m0 m1 m2 m3 l) j)) := by
  induction os with
  | nil =>
    intro objs n0 n1 n2 n3 _ hch
    refine ⟨n0, n1, n2, n3, rfl, ?_⟩
    intro j hj
    exact ⟨(hch j hj).1, le_refl _, rfl, fun h _ => h⟩
  | cons o os ih =>
    intro objs n0 n1 n2 n3 hfit hch
    have hk : isKey (index b o) := isKey_of_index b o (hfit o (List.mem_cons_self _ _))
    obtain ⟨c, hc, ⟨-, hcB, hcb, -, -, -, -⟩, hcS, hcI⟩ :=
      hins (nodeAt (mk b objs n0 n1 n2 n3 l) (index b o)) o (hch _ hk).1 (hch _ hk).2
    have hstep : pushDown ins (mk b objs n0 n1 n2 n3 l) (o :: os) =
        pushDown ins (setNode (mk b objs n0 n1 n2 n3 l) (index b o) c) os := by
      rw [pushDown, hc]
    have hnode := fun j => nodeAt_setNode b objs n0 n1 n2 n3 l (index b o) j c hk
    rw [setNode_eq_mk] at hstep hnode
    have hch1 : ∀ j, isKey j →
        Structured (nodeAt (mk b objs (if index b o = 0 then c else n0)
          (if index b o = 1 then c else n1) (if index b o = 2 then c else n2)
          (if index b o = 3 then c else n3) l) j) ∧
        depthBudget (nodeAt (mk b objs (if index b o = 0 then c else n0)
          (if index b o = 1 then c else n1) (if index b o = 2 then c else n2)
          (if index b o = 3 then c else n3) l) j) ≤ fuel := by
      intro j hj
      rw [hnode j]
      by_cases hjk : j = index b o
      · rw [if_pos hjk]
        exact ⟨hcS, le_trans hcB (hch _ hk).2⟩
      · rw [if_neg hjk]
        exact hch j hj
    obtain ⟨m0, m1, m2, m3, hpush, hkeys⟩ :=
      ih objs _ _ _ _ (fun o' ho' => hfit o' (List.mem_cons_of_mem _ ho')) hch1
    refine ⟨m0, m1, m2, m3, hstep.trans hpush, ?_⟩
    intro j hj
    obtain ⟨kS, kB, kb, kI⟩ := hkeys j hj
    rw [hnode j] at kB kb kI
    by_cases hjk : j = index b o
    · rw [if_pos hjk] at kB kb kI
      subst hjk
      refine ⟨kS, le_trans kB hcB, kb.trans hcb, ?_⟩
      intro hI hcont
      apply kI
      · apply hcI hI
        intro hoR bc hbc
        subst hoR
        exact hcont (List.mem_cons_self _ _) rfl bc hbc
      · intro hR hidx bj hbj
        exact hcont (List.mem_cons_of_mem _ hR) hidx bj (hcb ▸ hbj)
    · rw [if_neg hjk] at kB kb kI
      refine ⟨kS, kB, kb, ?_⟩
      intro hI hcont
      exact kI hI (fun hR hidx bj hbj => hcont (List.mem_cons_of_mem _ hR) hidx bj hbj)

end OneRectangle
section OneRectangleInsert

/-- `Insert` keeps the containment invariant for `R`, whatever rectangle is inserted,
provided `R` itself, when it is the rectangle inserted, lies in the bounds of the
node. -/
theorem InsertFuel_inBoundsFor (R : Rectangle α) (fuel : Nat) :
    ∀ (q : QuadTree α) (r : Rectangle α), Structured q → depthBudget q ≤ fuel →
      ∃ q', InsertFuel fuel q r = some q' ∧ InsertPost q r q' ∧ Structured q' ∧
        (InBoundsFor R q → (r = R → ∀ b, boundsOf q = some b → b.Contains R = true) →
          InBoundsFor R q') := by
  induction fuel with
  | zero =>
    intro q r hS hB
    obtain ⟨b, objs, n0, n1, n2, n3, l, rfl⟩ := Shaped_ne_nil q (Structured_Shaped q hS)
    simp [depthBudget] at hB
  | succ fuel ih =>
    intro q r hS hB
    obtain ⟨b, objs, n0, n1, n2, n3, l, rfl⟩ := Shaped_ne_nil q (Structured_Shaped q hS)
    obtain ⟨q', hq', hpost, hS'⟩ :=
      InsertFuel_structured (fuel + 1) (mk b objs n0 n1 n2 n3 l) r hS hB
    refine ⟨q', hq', hpost, hS', ?_⟩
    intro hI hr
    obtain ⟨hlB, hkB⟩ := (depthBudget_le_succ b objs n0 n1 n2 n3 l fuel).mp hB
    have hb : WellFormed b := hI.1
    have hP : (allObjects q').Perm (r :: allObjects (mk b objs n0 n1 n2 n3 l)) :=
      hpost.2.2.2.2.1
    have hRb : R ∈ r :: allObjects (mk b objs n0 n1 n2 n3 l) → b.Contains R = true := by
      intro hR
      rcases List.mem_cons.mp hR with h | h
      · exact hr h.symm b rfl
      · exact hI.2.1 h
    rw [InsertFuel_succ] at hq'
    by_cases h1 : lenNodes (mk b objs n0 n1 n2 n3 l) ≠ 0 ∧ index b r ≠ -1
    · rw [if_pos h1] at hq'
      obtain ⟨hl, hobjs, hkeys⟩ := Structured_keys b objs n0 n1 n2 n3 l hS h1.1
      have hIk := InBoundsFor_keys R b objs n0 n1 n2 n3 l hI
        (fun j hj => Structured_Shaped _ (hkeys j hj).2)
      have hk := isKey_of_index b r h1.2
      obtain ⟨c, hc, ⟨-, -, hcb, -, -, -, -⟩, -, hcI⟩ :=
        ih (nodeAt (mk b objs n0 n1 n2 n3 l) (index b r)) r (hkeys _ hk).2 (hkB _ hk)
      rw [hc] at hq'
      have hq'' : setNode (mk b objs n0 n1 n2 n3 l) (index b r) c = q' := by
        simpa using hq'
      have hnode := fun j => nodeAt_setNode b objs n0 n1 n2 n3 l (index b r) j c hk
      rw [← hq''] at hP ⊢
      rw [setNode_eq_mk] at hnode hP ⊢
      apply InBoundsFor_of_keys _ _ _ _ _ _ _ _ hb (fun h => hRb ((hP.mem_iff).mp h))
      intro j hj
      rw [hnode]
      split_ifs with hjk
      · subst hjk
        refine ⟨hcb.trans (hIk _ hk).1, hcI (hIk _ hk).2 ?_⟩
        intro hrR bc hbc
        subst hrR
        apply quadrant_contains b bc r hb (hr rfl b rfl)
        rw [← (hIk _ hk).1]
        exact hbc
      · exact hIk j hj
    · rw [if_neg h1] at hq'
      by_cases h2 : (objs ++ [r]).length > MAX_OBJECTS ∧ l < MAX_LEVELS
      · rw [if_pos h2] at hq'
        have hfit : ∀ o ∈ ((objs ++ [r]).filter (fits b)).reverse, index b o ≠ -1 := by
          intro o ho
          have h := (List.mem_filter.mp (List.mem_reverse.mp ho)).2
          simpa [fits] using h
        have hmoved : R ∈ ((objs ++ [r]).filter (fits b)).reverse → b.Contains R = true := by
          intro hR
          have h := (List.mem_filter.mp (List.mem_reverse.mp hR)).1
          apply hRb
          rcases List.mem_append.mp h with h | h
          · exact List.mem_cons_of_mem _ (by simp [allObjects, h])
          · rw [List.mem_singleton.mp h]; exact List.mem_cons_self _ _
        by_cases h3 : lenNodes (mk b objs n0 n1 n2 n3 l) = 0
        · rw [if_pos h3] at hq'
          obtain ⟨⟨rfl, rfl, rfl, rfl⟩, -⟩ := Structured_leaf b objs n0 n1 n2 n3 l hS h3
          obtain ⟨f0, f1, f2, f3, b0, b1, b2, b3, hsp, rfl, rfl, rfl, rfl, -, -, -, -⟩ :=
            fresh_children b (objs ++ [r]) l
          have hfk := fun j hj => fresh_key b (objs ++ [r]) l j hj
          rw [hsp] at hfk hq'
          have hch : ∀ j, isKey j →
              Structured (nodeAt (mk b (objs ++ [r]) (NewQuadTree (l + 1) b0)
                (NewQuadTree (l + 1) b1) (NewQuadTree (l + 1) b2)
                (NewQuadTree (l + 1) b3) l) j) ∧
              depthBudget (nodeAt (mk b (objs ++ [r]) (NewQuadTree (l + 1) b0)
                (NewQuadTree (l + 1) b1) (NewQuadTree (l + 1) b2)
                (NewQuadTree (l + 1) b3) l) j) ≤ fuel := by
            intro j hj
            obtain ⟨bj, hbj, _⟩ := hfk j hj
            rw [hbj, fresh_budget bj l h2.2]
            exact ⟨Structured_fresh _ _, hlB⟩
          obtain ⟨m0, m1, m2, m3, hpush, hkeys⟩ :=
            pushDown_inBoundsFor R (InsertFuel fuel) fuel ih b l _ (objs ++ [r]) _ _ _ _
              hfit hch
          rw [hpush] at hq'
          have hq'' : mk b ((objs ++ [r]).filter (fun o => !fits b o)) m0 m1 m2 m3 l = q' := by
            simpa [setObjects] using hq'
          rw [← hq''] at hP ⊢
          apply InBoundsFor_of_keys _ _ _ _ _ _ _ _ hb (fun h => hRb ((hP.mem_iff).mp h))
          intro j hj
          obtain ⟨-, -, kb, kI⟩ := hkeys j hj
          obtain ⟨bj, hbj, hqj⟩ := hfk j hj
          have hnj : ∀ Y, nodeAt (mk b Y m0 m1 m2 m3 l) j =
              nodeAt (mk b (objs ++ [r]) m0 m1 m2 m3 l) j := fun Y => rfl
          rw [hnj]
          rw [hbj] at kb kI
          have hfb : boundsOf (NewQuadTree (l + 1) bj) = quadrant b j := hqj.symm
          refine ⟨kb.trans hfb, kI (InBoundsFor_fresh R bj (l + 1)
            (quadrant_wellFormed b bj j hb hj hqj)) ?_⟩
          intro hR hidx bj' hbj'
          apply quadrant_contains b bj' R hb (hmoved hR)
          rw [hidx, ← hfb]
          exact hbj'
        · rw [if_neg h3] at hq'
          obtain ⟨hl, hobjs, hkeys0⟩ := Structured_keys b objs n0 n1 n2 n3 l hS h3
          have hIk := InBoundsFor_keys R b objs n0 n1 n2 n3 l hI
            (fun j hj => Structured_Shaped _ (hkeys0 j hj).2)
          have hch : ∀ j, isKey j →
              Structured (nodeAt (mk b (objs ++ [r]) n0 n1 n2 n3 l) j) ∧
              depthBudget (nodeAt (mk b (objs ++ [r]) n0 n1 n2 n3 l) j) ≤ fuel :=
            fun j hj => ⟨(hkeys0 j hj).2, hkB j hj⟩
          obtain ⟨m0, m1, m2, m3, hpush, hkeys⟩ :=
            pushDown_inBoundsFor R (InsertFuel fuel) fuel ih b l _ (objs ++ [r]) _ _ _ _
              hfit hch
          rw [hpush] at hq'
          have hq'' : mk b ((objs ++ [r]).filter (fun o => !fits b o)) m0 m1 m2 m3 l = q' := by
            simpa [setObjects] using hq'
          rw [← hq''] at hP ⊢
          apply InBoundsFor_of_keys _ _ _ _ _ _ _ _ hb (fun h => hRb ((hP.mem_iff).mp h))
          intro j hj
          obtain ⟨-, -, kb, kI⟩ := hkeys j hj
          have hnj : ∀ Y, nodeAt (mk b Y m0 m1 m2 m3 l) j =
              nodeAt (mk b (objs ++ [r]) m0 m1 m2 m3 l) j := fun Y => rfl
          have hnj0 : nodeAt (mk b (objs ++ [r]) n0 n1 n2 n3 l) j =
              nodeAt (mk b objs n0 n1 n2 n3 l) j := rfl
          rw [hnj]
          rw [hnj0] at kb kI
          refine ⟨kb.trans (hIk j hj).1, kI (hIk j hj).2 ?_⟩
          intro hR hidx bj' hbj'
          apply quadrant_contains b bj' R hb (hmoved hR)
          rw [hidx, ← (hIk j hj).1]
          exact hbj'
      · rw [if_neg h2] at hq'
        have hq'' : mk b (objs ++ [r]) n0 n1 n2 n3 l = q' := by simpa using hq'
        rw [← hq''] at hP ⊢
        exact ⟨hb, fun h => hRb ((hP.mem_iff).mp h), hI.2.2⟩

end OneRectangleInsert
section OneRectangleRetrieval

/-- A sequence of `Insert` calls keeps the containment invariant for `R`, whatever the
other rectangles are, provided `R`, if it is inserted, lies in the bounds of the root. -/
theorem InsertAll_inBoundsFor (R : Rectangle α) (rs : List (Rectangle α)) :
    ∀ q : QuadTree α, Structured q → InBoundsFor R q →
      (R ∈ rs → ∀ b, boundsOf q = some b → b.Contains R = true) →
      ∃ t, InsertAll q rs = some t ∧ Structured t ∧
        (allObjects t).Perm (rs ++ allObjects q) ∧ InBoundsFor R t := by
  induction rs with
  | nil =>
    intro q hS hI _
    exact ⟨q, rfl, hS, by simp, hI⟩
  | cons r rs ih =>
    intro q hS hI hR
    obtain ⟨q1, h1, ⟨-, -, hb1, -, hP1, -, -⟩, hS1, hI1⟩ :=
      InsertFuel_inBoundsFor R (depthBudget q) q r hS (le_refl _)
    have hIq1 : InBoundsFor R q1 :=
      hI1 hI (fun hrR b hb => hR (hrR ▸ List.mem_cons_self _ _) b hb)
    obtain ⟨t, ht, hSt, hPt, hIt⟩ := ih q1 hS1 hIq1
      (fun hmem b hb => hR (List.mem_cons_of_mem _ hmem) b (hb1 ▸ hb))
    have h1' : Insert q r = some q1 := h1
    refine ⟨t, by simp only [InsertAll, h1', ht], hSt, ?_, hIt⟩
    refine hPt.trans ?_
    refine (List.Perm.append_left rs hP1).trans ?_
    simp only [List.cons_append]
    exact List.perm_middle

/-- Under the containment invariant for `R`, if `R` is stored in the tree and intersects
the query, it is among the rectangles `Retrieve` collects. -/
theorem mem_retrieved_of_InBoundsFor (q : QuadTree α) (R rectangle : Rectangle α)
    (hI : InBoundsFor R q) (ho : R ∈ allObjects q) (hi : R.Intersects rectangle = true) :
    R ∈ retrieved q rectangle := by
  induction q with
  | nil => simp [allObjects] at ho
  | mk b objs n0 n1 n2 n3 l ih0 ih1 ih2 ih3 =>
    obtain ⟨_, _, hc⟩ := hI
    have key : ∀ n : QuadTree α, InBoundsFor R n → R ∈ allObjects n →
        (R ∈ retrieved n rectangle) →
        R ∈ (if n.hits rectangle then retrieved n rectangle else []) := by
      intro n hn hon hr
      cases n with
      | nil => simp [allObjects] at hon
      | mk bn objsn a0 a1 a2 a3 ln =>
        have hcn : bn.Contains R = true := hn.2.1 hon
        rw [if_pos (hits_of_contains (mk bn objsn a0 a1 a2 a3 ln) bn R rectangle rfl hcn hi)]
        exact hr
    simp only [allObjects, List.mem_append] at ho
    simp only [retrieved, List.mem_append]
    rcases hc with ⟨rfl, rfl, rfl, rfl⟩ | ⟨_, _, _, _, i0, i1, i2, i3⟩
    · simp [allObjects] at ho
      exact Or.inl ho
    · rcases ho with ho | ho | ho | ho | ho
      · exact Or.inl ho
      · exact Or.inr (Or.inl (key n0 i0 ho (ih0 i0 ho)))
      · exact Or.inr (Or.inr (Or.inl (key n1 i1 ho (ih1 i1 ho))))
      · exact Or.inr (Or.inr (Or.inr (Or.inl (key n2 i2 ho (ih2 i2 ho)))))
      · exact Or.inr (Or.inr (Or.inr (Or.inr (key n3 i3 ho (ih3 i3 ho)))))

/-- Where the loss of inserted rectangles stops: on a fresh root whose bounds are
well-formed, after any sequence of `Insert` calls with arbitrary rectangles, every
inserted rectangle `R` that lies in the bounds of the root is returned by `Retrieve` for
every query `Q` that `R` intersects, in whatever order the `range` loops run
(coordinates taken as exact numbers). -/
theorem Insert_inside_then_Retrieve (pLevel : Int) (bounds : Rectangle α)
    (rs : List (Rectangle α)) (hb : WellFormed bounds) :
    ∃ t, InsertAll (NewQuadTree pLevel bounds) rs = some t ∧
      ∀ R ∈ rs, bounds.Contains R = true → ∀ Q : Rectangle α, R.Intersects Q = true →
        ∀ (ord : RangeOrder) (result : List (Rectangle α)), R ∈ Retrieve t ord Q result := by
  have hS : Shaped (NewQuadTree pLevel bounds) := Or.inl ⟨rfl, rfl, rfl, rfl⟩
  obtain ⟨t, ht, -⟩ := InsertAll_post rs (NewQuadTree pLevel bounds) hS
  refine ⟨t, ht, ?_⟩
  intro R hR hin Q hQ ord result
  obtain ⟨t', ht', -, hP, hI⟩ := InsertAll_inBoundsFor R rs (NewQuadTree pLevel bounds)
    (Structured_fresh pLevel bounds) (InBoundsFor_fresh R bounds pLevel hb)
    (fun _ b hb' => by cases hb'; exact hin)
  have htt : t' = t := Option.some.inj (ht'.symm.trans ht)
  subst htt
  apply mem_Retrieve_of_mem_retrieved
  exact mem_retrieved_of_InBoundsFor t' R Q hI
    ((hP.mem_iff).mpr (List.mem_append_left _ hR)) hQ

/-- The twelve centre boxes and the outside box in the scenario root: the centre boxes,
which lie inside the root, are all retrieved. -/
theorem Insert_inside_then_Retrieve_scenario :
    WellFormed (NewRectangle (50 : ℤ) 50 50 50) ∧
      (NewRectangle (50 : ℤ) 50 50 50).Contains scenarioStraddler = true ∧
      (NewRectangle (50 : ℤ) 50 50 50).Contains scenarioOutside = false ∧
      ∃ t, InsertAll (NewQuadTree 0 (NewRectangle (50 : ℤ) 50 50 50))
          (List.replicate 12 scenarioStraddler ++ [scenarioOutside]) = some t ∧
        ∀ R ∈ List.replicate 12 scenarioStraddler ++ [scenarioOutside],
          (NewRectangle (50 : ℤ) 50 50 50).Contains R = true →
          ∀ Q : Rectangle ℤ, R.Intersects Q = true →
            ∀ (ord : RangeOrder) (result : List (Rectangle ℤ)), R ∈ Retrieve t ord Q result :=
  ⟨by unfold WellFormed; decide, by decide, by decide,
    Insert_inside_then_Retrieve 0 (NewRectangle 50 50 50 50)
      (List.replicate 12 scenarioStraddler ++ [scenarioOutside])
      (by unfold WellFormed; decide)⟩

end OneRectangleRetrieval

end Quad
